import Mathlib

/-!
Shallow embedding of the open-addressing hash container in
src/src/base/ds/Khash.h (class wanhive::Khash, map variant ISMAP = true),
together with proofs settling the frozen claims about it.

Modelling conventions:
* KEY and VALUE are Nat; the hash functor HFN is an arbitrary function
  field hfn : Nat -> Nat (the code casts its result to unsigned int and
  then masks with capacity - 1, so masking a Nat is the same observable
  arithmetic); the equality functor EQFN is Nat equality.
* The flag vector packs two bits per slot into 32-bit words; all of its
  accessors and mutators in the source touch exactly the two bits of one
  slot, so it is embedded per-slot as a function Nat -> Flag where Flag
  carries the two bits (empty, deleted).  A freshly allocated vector is
  memset to 0xaa, i.e. every slot reads empty = true, deleted = false.
* The key and value buffers are embedded as total functions Nat -> Nat.
  Memory::resize (realloc) preserves the prefix and leaves fresh cells
  uninitialized; the algorithms never read a cell they have not written
  (reads are guarded by flag state), so the identity embedding of the
  container resizing is exact.
* Loops are embedded with explicit fuel.  The probe loops of get and put
  break when the walk returns to its start index; for a power-of-two
  capacity c that happens at probe step 2c-1 at the latest (proved below
  as triangular-number facts), so fuel 2c makes the embedding exact on
  every state the program can actually reach.  Fuel exhaustion returns
  the same result as the full-circle break.
* calculateUpperBound computes (unsigned int)((capacity * 0.77) + 0.5) in
  IEEE double arithmetic.  Every call site passes a power of two at most
  2^32 (power2Ceil results and the capacity field): for those arguments
  the product is exact, the sum is exact, and the truncation equals the
  rational floor (77 * c + 50) / 100, which is how it is embedded here.
* remove computes its shrink target (size() / 0.77) * 1.5 in double
  arithmetic; it is embedded as the exact rational floor size * 150 / 77.
  The value is immediately rounded up to a power of two inside resize, so
  the at-most-two-ulp difference is invisible except on adversarial sizes.
-/

namespace wanhive

/-- Two status bits of one slot of the flag vector: bit 1 (empty) and
bit 0 (deleted) of the slot's 2-bit group. -/
structure Flag where
  empty : Bool
  deleted : Bool
  deriving DecidableEq, Repr

/-- A freshly allocated flag vector is memset to 0xaa: every slot has
empty = true, deleted = false. -/
def Flag.fresh : Flag := ⟨true, false⟩

/-- The bucket record of wanhive::Khash (map variant): capacity, size,
occupied, upperBound, the flag vector, the key and value buffers, and the
hash functor. -/
structure Khash where
  capacity : Nat
  size : Nat
  occupied : Nat
  upperBound : Nat
  flags : Nat → Flag
  keys : Nat → Nat
  vals : Nat → Nat
  hfn : Nat → Nat

namespace Khash

/-- Point update of a Nat-valued buffer. -/
def updFn (f : Nat → Nat) (i v : Nat) : Nat → Nat :=
  fun j => if j = i then v else f j

/-- isEmpty: bit 1 of the slot's flag group. -/
def isEmptyF (f : Nat → Flag) (i : Nat) : Bool := (f i).empty

/-- isDeleted: bit 0 of the slot's flag group. -/
def isDeletedF (f : Nat → Flag) (i : Nat) : Bool := (f i).deleted

/-- isEither: either of the two bits. -/
def isEitherF (f : Nat → Flag) (i : Nat) : Bool := (f i).empty || (f i).deleted

/-- setIsdeletedTrue: set bit 0 of slot i. -/
def setIsdeletedTrueF (f : Nat → Flag) (i : Nat) : Nat → Flag :=
  fun j => if j = i then { f i with deleted := true } else f j

/-- setIsemptyFalse: clear bit 1 of slot i. -/
def setIsemptyFalseF (f : Nat → Flag) (i : Nat) : Nat → Flag :=
  fun j => if j = i then { f i with empty := false } else f j

/-- setIsbothFalse: clear both bits of slot i (slot becomes live). -/
def setIsbothFalseF (f : Nat → Flag) (i : Nat) : Nat → Flag :=
  fun j => if j = i then ⟨false, false⟩ else f j

/-- linearProbe: (index + step) & mask. -/
def linearProbe (index step mask : Nat) : Nat := (index + step) &&& mask

/-- The n-th triangular number: the cumulative probe offset after n
steps of the quadratic-probe walk. -/
def tri (n : Nat) : Nat := n * (n + 1) / 2

/-- The n-th candidate slot of the probe walk started at h0 over a table
of capacity c. -/
def probePos (h0 c n : Nat) : Nat := (h0 + tri n) % c

/-- MIN_CAPACITY. -/
def MIN_CAPACITY : Nat := 16

/-- calculateUpperBound: (unsigned int)((capacity * 0.77) + 0.5), exact
for the power-of-two arguments of every call site (see file header). -/
def calculateUpperBound (c : Nat) : Nat := (77 * c + 50) / 100

/-- Helper for power2Ceil: keep doubling acc until it reaches n. -/
def power2CeilAux (n : Nat) : Nat → Nat → Nat
  | acc, 0 => acc
  | acc, fuel + 1 => if n ≤ acc then acc else power2CeilAux n (2 * acc) fuel

/-- Modelled from the spec: Twiddler::power2Ceil (Twiddler.h is not in
src/) rounds its argument up to the nearest power of two. -/
def power2Ceil (n : Nat) : Nat := power2CeilAux n 1 n

/-- begin(). -/
def beginIdx (_ : Khash) : Nat := 0

/-- end(): equal to the capacity. -/
def endIdx (s : Khash) : Nat := s.capacity

/-- exists(x): x < end() and the slot at x is neither empty nor deleted. -/
def existsIdx (s : Khash) (x : Nat) : Bool :=
  decide (x < s.endIdx) && !(isEitherF s.flags x)

/-- The continue condition of the probe loops of get and put:
!isEmpty(i) && (isDeleted(i) || !equal(key(i), key)). -/
def walkCond (s : Khash) (key i : Nat) : Bool :=
  !(s.flags i).empty && ((s.flags i).deleted || !(s.keys i == key))

/-- The probe loop of get.  Returns none when the walk comes back to its
start index (the defensive full-circle break, which returns end()), some i
when the loop stops at slot i.  Fuel exhaustion is mapped to the
full-circle break; get always supplies fuel 2 * capacity, which is enough
for a power-of-two capacity (proved below). -/
def getLoop (s : Khash) (key mask last : Nat) : Nat → Nat → Nat → Option Nat
  | _, _, 0 => none
  | i, step, fuel + 1 =>
    if walkCond s key i then
      let i2 := linearProbe i (step + 1) mask
      if i2 = last then none
      else getLoop s key mask last i2 (step + 1) fuel
    else some i

/-- get(key): probe from hash(key) & mask; returns end() when not found. -/
def get (s : Khash) (key : Nat) : Nat :=
  if s.capacity ≠ 0 then
    let mask := s.capacity - 1
    let i0 := mask &&& s.hfn key
    match getLoop s key mask i0 i0 0 (2 * s.capacity) with
    | none => s.endIdx
    | some i => if isEitherF s.flags i then s.endIdx else i
  else 0

/-- contains(key). -/
def contains (s : Khash) (key : Nat) : Bool := decide (get s key ≠ s.endIdx)

/-- The probe loop of put.  Carries the running index, the step counter
and site (the deleted slot most recently seen).  Returns the final index,
the final site and whether the loop ended by coming full circle back to
the start index.  Fuel exhaustion is mapped to the full-circle break;
put always supplies fuel 2 * capacity. -/
def putLoop (s : Khash) (key mask start : Nat) :
    Nat → Nat → Nat → Nat → Nat × Nat × Bool
  | i, _, site, 0 => (i, site, true)
  | i, step, site, fuel + 1 =>
    if walkCond s key i then
      let site2 := if (s.flags i).deleted then i else site
      let i2 := linearProbe i (step + 1) mask
      if i2 = start then (i2, site2, true)
      else putLoop s key mask start i2 (step + 1) site2 fuel
    else (i, site, false)

/-- The index selection of put(key, ret): the fast path on an empty
initial slot, otherwise the probe loop followed by the site / final-slot
selection. -/
def putIndex (s : Khash) (key : Nat) : Nat :=
  let mask := s.capacity - 1
  let i := mask &&& s.hfn key
  if (s.flags i).empty then i
  else
    match putLoop s key mask i i 0 s.endIdx (2 * s.capacity) with
    | (iF, siteF, circled) =>
      let index := if circled then siteF else s.endIdx
      if index = s.endIdx then
        if (s.flags iF).empty = true ∧ siteF ≠ s.endIdx then siteF else iF
      else index

/-- The claim-and-write phase of put(key, ret): claim the selected slot
and update the bookkeeping; returns (new state, iterator, ret). -/
def putCore (s : Khash) (key : Nat) : Khash × Nat × Nat :=
  let index := putIndex s key
  if (s.flags index).empty then
    ({ s with keys := updFn s.keys index key,
              flags := setIsbothFalseF s.flags index,
              size := s.size + 1, occupied := s.occupied + 1 }, index, 1)
  else if (s.flags index).deleted then
    ({ s with keys := updFn s.keys index key,
              flags := setIsbothFalseF s.flags index,
              size := s.size + 1 }, index, 2)
  else (s, index, 0)

/-- The working state of the rehash block of resize: the key and value
buffers, the old flag vector (tombstoned as items migrate) and the new
flag vector. -/
structure RehashSt where
  keys : Nat → Nat
  vals : Nat → Nat
  oldF : Nat → Flag
  newF : Nat → Flag

/-- The inner probe of the rehash block: walk the probe sequence over the
new flag vector until an empty slot is found.  The source loop has no
full-circle guard; fuel newCapacity is enough whenever the new vector
still has an empty slot (proved below), which resize's size guard
ensures on every reachable call. -/
def probeEmptyLoop (F : Nat → Flag) (mask : Nat) : Nat → Nat → Nat → Nat
  | i, _, 0 => i
  | i, step, fuel + 1 =>
    if (F i).empty then i
    else probeEmptyLoop F mask (linearProbe i (step + 1) mask) (step + 1) fuel

/-- The kick-out loop of resize: place the in-hand item at the first
empty slot of its probe sequence in the new flag vector; if that slot
still holds a not-yet-migrated live item of the old table, swap it out
and continue with the displaced item.  Each kick tombstones one old live
slot, so fuel oldCapacity + 1 is enough (proved below). -/
def kickLoop (oldCap newCap mask : Nat) (hfn : Nat → Nat) :
    RehashSt → Nat → Nat → Nat → RehashSt
  | st, _, _, 0 => st
  | st, key, val, fuel + 1 =>
    let i := probeEmptyLoop st.newF mask (mask &&& hfn key) 0 newCap
    let newF2 := setIsemptyFalseF st.newF i
    if i < oldCap ∧ isEitherF st.oldF i = false then
      let key2 := st.keys i
      let val2 := st.vals i
      kickLoop oldCap newCap mask hfn
        { keys := updFn st.keys i key, vals := updFn st.vals i val,
          oldF := setIsdeletedTrueF st.oldF i, newF := newF2 } key2 val2 fuel
    else
      { st with keys := updFn st.keys i key, vals := updFn st.vals i val,
                newF := newF2 }

/-- One iteration of the outer rehash loop: if slot j of the old table is
still live, tombstone it and migrate its entry through the kick-out
loop. -/
def rehashStep (oldCap newCap mask : Nat) (hfn : Nat → Nat)
    (st : RehashSt) (j : Nat) : RehashSt :=
  if isEitherF st.oldF j = false then
    kickLoop oldCap newCap mask hfn
      { st with oldF := setIsdeletedTrueF st.oldF j }
      (st.keys j) (st.vals j) (oldCap + 1)
  else st

/-- The capacity actually adopted by resize(newCapacity): rounded up to
a power of two and clamped below at MIN_CAPACITY. -/
def clampCap (n : Nat) : Nat :=
  if power2Ceil n < MIN_CAPACITY then MIN_CAPACITY else power2Ceil n

/-- The rehash block of resize: migrate every live entry of the old
table into a fresh flag vector of the given capacity (the container
buffer resizing of the source is the identity on the function embedding)
and adopt the new bookkeeping. -/
def rehashAll (s : Khash) (newCapacity : Nat) : Khash :=
  let mask := newCapacity - 1
  let st0 : RehashSt := ⟨s.keys, s.vals, s.flags, fun _ => Flag.fresh⟩
  let st := (List.range s.capacity).foldl
    (rehashStep s.capacity newCapacity mask s.hfn) st0
  { capacity := newCapacity, size := s.size, occupied := s.size,
    upperBound := calculateUpperBound newCapacity,
    flags := st.newF, keys := st.keys, vals := st.vals, hfn := s.hfn }

/-- resize(newCapacity): round up to a power of two, clamp at
MIN_CAPACITY, bail out when size does not fit under the new upper bound,
otherwise rehash. -/
def resize (s : Khash) (newCapacity0 : Nat) : Khash :=
  if s.size ≥ calculateUpperBound (clampCap newCapacity0) then s
  else rehashAll s (clampCap newCapacity0)

/-- The multiset of (key, value) pairs at live slots of the old flag
vector during a rehash. -/
def oldLiveE (oldCap : Nat) (st : RehashSt) : Multiset (Nat × Nat) :=
  ((Finset.range oldCap).filter
    (fun i => isEitherF st.oldF i = false)).val.map
    (fun i => (st.keys i, st.vals i))

/-- The multiset of (key, value) pairs at claimed slots of the new flag
vector during a rehash. -/
def newLiveE (newCap : Nat) (st : RehashSt) : Multiset (Nat × Nat) :=
  ((Finset.range newCap).filter
    (fun i => (st.newF i).empty = false)).val.map
    (fun i => (st.keys i, st.vals i))

/-- The number of still-live slots of the old flag vector. -/
def oldLiveCount (oldCap : Nat) (st : RehashSt) : Nat :=
  ((Finset.range oldCap).filter (fun i => isEitherF st.oldF i = false)).card

/-- The number of claimed slots of the new flag vector. -/
def newCount (newCap : Nat) (st : RehashSt) : Nat :=
  ((Finset.range newCap).filter (fun i => (st.newF i).empty = false)).card

/-- The structural invariant of the rehash loops: no slot is both
old-live and new-claimed, the new vector has no tombstones, and every
claimed slot of the new vector is reachable by probing for its key. -/
structure RCore (oldCap newCap : Nat) (hfn : Nat → Nat) (st : RehashSt) : Prop where
  disj : ∀ i, i < oldCap → isEitherF st.oldF i = false → (st.newF i).empty = true
  noDel : ∀ i, (st.newF i).deleted = false
  placedNew : ∀ p, p < newCap → (st.newF p).empty = false →
    ∃ n, n < newCap ∧ probePos (hfn (st.keys p) % newCap) newCap n = p ∧
      ∀ m, m < n →
        (st.newF (probePos (hfn (st.keys p) % newCap) newCap m)).empty = false

/-- The automatic-resize step at the top of put(key, ret). -/
def putResize (s : Khash) : Khash :=
  if s.occupied ≥ s.upperBound then
    if s.capacity > 2 * s.size then resize s (s.capacity - 1)
    else resize s (s.capacity + 1)
  else s

/-- put(key, ret): automatic resize, then probe and claim. -/
def put (s : Khash) (key : Nat) : Khash × Nat × Nat :=
  putCore (putResize s) key

/-- The tombstoning step of remove: mark the slot deleted and decrement
size. -/
def markSlot (s : Khash) (x : Nat) : Khash :=
  { s with flags := setIsdeletedTrueF s.flags x, size := s.size - 1 }

/-- remove(x, shrink): tombstone the slot if it is live, then maybe
shrink.  The shrink target (size() / 0.77) * 1.5 is embedded as the exact
rational floor size * 150 / 77 (see file header). -/
def remove (s : Khash) (x : Nat) (shrink : Bool) : Khash :=
  let s2 := if existsIdx s x then
      { s with flags := setIsdeletedTrueF s.flags x, size := s.size - 1 }
    else s
  if shrink = true ∧ s2.size > 4096 ∧ s2.size < s2.capacity >>> 2 then
    resize s2 (s2.size * 150 / 77)
  else s2

/-- removeKey(key): get then remove (shrink enabled by default). -/
def removeKey (s : Khash) (key : Nat) : Bool × Khash :=
  let i := get s key
  if i ≠ s.endIdx then (true, remove s i true) else (false, s)

/-- hmGet(key, val): the bool result and the out-parameter together as an
Option. -/
def hmGet (s : Khash) (key : Nat) : Option Nat :=
  let i := get s key
  if i ≠ s.endIdx then some (s.vals i) else none

/-- hmPut(key, val): put, then assign the value if a slot was claimed. -/
def hmPut (s : Khash) (key val : Nat) : Bool × Khash :=
  match put s key with
  | (s2, i, ret) =>
    if ret ≠ 0 then (true, { s2 with vals := updFn s2.vals i val })
    else (false, s2)

/-- setValue(x, value). -/
def setValue (s : Khash) (x v : Nat) : Bool × Khash :=
  if existsIdx s x then (true, { s with vals := updFn s.vals x v })
  else (false, s)

/-- getKey(x, key): the bool result and the out-parameter as an Option. -/
def getKeyAt (s : Khash) (x : Nat) : Option Nat :=
  if existsIdx s x then some (s.keys x) else none

/-- getValue(x, value): the bool result and the out-parameter as an
Option (ISMAP is true in this embedding). -/
def getValueAt (s : Khash) (x : Nat) : Option Nat :=
  if existsIdx s x then some (s.vals x) else none

/-- getValueReference(x): a valid pointer is some, nullptr is none. -/
def getValueReference (s : Khash) (x : Nat) : Option Nat :=
  if existsIdx s x then some (s.vals x) else none

/-- hmSwap(first, second, iterators, swap): returns (result, the two
iterators, the new state). -/
def hmSwap (s : Khash) (first second : Nat) (swap : Bool) :
    Bool × (Nat × Nat) × Khash :=
  let fi := get s first
  let si := if first ≠ second then get s second else fi
  if fi = si then (existsIdx s fi, (fi, si), s)
  else if existsIdx s fi = true ∧ existsIdx s si = true ∧ swap = true then
    let fv := s.vals fi
    let sv := s.vals si
    (true, (fi, si), { s with vals := updFn (updFn s.vals fi sv) si fv })
  else if existsIdx s fi = true ∧ existsIdx s si = false then
    let fv := s.vals fi
    let s2 := remove s fi true
    match put s2 second with
    | (s3, si2, _) =>
      (true, (s3.endIdx, si2), { s3 with vals := updFn s3.vals si2 fv })
  else if existsIdx s fi = false ∧ existsIdx s si = true then
    let sv := s.vals si
    let s2 := remove s si true
    match put s2 first with
    | (s3, fi2, _) =>
      (true, (fi2, s3.endIdx), { s3 with vals := updFn s3.vals fi2 sv })
  else (false, (fi, si), s)

/-- clear(): reset every flag slot to fresh, zero size and occupied. -/
def clear (s : Khash) : Khash :=
  { s with flags := fun _ => Flag.fresh, size := 0, occupied := 0 }

/-- The default-constructed table: bucket memset to zero (capacity, size,
occupied, upperBound all 0; the buffers are null and never read while
capacity is 0). -/
def init (hfn : Nat → Nat) : Khash :=
  ⟨0, 0, 0, 0, fun _ => Flag.fresh, fun _ => 0, fun _ => 0, hfn⟩

/-- The start position of the probe walk for a key: hash(key) & mask,
written as a remainder (equal for power-of-two capacities). -/
def startPos (s : Khash) (key : Nat) : Nat := s.hfn key % s.capacity

/-- The value of put's site variable when the probe loop reaches step n:
the most recently seen deleted slot of the walk, end() when none was
seen yet. -/
def siteSpec (s : Khash) (key : Nat) : Nat → Nat
  | 0 => s.capacity
  | m + 1 =>
    if (s.flags (probePos (startPos s key) s.capacity m)).deleted then
      probePos (startPos s key) s.capacity m
    else siteSpec s key m

/-- The number of live slots. -/
def countLive (s : Khash) : Nat :=
  ((Finset.range s.capacity).filter
    (fun i => isEitherF s.flags i = false)).card

/-- The number of occupied (live or deleted) slots. -/
def countNonEmpty (s : Khash) : Nat :=
  ((Finset.range s.capacity).filter
    (fun i => (s.flags i).empty = false)).card

/-- Every live slot can be reached by probing for its own key: some probe
step n lands on it and all earlier candidates are non-empty.  This is the
searchability invariant of open addressing with tombstones. -/
def Placed (s : Khash) : Prop :=
  ∀ p, p < s.capacity → isEitherF s.flags p = false →
    ∃ n, n < s.capacity ∧
      probePos (startPos s (s.keys p)) s.capacity n = p ∧
      ∀ m, m < n →
        (s.flags (probePos (startPos s (s.keys p)) s.capacity m)).empty = false

/-- Live slots hold pairwise distinct keys. -/
def DistinctKeys (s : Khash) : Prop :=
  ∀ i j, i < s.capacity → j < s.capacity →
    isEitherF s.flags i = false → isEitherF s.flags j = false →
    s.keys i = s.keys j → i = j

/-- The multiset of (key, value) pairs stored at live slots. -/
def liveEntries (s : Khash) : Multiset (Nat × Nat) :=
  ((Finset.range s.capacity).filter
    (fun i => isEitherF s.flags i = false)).val.map
    (fun i => (s.keys i, s.vals i))

/-- The well-formedness invariant of every reachable table state. -/
structure Inv (s : Khash) : Prop where
  capPow : s.capacity = 0 ∨ ∃ k, 4 ≤ k ∧ s.capacity = 2 ^ k
  sizeEq : s.size = countLive s
  occEq : s.occupied = countNonEmpty s
  ubEq : s.upperBound = calculateUpperBound s.capacity
  occLe : s.occupied ≤ s.upperBound
  distinct : DistinctKeys s
  placed : Placed s

/-- The states reachable from a default-constructed table through the
mutating operations (the wrappers hmPut, hmSwap, removeKey, hmGet are
compositions of these primitives plus value writes). -/
inductive Reachable (hfn : Nat → Nat) : Khash → Prop where
  | start : Reachable hfn (init hfn)
  | step_put (s : Khash) (key : Nat) :
      Reachable hfn s → Reachable hfn (put s key).1
  | step_remove (s : Khash) (x : Nat) (b : Bool) :
      Reachable hfn s → Reachable hfn (remove s x b)
  | step_resize (s : Khash) (n : Nat) :
      Reachable hfn s → Reachable hfn (resize s n)
  | step_clear (s : Khash) :
      Reachable hfn s → Reachable hfn (clear s)
  | step_setValue (s : Khash) (x v : Nat) :
      Reachable hfn s → Reachable hfn (setValue s x v).2

/-- The identity hash functor used by the concrete test states (keys are
the numeric identities the platform stores). -/
def idHash : Nat → Nat := fun x => x

/-- Insert a list of key/value pairs through hmPut. -/
def hmPutAll (s : Khash) (l : List (Nat × Nat)) : Khash :=
  l.foldl (fun t kv => (hmPut t kv.1 kv.2).2) s

/-- Remove a list of keys through removeKey. -/
def removeKeys (s : Khash) (l : List Nat) : Khash :=
  l.foldl (fun t k => (removeKey t k).2) s

/-- The pairs (i, i + 100) for i below n. -/
def pairsUpTo (n : Nat) : List (Nat × Nat) :=
  (List.range n).map (fun i => (i, i + 100))

/-- A table holding the 12 keys 0..11: size = occupied = upperBound = 12
at capacity 16. -/
def tableTwelve : Khash := hmPutAll (init idHash) (pairsUpTo 12)

/-- tableTwelve with keys 2..11 removed: size 2, occupied 12 (ten
tombstones), upperBound 12, so the very next put triggers the
tombstone-purging resize. -/
def tableTombs : Khash :=
  removeKeys tableTwelve [2, 3, 4, 5, 6, 7, 8, 9, 10, 11]

/-- Keys 0 and 16 both hash to slot 0 at capacity 16; removing both
leaves tombstones at slots 0 and 1 on the probe path of key 32. -/
def tableTwoTombs : Khash :=
  removeKeys (hmPutAll (init idHash) [(0, 10), (16, 20)]) [0, 16]

/-- A small one-entry table used to witness termination facts. -/
def tableOne : Khash := hmPutAll (init idHash) [(1, 10)]

/-- A table holding keys 1 (value 10) and 3 (value 20), the swap
scenario of the spec. -/
def tableSwap : Khash := hmPutAll (init idHash) [(1, 10), (3, 20)]

theorem two_mul_tri (n : Nat) : 2 * tri n = n * (n + 1) :=
  Nat.mul_div_cancel' (Nat.even_mul_succ_self n).two_dvd

theorem tri_succ (n : Nat) : tri (n + 1) = tri n + (n + 1) := by
  have h1 := two_mul_tri n
  have h2 := two_mul_tri (n + 1)
  have h3 : (n + 1) * (n + 1 + 1) = n * (n + 1) + 2 * (n + 1) := by ring
  omega

theorem tri_mono {a b : Nat} (h : a ≤ b) : tri a ≤ tri b :=
  Nat.div_le_div_right (Nat.mul_le_mul h (by omega))

theorem tri_mod_inj_le {k a b : Nat} (ha : a < 2 ^ k) (hb : b < 2 ^ k)
    (hab : a ≤ b) (h : tri a % 2 ^ k = tri b % 2 ^ k) : a = b := by
  obtain ⟨d, rfl⟩ := Nat.le.dest hab
  have hdvd : 2 ^ k ∣ tri (a + d) - tri a :=
    (Nat.modEq_iff_dvd' (tri_mono (Nat.le_add_right a d))).mp h
  have h2 : 2 * (tri (a + d) - tri a) = d * (2 * a + d + 1) := by
    have e1 := two_mul_tri a
    have e2 := two_mul_tri (a + d)
    have e3 : (a + d) * (a + d + 1) = a * (a + 1) + d * (2 * a + d + 1) := by
      ring
    omega
  have hdvd2 : 2 ^ (k + 1) ∣ d * (2 * a + d + 1) := by
    rw [← h2, pow_succ, Nat.mul_comm (2 ^ k) 2]
    exact Nat.mul_dvd_mul_left 2 hdvd
  rcases Nat.even_or_odd d with hde | hdo
  · -- d even, 2a + d + 1 odd: the power of two divides d, forcing d = 0
    have hodd : Odd (2 * a + d + 1) := by
      rcases hde with ⟨m, rfl⟩
      exact ⟨a + m, by ring⟩
    have hco : Nat.Coprime (2 ^ (k + 1)) (2 * a + d + 1) :=
      Nat.Coprime.pow_left _ (Nat.coprime_two_left.mpr hodd)
    have hd : 2 ^ (k + 1) ∣ d := hco.dvd_of_dvd_mul_right hdvd2
    rcases Nat.eq_zero_or_pos d with rfl | hdpos
    · rfl
    · have hge := Nat.le_of_dvd hdpos hd
      have hk2 : 2 ^ (k + 1) = 2 * 2 ^ k := by rw [pow_succ]; ring
      have hb2 : a + d < 2 ^ k := hb
      omega
  · -- d odd: the power of two divides 2a + d + 1, which is too small
    have hco : Nat.Coprime (2 ^ (k + 1)) d :=
      Nat.Coprime.pow_left _ (Nat.coprime_two_left.mpr hdo)
    have hd : 2 ^ (k + 1) ∣ 2 * a + d + 1 := by
      have := hco.dvd_of_dvd_mul_left hdvd2
      exact this
    have hle : 2 ^ (k + 1) ≤ 2 * a + d + 1 :=
      Nat.le_of_dvd (by omega) hd
    have hb2 : a + d < 2 ^ k := hb
    have hk2 : 2 ^ (k + 1) = 2 * 2 ^ k := by rw [pow_succ]; ring
    omega

theorem tri_mod_inj {k a b : Nat} (ha : a < 2 ^ k) (hb : b < 2 ^ k)
    (h : tri a % 2 ^ k = tri b % 2 ^ k) : a = b := by
  rcases Nat.le_total a b with hab | hab
  · exact tri_mod_inj_le ha hb hab h
  · exact (tri_mod_inj_le hb ha hab h.symm).symm

theorem probePos_lt (h0 n : Nat) {c : Nat} (hc : 0 < c) :
    probePos h0 c n < c := Nat.mod_lt _ hc

theorem probePos_inj {k h0 a b : Nat} (ha : a < 2 ^ k) (hb : b < 2 ^ k)
    (h : probePos h0 (2 ^ k) a = probePos h0 (2 ^ k) b) : a = b := by
  apply tri_mod_inj ha hb
  have := Nat.ModEq.add_left_cancel' h0 (show (h0 + tri a) % 2 ^ k = (h0 + tri b) % 2 ^ k from h)
  exact this

theorem probePos_cover {k : Nat} (h0 : Nat) {t : Nat} (ht : t < 2 ^ k) :
    ∃ n < 2 ^ k, probePos h0 (2 ^ k) n = t := by
  classical
  have hcpos : 0 < 2 ^ k := Nat.pos_pow_of_pos k (by omega)
  have hinj : Set.InjOn (probePos h0 (2 ^ k)) (Finset.range (2 ^ k)) := by
    intro a ha b hb hab
    exact probePos_inj (Finset.mem_range.mp ha) (Finset.mem_range.mp hb) hab
  have hsub : (Finset.range (2 ^ k)).image (probePos h0 (2 ^ k)) ⊆
      Finset.range (2 ^ k) := by
    intro x hx
    obtain ⟨n, _, rfl⟩ := Finset.mem_image.mp hx
    exact Finset.mem_range.mpr (probePos_lt h0 n hcpos)
  have hcard : (Finset.range (2 ^ k)).card ≤
      ((Finset.range (2 ^ k)).image (probePos h0 (2 ^ k))).card := by
    rw [Finset.card_image_of_injOn hinj]
  have heq := Finset.eq_of_subset_of_card_le hsub hcard
  have : t ∈ (Finset.range (2 ^ k)).image (probePos h0 (2 ^ k)) := by
    rw [heq]; exact Finset.mem_range.mpr ht
  obtain ⟨n, hn, hnt⟩ := Finset.mem_image.mp this
  exact ⟨n, Finset.mem_range.mp hn, hnt⟩

theorem probePos_zero (h0 c : Nat) : probePos h0 c 0 = h0 % c := by
  simp [probePos, tri]

theorem probePos_zero_lt {h0 c : Nat} (h : h0 < c) : probePos h0 c 0 = h0 := by
  rw [probePos_zero]; exact Nat.mod_eq_of_lt h

theorem probePos_step (k h0 n : Nat) :
    linearProbe (probePos h0 (2 ^ k) n) (n + 1) (2 ^ k - 1) =
      probePos h0 (2 ^ k) (n + 1) := by
  unfold linearProbe probePos
  rw [Nat.and_pow_two_sub_one_eq_mod, Nat.mod_add_mod, tri_succ, Nat.add_assoc]

theorem tri_period (k : Nat) : tri (2 ^ (k + 1) - 1) % 2 ^ k = 0 := by
  have hm : 2 ^ (k + 1) - 1 + 1 = 2 * 2 ^ k := by
    have h1 : 0 < 2 ^ (k + 1) := Nat.pos_pow_of_pos _ (by omega)
    have h2 : 2 ^ (k + 1) = 2 * 2 ^ k := by rw [pow_succ]; ring
    omega
  have h3 := two_mul_tri (2 ^ (k + 1) - 1)
  rw [hm] at h3
  have h4 : tri (2 ^ (k + 1) - 1) = (2 ^ (k + 1) - 1) * 2 ^ k := by
    apply Nat.eq_of_mul_eq_mul_left (show 0 < 2 by omega)
    rw [h3]; ring
  rw [h4, Nat.mul_mod_left]

theorem tri_min_period {k n : Nat} (h1 : 0 < n) (h2 : n < 2 ^ (k + 1) - 1) :
    tri n % 2 ^ k ≠ 0 := by
  intro h
  have hdvd : 2 ^ k ∣ tri n := Nat.dvd_of_mod_eq_zero h
  have hdvd2 : 2 ^ (k + 1) ∣ n * (n + 1) := by
    rw [← two_mul_tri n, pow_succ, Nat.mul_comm (2 ^ k) 2]
    exact Nat.mul_dvd_mul_left 2 hdvd
  have hk2 : 2 ^ (k + 1) = 2 * 2 ^ k := by rw [pow_succ]; ring
  rcases Nat.even_or_odd n with hne | hno
  · have hodd : Odd (n + 1) := Even.add_one hne
    have hco : Nat.Coprime (2 ^ (k + 1)) (n + 1) :=
      Nat.Coprime.pow_left _ (Nat.coprime_two_left.mpr hodd)
    have hd : 2 ^ (k + 1) ∣ n := hco.dvd_of_dvd_mul_right hdvd2
    have := Nat.le_of_dvd h1 hd
    omega
  · have hco : Nat.Coprime (2 ^ (k + 1)) n :=
      Nat.Coprime.pow_left _ (Nat.coprime_two_left.mpr hno)
    have hd : 2 ^ (k + 1) ∣ n + 1 := hco.dvd_of_dvd_mul_left hdvd2
    have := Nat.le_of_dvd (by omega) hd
    omega

theorem probePos_back {k h0 n : Nat} (h1 : 0 < n) (h2 : n < 2 ^ (k + 1) - 1)
    (h : probePos h0 (2 ^ k) n = probePos h0 (2 ^ k) 0) : False := by
  have hmod : tri n % 2 ^ k = tri 0 % 2 ^ k :=
    Nat.ModEq.add_left_cancel' h0 h
  simp only [tri, Nat.zero_mul, Nat.zero_div, Nat.zero_mod] at hmod
  exact tri_min_period h1 h2 hmod

theorem probePos_full_circle (k h0 : Nat) :
    probePos h0 (2 ^ k) (2 ^ (k + 1) - 1) = probePos h0 (2 ^ k) 0 := by
  unfold probePos
  rw [Nat.add_mod h0 (tri (2 ^ (k + 1) - 1)), tri_period]
  simp [tri]

theorem power2CeilAux_spec (n : Nat) : ∀ fuel j, n ≤ 2 ^ j * 2 ^ fuel →
    ∃ m, j ≤ m ∧ power2CeilAux n (2 ^ j) fuel = 2 ^ m ∧ n ≤ 2 ^ m ∧
      ∀ i, j ≤ i → n ≤ 2 ^ i → m ≤ i := by
  intro fuel
  induction fuel with
  | zero =>
    intro j hj
    refine ⟨j, Nat.le_refl j, rfl, by simpa using hj, fun i hi _ => hi⟩
  | succ fuel ih =>
    intro j hj
    by_cases hle : n ≤ 2 ^ j
    · exact ⟨j, Nat.le_refl j, by simp [power2CeilAux, hle], hle,
        fun i hi _ => hi⟩
    · have hrec : power2CeilAux n (2 ^ j) (fuel + 1) =
          power2CeilAux n (2 ^ (j + 1)) fuel := by
        simp [power2CeilAux, hle, pow_succ, Nat.mul_comm]
      have hj2 : n ≤ 2 ^ (j + 1) * 2 ^ fuel := by
        have : 2 ^ j * 2 ^ (fuel + 1) = 2 ^ (j + 1) * 2 ^ fuel := by
          rw [pow_succ, pow_succ]; ring
        omega
      obtain ⟨m, hm1, hm2, hm3, hm4⟩ := ih (j + 1) hj2
      refine ⟨m, by omega, by rw [hrec]; exact hm2, hm3, ?_⟩
      intro i hi hni
      rcases Nat.lt_or_ge j i with h | h
      · exact hm4 i h hni
      · have : i = j := by omega
        subst this
        exact absurd hni hle

theorem power2Ceil_spec (n : Nat) :
    ∃ m, power2Ceil n = 2 ^ m ∧ n ≤ 2 ^ m ∧ ∀ i, n ≤ 2 ^ i → m ≤ i := by
  have h : n ≤ 2 ^ 0 * 2 ^ n := by
    have := Nat.lt_two_pow n
    omega
  obtain ⟨m, _, hm2, hm3, hm4⟩ := power2CeilAux_spec n n 0 h
  exact ⟨m, hm2, hm3, fun i hi => hm4 i (Nat.zero_le i) hi⟩

theorem power2Ceil_pow (k : Nat) : power2Ceil (2 ^ k) = 2 ^ k := by
  obtain ⟨m, h1, h2, h3⟩ := power2Ceil_spec (2 ^ k)
  have hmk : m ≤ k := h3 k (Nat.le_refl _)
  have hkm : k ≤ m := (Nat.pow_le_pow_iff_right (by omega)).mp h2
  rw [h1]
  congr 1
  omega

theorem power2Ceil_pred (k : Nat) (hk : 2 ≤ k) :
    power2Ceil (2 ^ k - 1) = 2 ^ k := by
  obtain ⟨m, h1, h2, h3⟩ := power2Ceil_spec (2 ^ k - 1)
  have hone : 1 ≤ 2 ^ k := Nat.one_le_two_pow
  have hmk : m ≤ k := h3 k (by omega)
  have hkm : k ≤ m := by
    by_contra hcon
    have hmk1 : m ≤ k - 1 := by omega
    have hlt : 2 ^ m ≤ 2 ^ (k - 1) := Nat.pow_le_pow_right (by omega) hmk1
    have hsplit : 2 ^ k = 2 ^ (k - 1) * 2 := by
      rw [← pow_succ]
      congr 1
      omega
    have hgap : 2 ^ (k - 1) < 2 ^ k - 1 := by
      have h2k1 : 2 ≤ 2 ^ (k - 1) := by
        calc 2 = 2 ^ 1 := by norm_num
        _ ≤ 2 ^ (k - 1) := Nat.pow_le_pow_right (by omega) (by omega)
      omega
    omega
  rw [h1]
  congr 1
  omega

theorem power2Ceil_succ_pow (k : Nat) :
    power2Ceil (2 ^ k + 1) = 2 ^ (k + 1) := by
  obtain ⟨m, h1, h2, h3⟩ := power2Ceil_spec (2 ^ k + 1)
  have hup : 2 ^ k + 1 ≤ 2 ^ (k + 1) := by
    have : 1 ≤ 2 ^ k := Nat.one_le_two_pow
    have : 2 ^ (k + 1) = 2 * 2 ^ k := by rw [pow_succ]; ring
    omega
  have hmk : m ≤ k + 1 := h3 (k + 1) hup
  have hkm : k + 1 ≤ m := by
    by_contra hcon
    have : 2 ^ m ≤ 2 ^ k := Nat.pow_le_pow_right (by omega) (by omega)
    omega
  rw [h1]
  congr 1
  omega

theorem calculateUpperBound_lt {c : Nat} (hc : 3 ≤ c) :
    calculateUpperBound c < c := by
  unfold calculateUpperBound
  rw [Nat.div_lt_iff_lt_mul (by omega : 0 < 100)]
  omega

theorem calculateUpperBound_ge_half (c : Nat) :
    (c + 1) / 2 ≤ calculateUpperBound c := by
  unfold calculateUpperBound
  have h1 : (c + 1) / 2 = 50 * (c + 1) / 100 := by
    have := Nat.mul_div_mul_left (c + 1) 2 (show 0 < 50 by omega)
    omega
  rw [h1]
  exact Nat.div_le_div_right (by omega)

theorem mask_start {k : Nat} (s : Khash) (key : Nat) (hc : s.capacity = 2 ^ k) :
    (s.capacity - 1) &&& s.hfn key = probePos (startPos s key) s.capacity 0 := by
  rw [probePos_zero, startPos, Nat.mod_mod_of_dvd _ (Nat.dvd_refl s.capacity),
    hc, Nat.and_comm, Nat.and_pow_two_sub_one_eq_mod]

theorem capacity_pos {k : Nat} (s : Khash) (hc : s.capacity = 2 ^ k) :
    0 < s.capacity := by
  rw [hc]; exact Nat.pos_pow_of_pos k (by omega)

theorem probePos_ne_zero_pos {k : Nat} (s : Khash) (key : Nat)
    (hc : s.capacity = 2 ^ k) {n : Nat} (h1 : 0 < n) (h2 : n < s.capacity) :
    probePos (startPos s key) s.capacity n ≠
      probePos (startPos s key) s.capacity 0 := by
  intro h
  rw [hc] at h
  apply probePos_back h1 ?_ h
  have h2k : 2 ^ k ≥ 2 := by
    have := h2
    rw [hc] at this
    omega
  have : 2 ^ (k + 1) = 2 * 2 ^ k := by rw [pow_succ]; ring
  rw [hc] at h2
  omega

theorem getLoop_find {k : Nat} (s : Khash) (key nstar : Nat)
    (hc : s.capacity = 2 ^ k)
    (hstop : walkCond s key (probePos (startPos s key) s.capacity nstar) = false)
    (hcont : ∀ m, m < nstar →
      walkCond s key (probePos (startPos s key) s.capacity m) = true)
    (hns : nstar < s.capacity) :
    ∀ fuel n, n ≤ nstar → nstar - n < fuel →
      getLoop s key (s.capacity - 1)
        (probePos (startPos s key) s.capacity 0)
        (probePos (startPos s key) s.capacity n) n fuel =
        some (probePos (startPos s key) s.capacity nstar) := by
  intro fuel
  induction fuel with
  | zero => intro n _ h; omega
  | succ fuel ih =>
    intro n hn hfuel
    by_cases heq : n = nstar
    · subst heq
      simp [getLoop, hstop]
    · have hnlt : n < nstar := by omega
      have hcn := hcont n hnlt
      have hstep : linearProbe (probePos (startPos s key) s.capacity n)
          (n + 1) (s.capacity - 1) =
          probePos (startPos s key) s.capacity (n + 1) := by
        rw [hc]; exact probePos_step k (startPos s key) n
      have hne : probePos (startPos s key) s.capacity (n + 1) ≠
          probePos (startPos s key) s.capacity 0 :=
        probePos_ne_zero_pos s key hc (by omega) (by omega)
      have hunfold : getLoop s key (s.capacity - 1)
          (probePos (startPos s key) s.capacity 0)
          (probePos (startPos s key) s.capacity n) n (fuel + 1) =
          getLoop s key (s.capacity - 1)
          (probePos (startPos s key) s.capacity 0)
          (probePos (startPos s key) s.capacity (n + 1)) (n + 1) fuel := by
        simp only [getLoop, hcn, if_true]
        rw [hstep, if_neg hne]
      rw [hunfold]
      exact ih (n + 1) (by omega) (by omega)

theorem getLoop_sound (s : Khash) (key mask last : Nat) :
    ∀ fuel i step j, i ≤ mask →
      getLoop s key mask last i step fuel = some j →
      walkCond s key j = false ∧ j ≤ mask := by
  intro fuel
  induction fuel with
  | zero => intro i step j _ h; simp [getLoop] at h
  | succ fuel ih =>
    intro i step j hi h
    by_cases hcnd : walkCond s key i = true
    · simp only [getLoop, hcnd, if_true] at h
      by_cases hlast : linearProbe i (step + 1) mask = last
      · rw [if_pos hlast] at h
        exact absurd h (by simp)
      · rw [if_neg hlast] at h
        exact ih _ _ _ Nat.and_le_right h
    · have hcnd2 : walkCond s key i = false := by
        cases hcf : walkCond s key i
        · rfl
        · exact absurd hcf hcnd
      simp only [getLoop, hcnd2, ite_false] at h
      cases h
      exact ⟨hcnd2, hi⟩

theorem walkCond_false_of_live (s : Khash) (key i : Nat)
    (hlive : isEitherF s.flags i = false) (hkey : s.keys i = key) :
    walkCond s key i = false := by
  unfold isEitherF at hlive
  rw [Bool.or_eq_false_iff] at hlive
  simp [walkCond, hlive.1, hlive.2, hkey]

theorem walkCond_false_of_empty (s : Khash) (key i : Nat)
    (hemp : (s.flags i).empty = true) : walkCond s key i = false := by
  simp [walkCond, hemp]

theorem get_unfold (s : Khash) (key : Nat) (h : s.capacity ≠ 0) :
    get s key =
      match getLoop s key (s.capacity - 1) ((s.capacity - 1) &&& s.hfn key)
        ((s.capacity - 1) &&& s.hfn key) 0 (2 * s.capacity) with
      | none => s.endIdx
      | some i => if isEitherF s.flags i then s.endIdx else i := by
  simp only [get, h, ne_eq, not_false_eq_true, if_true]

theorem get_found {k : Nat} (s : Khash) (key nstar : Nat)
    (hc : s.capacity = 2 ^ k)
    (hlive : isEitherF s.flags (probePos (startPos s key) s.capacity nstar) = false)
    (hkey : s.keys (probePos (startPos s key) s.capacity nstar) = key)
    (hcont : ∀ m, m < nstar →
      walkCond s key (probePos (startPos s key) s.capacity m) = true)
    (hns : nstar < s.capacity) :
    get s key = probePos (startPos s key) s.capacity nstar := by
  have hcpos := capacity_pos s hc
  have hstop := walkCond_false_of_live s key _ hlive hkey
  rw [get_unfold s key (by omega), mask_start s key hc]
  rw [getLoop_find s key nstar hc hstop hcont hns (2 * s.capacity) 0
    (Nat.zero_le _) (by omega)]
  simp only [hlive, Bool.false_eq_true, if_false]

theorem get_eq_of_loop_some (s : Khash) (key i : Nat) (h : s.capacity ≠ 0)
    (hgl : getLoop s key (s.capacity - 1) ((s.capacity - 1) &&& s.hfn key)
      ((s.capacity - 1) &&& s.hfn key) 0 (2 * s.capacity) = some i) :
    get s key = if isEitherF s.flags i then s.endIdx else i := by
  rw [get_unfold s key h, hgl]

theorem get_eq_of_loop_none (s : Khash) (key : Nat) (h : s.capacity ≠ 0)
    (hgl : getLoop s key (s.capacity - 1) ((s.capacity - 1) &&& s.hfn key)
      ((s.capacity - 1) &&& s.hfn key) 0 (2 * s.capacity) = none) :
    get s key = s.endIdx := by
  rw [get_unfold s key h, hgl]

theorem get_live (s : Khash) (key : Nat) (h : get s key ≠ s.endIdx) :
    get s key < s.capacity ∧ isEitherF s.flags (get s key) = false ∧
      s.keys (get s key) = key := by
  by_cases hc0 : s.capacity = 0
  · exfalso
    apply h
    simp [get, hc0, endIdx]
  · cases hgl : getLoop s key (s.capacity - 1) ((s.capacity - 1) &&& s.hfn key)
        ((s.capacity - 1) &&& s.hfn key) 0 (2 * s.capacity) with
    | none => exact absurd (get_eq_of_loop_none s key hc0 hgl) h
    | some i =>
      have hgeq := get_eq_of_loop_some s key i hc0 hgl
      have hsound := getLoop_sound s key (s.capacity - 1)
        ((s.capacity - 1) &&& s.hfn key) (2 * s.capacity)
        ((s.capacity - 1) &&& s.hfn key) 0 i Nat.and_le_left hgl
      by_cases hie : isEitherF s.flags i = true
      · rw [hgeq, hie] at h
        simp at h
      · have hie2 : isEitherF s.flags i = false := by
          cases hx : isEitherF s.flags i
          · rfl
          · exact absurd hx hie
        rw [hie2] at hgeq
        simp only [Bool.false_eq_true, if_false] at hgeq
        rw [hgeq]
        have hkey : s.keys i = key := by
          have hcond := hsound.1
          unfold walkCond at hcond
          unfold isEitherF at hie2
          rw [Bool.or_eq_false_iff] at hie2
          rw [Bool.and_eq_false_iff] at hcond
          rcases hcond with hcond | hcond
          · rw [hie2.1] at hcond
            simp at hcond
          · rw [Bool.or_eq_false_iff] at hcond
            have := hcond.2
            simp at this
            exact this
        refine ⟨?_, hie2, hkey⟩
        have := hsound.2
        omega

theorem get_none (s : Khash) (key : Nat)
    (h : ∀ i, i < s.capacity → isEitherF s.flags i = false → s.keys i ≠ key) :
    get s key = s.endIdx := by
  by_contra hne
  have hl := get_live s key hne
  exact h _ hl.1 hl.2.1 hl.2.2

theorem putLoop_spec {k : Nat} (s : Khash) (key nstar : Nat)
    (hc : s.capacity = 2 ^ k)
    (hstop : walkCond s key (probePos (startPos s key) s.capacity nstar) = false)
    (hcont : ∀ m, m < nstar →
      walkCond s key (probePos (startPos s key) s.capacity m) = true)
    (hns : nstar < s.capacity) :
    ∀ fuel n, n ≤ nstar → nstar - n < fuel →
      putLoop s key (s.capacity - 1)
        (probePos (startPos s key) s.capacity 0)
        (probePos (startPos s key) s.capacity n) n (siteSpec s key n) fuel =
        (probePos (startPos s key) s.capacity nstar, siteSpec s key nstar,
          false) := by
  intro fuel
  induction fuel with
  | zero => intro n _ h; omega
  | succ fuel ih =>
    intro n hn hfuel
    by_cases heq : n = nstar
    · subst heq
      simp [putLoop, hstop]
    · have hnlt : n < nstar := by omega
      have hcn := hcont n hnlt
      have hstep : linearProbe (probePos (startPos s key) s.capacity n)
          (n + 1) (s.capacity - 1) =
          probePos (startPos s key) s.capacity (n + 1) := by
        rw [hc]; exact probePos_step k (startPos s key) n
      have hne : probePos (startPos s key) s.capacity (n + 1) ≠
          probePos (startPos s key) s.capacity 0 :=
        probePos_ne_zero_pos s key hc (by omega) (by omega)
      have hsite : (if (s.flags (probePos (startPos s key) s.capacity n)).deleted
          then probePos (startPos s key) s.capacity n
          else siteSpec s key n) = siteSpec s key (n + 1) := by
        simp [siteSpec]
      have hunfold : putLoop s key (s.capacity - 1)
          (probePos (startPos s key) s.capacity 0)
          (probePos (startPos s key) s.capacity n) n (siteSpec s key n)
          (fuel + 1) =
          putLoop s key (s.capacity - 1)
          (probePos (startPos s key) s.capacity 0)
          (probePos (startPos s key) s.capacity (n + 1)) (n + 1)
          (siteSpec s key (n + 1)) fuel := by
        simp only [putLoop, hcn, if_true]
        rw [hsite, hstep, if_neg hne]
      rw [hunfold]
      exact ih (n + 1) (by omega) (by omega)

theorem siteSpec_cases (s : Khash) (key : Nat) : ∀ n,
    (siteSpec s key n = s.capacity ∧ ∀ m, m < n →
      (s.flags (probePos (startPos s key) s.capacity m)).deleted = false) ∨
    (∃ m, m < n ∧
      siteSpec s key n = probePos (startPos s key) s.capacity m ∧
      (s.flags (probePos (startPos s key) s.capacity m)).deleted = true ∧
      ∀ j, m < j → j < n →
        (s.flags (probePos (startPos s key) s.capacity j)).deleted = false) := by
  intro n
  induction n with
  | zero => exact Or.inl ⟨rfl, fun m hm => absurd hm (by omega)⟩
  | succ n ih =>
    by_cases hdel : (s.flags (probePos (startPos s key) s.capacity n)).deleted = true
    · refine Or.inr ⟨n, by omega, ?_, hdel, fun j hj1 hj2 => by omega⟩
      simp [siteSpec, hdel]
    · have hdel2 : (s.flags (probePos (startPos s key) s.capacity n)).deleted = false := by
        cases hx : (s.flags (probePos (startPos s key) s.capacity n)).deleted
        · rfl
        · exact absurd hx hdel
      have hss : siteSpec s key (n + 1) = siteSpec s key n := by
        simp [siteSpec, hdel2]
      rcases ih with ⟨h1, h2⟩ | ⟨m, hm1, hm2, hm3, hm4⟩
      · refine Or.inl ⟨hss.trans h1, fun m hm => ?_⟩
        by_cases hmn : m = n
        · subst hmn; exact hdel2
        · exact h2 m (by omega)
      · refine Or.inr ⟨m, by omega, hss.trans hm2, hm3, fun j hj1 hj2 => ?_⟩
        by_cases hjn : j = n
        · subst hjn; exact hdel2
        · exact hm4 j hj1 (by omega)

theorem putIndex_eq_fast (s : Khash) (key : Nat)
    (hfast : (s.flags ((s.capacity - 1) &&& s.hfn key)).empty = true) :
    putIndex s key = (s.capacity - 1) &&& s.hfn key := by
  simp only [putIndex, hfast, if_true]

theorem putIndex_eq_of_loop (s : Khash) (key iF siteF : Nat) (circled : Bool)
    (hfast : (s.flags ((s.capacity - 1) &&& s.hfn key)).empty = false)
    (hl : putLoop s key (s.capacity - 1) ((s.capacity - 1) &&& s.hfn key)
      ((s.capacity - 1) &&& s.hfn key) 0 s.endIdx (2 * s.capacity) =
      (iF, siteF, circled)) :
    putIndex s key =
      (if (if circled then siteF else s.endIdx) = s.endIdx then
        (if (s.flags iF).empty = true ∧ siteF ≠ s.endIdx then siteF else iF)
       else (if circled then siteF else s.endIdx)) := by
  simp only [putIndex, hfast, Bool.false_eq_true, if_false, hl]

theorem putIndex_spec {k : Nat} (s : Khash) (key : Nat)
    (hc : s.capacity = 2 ^ k)
    (hemp : ∃ e, e < s.capacity ∧ (s.flags e).empty = true) :
    ∃ nstar, nstar < s.capacity ∧
      walkCond s key (probePos (startPos s key) s.capacity nstar) = false ∧
      (∀ m, m < nstar →
        walkCond s key (probePos (startPos s key) s.capacity m) = true) ∧
      putIndex s key =
        (if (s.flags (probePos (startPos s key) s.capacity 0)).empty = true then
          probePos (startPos s key) s.capacity 0
         else if (s.flags (probePos (startPos s key) s.capacity nstar)).empty = true ∧
             siteSpec s key nstar ≠ s.capacity then
          siteSpec s key nstar
         else probePos (startPos s key) s.capacity nstar) := by
  classical
  have hcpos := capacity_pos s hc
  obtain ⟨e, he1, he2⟩ := hemp
  obtain ⟨me, hme1, hme2⟩ := probePos_cover (k := k) (startPos s key)
    (show e < 2 ^ k from hc ▸ he1)
  have hex : ∃ n, walkCond s key (probePos (startPos s key) s.capacity n) = false := by
    refine ⟨me, ?_⟩
    rw [hc, hme2]
    exact walkCond_false_of_empty s key e he2
  let nstar := Nat.find hex
  have hstop : walkCond s key (probePos (startPos s key) s.capacity nstar) = false :=
    Nat.find_spec hex
  have hcont : ∀ m, m < nstar →
      walkCond s key (probePos (startPos s key) s.capacity m) = true := by
    intro m hm
    have := Nat.find_min hex hm
    cases hx : walkCond s key (probePos (startPos s key) s.capacity m)
    · exact absurd hx this
    · rfl
  have hns : nstar < s.capacity := by
    have h1 : nstar ≤ me := Nat.find_min' hex (by
      rw [hc, hme2]; exact walkCond_false_of_empty s key e he2)
    rw [hc]
    omega
  refine ⟨nstar, hns, hstop, hcont, ?_⟩
  have hms := mask_start s key hc
  by_cases hfast : (s.flags (probePos (startPos s key) s.capacity 0)).empty = true
  · rw [if_pos hfast, ← hms]
    exact putIndex_eq_fast s key (hms ▸ hfast)
  · have hfast2 : (s.flags (probePos (startPos s key) s.capacity 0)).empty = false := by
      cases hx : (s.flags (probePos (startPos s key) s.capacity 0)).empty
      · rfl
      · exact absurd hx hfast
    have hloop := putLoop_spec s key nstar hc hstop hcont hns (2 * s.capacity) 0
      (Nat.zero_le _) (by omega)
    have hsite0 : siteSpec s key 0 = s.endIdx := rfl
    rw [hsite0] at hloop
    rw [← hms] at hloop
    have hpe := putIndex_eq_of_loop s key _ _ false (by rw [hms]; exact hfast2) hloop
    simp only [Bool.false_eq_true, if_false, eq_self_iff_true, if_true] at hpe
    rw [if_neg hfast]
    exact hpe

theorem filter_flip_insert {C i : Nat} (p q : Nat → Prop) [DecidablePred p]
    [DecidablePred q] (hi : i < C) (hne : ∀ j, j ≠ i → (q j ↔ p j))
    (hpi : ¬ p i) (hqi : q i) :
    (Finset.range C).filter q = insert i ((Finset.range C).filter p) ∧
      i ∉ (Finset.range C).filter p := by
  constructor
  · ext j
    simp only [Finset.mem_filter, Finset.mem_insert, Finset.mem_range]
    by_cases hj : j = i
    · subst hj
      simp [hi, hqi]
    · simp only [hj, false_or]
      constructor
      · rintro ⟨h1, h2⟩; exact ⟨h1, (hne j hj).mp h2⟩
      · rintro ⟨h1, h2⟩; exact ⟨h1, (hne j hj).mpr h2⟩
  · simp [Finset.mem_filter, hpi]

theorem filter_flip_erase {C i : Nat} (p q : Nat → Prop) [DecidablePred p]
    [DecidablePred q] (hi : i < C) (hne : ∀ j, j ≠ i → (q j ↔ p j))
    (hpi : p i) (hqi : ¬ q i) :
    (Finset.range C).filter q = ((Finset.range C).filter p).erase i ∧
      i ∈ (Finset.range C).filter p := by
  constructor
  · ext j
    simp only [Finset.mem_filter, Finset.mem_erase, Finset.mem_range]
    by_cases hj : j = i
    · subst hj
      simp [hqi]
    · simp only [ne_eq, hj, not_false_eq_true, true_and]
      constructor
      · rintro ⟨h1, h2⟩; exact ⟨h1, (hne j hj).mp h2⟩
      · rintro ⟨h1, h2⟩; exact ⟨h1, (hne j hj).mpr h2⟩
  · exact Finset.mem_filter.mpr ⟨Finset.mem_range.mpr hi, hpi⟩

theorem filter_iff_congr {C : Nat} (p q : Nat → Prop) [DecidablePred p]
    [DecidablePred q] (h : ∀ j, j < C → (q j ↔ p j)) :
    (Finset.range C).filter q = (Finset.range C).filter p := by
  ext j
  simp only [Finset.mem_filter, Finset.mem_range]
  exact and_congr_right fun hj => h j hj

theorem map_val_insert {α : Type} (i : Nat) (fs : Finset Nat) (hi : i ∉ fs)
    (f : Nat → α) :
    (insert i fs).val.map f = f i ::ₘ fs.val.map f := by
  rw [Finset.insert_val_of_not_mem hi, Multiset.map_cons]

theorem map_val_erase {α : Type} (i : Nat) (fs : Finset Nat) (hi : i ∈ fs)
    (f : Nat → α) :
    fs.val.map f = f i ::ₘ (fs.erase i).val.map f := by
  rw [Finset.erase_val]
  conv_lhs => rw [← Multiset.cons_erase (Finset.mem_def.mp hi)]
  rw [Multiset.map_cons]

theorem map_congr_of_ne {α : Type} (fs : Finset Nat) (i : Nat)
    (hi : i ∉ fs) (f g : Nat → α) (h : ∀ j, j ≠ i → f j = g j) :
    fs.val.map f = fs.val.map g := by
  apply Multiset.map_congr rfl
  intro x hx
  exact h x (fun hxi => hi (hxi ▸ Finset.mem_def.mpr hx))

theorem mask_and (K x : Nat) : (2 ^ K - 1) &&& x = x % 2 ^ K := by
  rw [Nat.and_comm, Nat.and_pow_two_sub_one_eq_mod]

theorem probeEmptyLoop_find {K : Nat} (F : Nat → Flag) (h0 nstar : Nat)
    (hstop : (F (probePos h0 (2 ^ K) nstar)).empty = true)
    (hcont : ∀ m, m < nstar → (F (probePos h0 (2 ^ K) m)).empty = false) :
    ∀ fuel n, n ≤ nstar → nstar - n < fuel →
      probeEmptyLoop F (2 ^ K - 1) (probePos h0 (2 ^ K) n) n fuel =
        probePos h0 (2 ^ K) nstar := by
  intro fuel
  induction fuel with
  | zero => intro n _ h; omega
  | succ fuel ih =>
    intro n hn hfuel
    by_cases heq : n = nstar
    · subst heq
      simp [probeEmptyLoop, hstop]
    · have hnlt : n < nstar := by omega
      have hcn := hcont n hnlt
      have hstep := probePos_step K h0 n
      simp only [probeEmptyLoop, hcn, Bool.false_eq_true, if_false, hstep]
      exact ih (n + 1) (by omega) (by omega)

theorem probeEmptyLoop_spec {K : Nat} (F : Nat → Flag) (h0 : Nat)
    (hh0 : h0 < 2 ^ K) (hemp : ∃ e, e < 2 ^ K ∧ (F e).empty = true) :
    ∃ n, n < 2 ^ K ∧
      probeEmptyLoop F (2 ^ K - 1) h0 0 (2 ^ K) = probePos h0 (2 ^ K) n ∧
      (F (probePos h0 (2 ^ K) n)).empty = true ∧
      ∀ m, m < n → (F (probePos h0 (2 ^ K) m)).empty = false := by
  classical
  obtain ⟨e, he1, he2⟩ := hemp
  obtain ⟨me, hme1, hme2⟩ := probePos_cover (k := K) h0 he1
  have hex : ∃ n, (F (probePos h0 (2 ^ K) n)).empty = true := ⟨me, hme2 ▸ he2⟩
  refine ⟨Nat.find hex, ?_, ?_, Nat.find_spec hex, ?_⟩
  · have := Nat.find_min' hex (hme2 ▸ he2)
    omega
  · have hzero : probePos h0 (2 ^ K) 0 = h0 := probePos_zero_lt hh0
    conv_lhs => rw [← hzero]
    apply probeEmptyLoop_find F h0 (Nat.find hex) (Nat.find_spec hex)
    · intro m hm
      have := Nat.find_min hex hm
      cases hx : (F (probePos h0 (2 ^ K) m)).empty
      · rfl
      · exact absurd hx this
    · exact Nat.zero_le _
    · have := Nat.find_min' hex (hme2 ▸ he2)
      omega
  · intro m hm
    have := Nat.find_min hex hm
    cases hx : (F (probePos h0 (2 ^ K) m)).empty
    · rfl
    · exact absurd hx this

theorem newCount_lt_exists_empty {C : Nat} (st : RehashSt)
    (h : newCount C st < C) : ∃ e, e < C ∧ (st.newF e).empty = true := by
  by_contra hcon
  push_neg at hcon
  have hall : ∀ e ∈ Finset.range C, (st.newF e).empty = false := by
    intro e he
    have := hcon e (Finset.mem_range.mp he)
    cases hx : (st.newF e).empty
    · rfl
    · exact absurd hx this
  have : (Finset.range C).filter (fun i => (st.newF i).empty = false) =
      Finset.range C := by
    apply Finset.filter_true_of_mem
    intro e he
    exact hall e he
  unfold newCount at h
  rw [this, Finset.card_range] at h
  omega

theorem updFn_same (f : Nat → Nat) (i v : Nat) : updFn f i v i = v := by
  simp [updFn]

theorem updFn_ne (f : Nat → Nat) (i v j : Nat) (h : j ≠ i) :
    updFn f i v j = f j := by
  simp [updFn, h]

theorem setIsemptyFalseF_same (f : Nat → Flag) (i : Nat) :
    setIsemptyFalseF f i i = ⟨false, (f i).deleted⟩ := by
  simp [setIsemptyFalseF]

theorem setIsemptyFalseF_ne (f : Nat → Flag) (i j : Nat) (h : j ≠ i) :
    setIsemptyFalseF f i j = f j := by
  simp [setIsemptyFalseF, h]

theorem setIsdeletedTrueF_same (f : Nat → Flag) (i : Nat) :
    setIsdeletedTrueF f i i = ⟨(f i).empty, true⟩ := by
  simp [setIsdeletedTrueF]

theorem setIsdeletedTrueF_ne (f : Nat → Flag) (i j : Nat) (h : j ≠ i) :
    setIsdeletedTrueF f i j = f j := by
  simp [setIsdeletedTrueF, h]

theorem setIsbothFalseF_same (f : Nat → Flag) (i : Nat) :
    setIsbothFalseF f i i = ⟨false, false⟩ := by
  simp [setIsbothFalseF]

theorem setIsbothFalseF_ne (f : Nat → Flag) (i j : Nat) (h : j ≠ i) :
    setIsbothFalseF f i j = f j := by
  simp [setIsbothFalseF, h]

theorem claim_newLiveE {K : Nat} (st : RehashSt) (i key val : Nat)
    (hi : i < 2 ^ K) (hemp : (st.newF i).empty = true)
    (keys2 vals2 : Nat → Nat) (oldF2 : Nat → Flag)
    (hk : ∀ j, j ≠ i → keys2 j = st.keys j) (hki : keys2 i = key)
    (hv : ∀ j, j ≠ i → vals2 j = st.vals j) (hvi : vals2 i = val) :
    newLiveE (2 ^ K) ⟨keys2, vals2, oldF2, setIsemptyFalseF st.newF i⟩ =
      (key, val) ::ₘ newLiveE (2 ^ K) st := by
  obtain ⟨hfe, hnm⟩ := filter_flip_insert (C := 2 ^ K) (i := i)
    (fun j => (st.newF j).empty = false)
    (fun j => ((setIsemptyFalseF st.newF i) j).empty = false) hi
    (fun j hj => by simp only [setIsemptyFalseF_ne st.newF i j hj])
    (by simp [hemp])
    (by simp [setIsemptyFalseF_same])
  unfold newLiveE
  simp only
  rw [hfe, map_val_insert _ _ hnm, hki, hvi]
  congr 1
  exact map_congr_of_ne _ i hnm _ _ (fun j hj => by rw [hk j hj, hv j hj])

theorem claim_newCount {K : Nat} (st : RehashSt) (i : Nat)
    (hi : i < 2 ^ K) (hemp : (st.newF i).empty = true)
    (keys2 vals2 : Nat → Nat) (oldF2 : Nat → Flag) :
    newCount (2 ^ K) ⟨keys2, vals2, oldF2, setIsemptyFalseF st.newF i⟩ =
      newCount (2 ^ K) st + 1 := by
  obtain ⟨hfe, hnm⟩ := filter_flip_insert (C := 2 ^ K) (i := i)
    (fun j => (st.newF j).empty = false)
    (fun j => ((setIsemptyFalseF st.newF i) j).empty = false) hi
    (fun j hj => by simp only [setIsemptyFalseF_ne st.newF i j hj])
    (by simp [hemp])
    (by simp [setIsemptyFalseF_same])
  unfold newCount
  simp only
  rw [hfe, Finset.card_insert_of_not_mem hnm]

theorem kick_oldLiveE (oldCap : Nat) (st : RehashSt) (i : Nat)
    (hi : i < oldCap) (hlive : isEitherF st.oldF i = false)
    (keys2 vals2 : Nat → Nat) (newF2 : Nat → Flag)
    (hk : ∀ j, j ≠ i → keys2 j = st.keys j)
    (hv : ∀ j, j ≠ i → vals2 j = st.vals j) :
    oldLiveE oldCap st = (st.keys i, st.vals i) ::ₘ
      oldLiveE oldCap ⟨keys2, vals2, setIsdeletedTrueF st.oldF i, newF2⟩ := by
  obtain ⟨hfe, hm⟩ := filter_flip_erase (C := oldCap) (i := i)
    (fun j => isEitherF st.oldF j = false)
    (fun j => isEitherF (setIsdeletedTrueF st.oldF i) j = false) hi
    (fun j hj => by simp only [isEitherF, setIsdeletedTrueF_ne st.oldF i j hj])
    hlive
    (by simp [isEitherF, setIsdeletedTrueF_same])
  unfold oldLiveE
  simp only
  rw [hfe]
  rw [map_val_erase i _ hm (fun j => (st.keys j, st.vals j))]
  congr 1
  apply map_congr_of_ne _ i (Finset.not_mem_erase i _) _ _
  intro j hj
  rw [hk j hj, hv j hj]

theorem kick_oldLiveCount (oldCap : Nat) (st : RehashSt) (i : Nat)
    (hi : i < oldCap) (hlive : isEitherF st.oldF i = false)
    (keys2 vals2 : Nat → Nat) (newF2 : Nat → Flag) :
    oldLiveCount oldCap st =
      oldLiveCount oldCap ⟨keys2, vals2, setIsdeletedTrueF st.oldF i, newF2⟩ + 1 := by
  obtain ⟨hfe, hm⟩ := filter_flip_erase (C := oldCap) (i := i)
    (fun j => isEitherF st.oldF j = false)
    (fun j => isEitherF (setIsdeletedTrueF st.oldF i) j = false) hi
    (fun j hj => by simp only [isEitherF, setIsdeletedTrueF_ne st.oldF i j hj])
    hlive
    (by simp [isEitherF, setIsdeletedTrueF_same])
  unfold oldLiveCount
  simp only
  rw [hfe, Finset.card_erase_of_mem hm]
  have : 0 < ((Finset.range oldCap).filter
      (fun j => isEitherF st.oldF j = false)).card :=
    Finset.card_pos.mpr ⟨i, hm⟩
  omega

theorem noKick_oldLiveE (oldCap : Nat) (st : RehashSt) (i : Nat)
    (hno : ¬(i < oldCap ∧ isEitherF st.oldF i = false))
    (keys2 vals2 : Nat → Nat) (newF2 : Nat → Flag)
    (hk : ∀ j, j ≠ i → keys2 j = st.keys j)
    (hv : ∀ j, j ≠ i → vals2 j = st.vals j) :
    oldLiveE oldCap ⟨keys2, vals2, st.oldF, newF2⟩ = oldLiveE oldCap st := by
  have hm : i ∉ (Finset.range oldCap).filter
      (fun j => isEitherF st.oldF j = false) := by
    intro hmem
    rw [Finset.mem_filter, Finset.mem_range] at hmem
    exact hno ⟨hmem.1, hmem.2⟩
  unfold oldLiveE
  simp only
  exact map_congr_of_ne _ i hm _ _ (fun j hj => by rw [hk j hj, hv j hj])

theorem oldLiveCount_eq_card (oldCap : Nat) (st : RehashSt) :
    Multiset.card (oldLiveE oldCap st) = oldLiveCount oldCap st := by
  unfold oldLiveE oldLiveCount
  rw [Multiset.card_map]
  rfl

theorem newCount_eq_card {C : Nat} (st : RehashSt) :
    Multiset.card (newLiveE C st) = newCount C st := by
  unfold newLiveE newCount
  rw [Multiset.card_map]
  rfl

theorem kickLoop_spec {K : Nat} (oldCap : Nat) (hfn : Nat → Nat) :
    ∀ (fuel : Nat) (st : RehashSt) (key val : Nat),
      RCore oldCap (2 ^ K) hfn st →
      oldLiveCount oldCap st < fuel →
      newCount (2 ^ K) st + oldLiveCount oldCap st < 2 ^ K →
      RCore oldCap (2 ^ K) hfn
          (kickLoop oldCap (2 ^ K) (2 ^ K - 1) hfn st key val fuel) ∧
      oldLiveE oldCap (kickLoop oldCap (2 ^ K) (2 ^ K - 1) hfn st key val fuel) +
          newLiveE (2 ^ K)
            (kickLoop oldCap (2 ^ K) (2 ^ K - 1) hfn st key val fuel) =
        oldLiveE oldCap st + newLiveE (2 ^ K) st + {(key, val)} ∧
      ∀ i2, isEitherF
          (kickLoop oldCap (2 ^ K) (2 ^ K - 1) hfn st key val fuel).oldF i2 =
            false →
        isEitherF st.oldF i2 = false := by
  intro fuel
  induction fuel with
  | zero =>
    intro st key val _ hfuel _
    exact absurd hfuel (by omega)
  | succ fuel ih =>
    intro st key val hcore hfuel hroom
    have hCpos : 0 < 2 ^ K := Nat.pos_pow_of_pos K (by omega)
    have hh0 : hfn key % 2 ^ K < 2 ^ K := Nat.mod_lt _ hCpos
    obtain ⟨n, hn, hpe, hempn, hprior⟩ :=
      probeEmptyLoop_spec st.newF (hfn key % 2 ^ K) hh0
        (newCount_lt_exists_empty st (by omega))
    have hmand : (2 ^ K - 1) &&& hfn key = hfn key % 2 ^ K := mask_and K (hfn key)
    set i := probePos (hfn key % 2 ^ K) (2 ^ K) n with hidef
    have hilt : i < 2 ^ K := hidef ▸ probePos_lt _ _ hCpos
    have hunfold : kickLoop oldCap (2 ^ K) (2 ^ K - 1) hfn st key val (fuel + 1) =
        if i < oldCap ∧ isEitherF st.oldF i = false then
          kickLoop oldCap (2 ^ K) (2 ^ K - 1) hfn
            ⟨updFn st.keys i key, updFn st.vals i val,
              setIsdeletedTrueF st.oldF i, setIsemptyFalseF st.newF i⟩
            (st.keys i) (st.vals i) fuel
        else ⟨updFn st.keys i key, updFn st.vals i val, st.oldF,
              setIsemptyFalseF st.newF i⟩ := by
      simp only [kickLoop, hmand, hpe]
    rw [hunfold]
    by_cases hbr : i < oldCap ∧ isEitherF st.oldF i = false
    · rw [if_pos hbr]
      have hcore2 : RCore oldCap (2 ^ K) hfn
          ⟨updFn st.keys i key, updFn st.vals i val,
            setIsdeletedTrueF st.oldF i, setIsemptyFalseF st.newF i⟩ := by
        constructor
        · intro j hj hlive
          have hjne : j ≠ i := by
            intro hje
            subst hje
            simp [isEitherF, setIsdeletedTrueF_same] at hlive
          have hl2 : isEitherF st.oldF j = false := by
            simpa [isEitherF, setIsdeletedTrueF_ne st.oldF i j hjne] using hlive
          have hd := hcore.disj j hj hl2
          show (setIsemptyFalseF st.newF i j).empty = true
          rw [setIsemptyFalseF_ne st.newF i j hjne]
          exact hd
        · intro j
          show (setIsemptyFalseF st.newF i j).deleted = false
          by_cases hji : j = i
          · subst hji
            rw [setIsemptyFalseF_same]
            exact hcore.noDel i
          · rw [setIsemptyFalseF_ne st.newF i j hji]
            exact hcore.noDel j
        · intro p hp hpe2
          by_cases hpi : p = i
          · subst hpi
            refine ⟨n, hn, ?_, ?_⟩
            · show probePos (hfn (updFn st.keys i key i) % 2 ^ K) (2 ^ K) n = i
              rw [updFn_same]
            · intro m hm
              show (setIsemptyFalseF st.newF i
                  (probePos (hfn (updFn st.keys i key i) % 2 ^ K) (2 ^ K) m)).empty
                  = false
              rw [updFn_same]
              have hm1 := hprior m hm
              have hne2 : probePos (hfn key % 2 ^ K) (2 ^ K) m ≠ i := by
                intro heq
                rw [heq] at hm1
                rw [hm1] at hempn
                cases hempn
              rw [setIsemptyFalseF_ne _ _ _ hne2]
              exact hm1
          · have hpe3 : (st.newF p).empty = false := by
              have : (setIsemptyFalseF st.newF i p).empty = false := hpe2
              rwa [setIsemptyFalseF_ne st.newF i p hpi] at this
            obtain ⟨n2, hn2, hpp, hpm⟩ := hcore.placedNew p hp hpe3
            refine ⟨n2, hn2, ?_, ?_⟩
            · show probePos (hfn (updFn st.keys i key p) % 2 ^ K) (2 ^ K) n2 = p
              rw [updFn_ne st.keys i key p hpi]
              exact hpp
            · intro m hm
              show (setIsemptyFalseF st.newF i
                  (probePos (hfn (updFn st.keys i key p) % 2 ^ K) (2 ^ K) m)).empty
                  = false
              rw [updFn_ne st.keys i key p hpi]
              have hm1 := hpm m hm
              by_cases hq : probePos (hfn (st.keys p) % 2 ^ K) (2 ^ K) m = i
              · rw [hq] at hm1
                rw [hm1] at hempn
                cases hempn
              · rw [setIsemptyFalseF_ne _ _ _ hq]
                exact hm1
      have hcnt2 : newCount (2 ^ K)
          ⟨updFn st.keys i key, updFn st.vals i val,
            setIsdeletedTrueF st.oldF i, setIsemptyFalseF st.newF i⟩ =
          newCount (2 ^ K) st + 1 :=
        claim_newCount st i hilt hempn _ _ _
      have holdc : oldLiveCount oldCap st = oldLiveCount oldCap
          ⟨updFn st.keys i key, updFn st.vals i val,
            setIsdeletedTrueF st.oldF i, setIsemptyFalseF st.newF i⟩ + 1 :=
        kick_oldLiveCount oldCap st i hbr.1 hbr.2 _ _ _
      obtain ⟨hcoreR, hentR, hmonoR⟩ := ih
        ⟨updFn st.keys i key, updFn st.vals i val,
          setIsdeletedTrueF st.oldF i, setIsemptyFalseF st.newF i⟩
        (st.keys i) (st.vals i) hcore2 (by omega) (by omega)
      refine ⟨hcoreR, ?_, ?_⟩
      · rw [hentR]
        have hOL : oldLiveE oldCap st = (st.keys i, st.vals i) ::ₘ
            oldLiveE oldCap
              ⟨updFn st.keys i key, updFn st.vals i val,
                setIsdeletedTrueF st.oldF i, setIsemptyFalseF st.newF i⟩ :=
          kick_oldLiveE oldCap st i hbr.1 hbr.2 _ _ _
            (fun j hj => updFn_ne st.keys i key j hj)
            (fun j hj => updFn_ne st.vals i val j hj)
        have hNL : newLiveE (2 ^ K)
            ⟨updFn st.keys i key, updFn st.vals i val,
              setIsdeletedTrueF st.oldF i, setIsemptyFalseF st.newF i⟩ =
            (key, val) ::ₘ newLiveE (2 ^ K) st :=
          claim_newLiveE st i key val hilt hempn _ _ _
            (fun j hj => updFn_ne st.keys i key j hj) (updFn_same st.keys i key)
            (fun j hj => updFn_ne st.vals i val j hj) (updFn_same st.vals i val)
        rw [hNL]
        conv_rhs => rw [hOL]
        rw [← Multiset.singleton_add, ← Multiset.singleton_add]
        abel
      · intro i2 h2
        have h3 := hmonoR i2 h2
        by_cases hi2 : i2 = i
        · subst hi2
          exfalso
          simp [isEitherF, setIsdeletedTrueF_same] at h3
        · simpa [isEitherF, setIsdeletedTrueF_ne st.oldF i i2 hi2] using h3
    · rw [if_neg hbr]
      refine ⟨?_, ?_, ?_⟩
      · constructor
        · intro j hj hlive
          have hl2 : isEitherF st.oldF j = false := hlive
          have hjne : j ≠ i := by
            intro hje
            subst hje
            exact hbr ⟨hj, hl2⟩
          have hd := hcore.disj j hj hl2
          show (setIsemptyFalseF st.newF i j).empty = true
          rw [setIsemptyFalseF_ne st.newF i j hjne]
          exact hd
        · intro j
          show (setIsemptyFalseF st.newF i j).deleted = false
          by_cases hji : j = i
          · subst hji
            rw [setIsemptyFalseF_same]
            exact hcore.noDel i
          · rw [setIsemptyFalseF_ne st.newF i j hji]
            exact hcore.noDel j
        · intro p hp hpe2
          by_cases hpi : p = i
          · subst hpi
            refine ⟨n, hn, ?_, ?_⟩
            · show probePos (hfn (updFn st.keys i key i) % 2 ^ K) (2 ^ K) n = i
              rw [updFn_same]
            · intro m hm
              show (setIsemptyFalseF st.newF i
                  (probePos (hfn (updFn st.keys i key i) % 2 ^ K) (2 ^ K) m)).empty
                  = false
              rw [updFn_same]
              have hm1 := hprior m hm
              have hne2 : probePos (hfn key % 2 ^ K) (2 ^ K) m ≠ i := by
                intro heq
                rw [heq] at hm1
                rw [hm1] at hempn
                cases hempn
              rw [setIsemptyFalseF_ne _ _ _ hne2]
              exact hm1
          · have hpe3 : (st.newF p).empty = false := by
              have : (setIsemptyFalseF st.newF i p).empty = false := hpe2
              rwa [setIsemptyFalseF_ne st.newF i p hpi] at this
            obtain ⟨n2, hn2, hpp, hpm⟩ := hcore.placedNew p hp hpe3
            refine ⟨n2, hn2, ?_, ?_⟩
            · show probePos (hfn (updFn st.keys i key p) % 2 ^ K) (2 ^ K) n2 = p
              rw [updFn_ne st.keys i key p hpi]
              exact hpp
            · intro m hm
              show (setIsemptyFalseF st.newF i
                  (probePos (hfn (updFn st.keys i key p) % 2 ^ K) (2 ^ K) m)).empty
                  = false
              rw [updFn_ne st.keys i key p hpi]
              have hm1 := hpm m hm
              by_cases hq : probePos (hfn (st.keys p) % 2 ^ K) (2 ^ K) m = i
              · rw [hq] at hm1
                rw [hm1] at hempn
                cases hempn
              · rw [setIsemptyFalseF_ne _ _ _ hq]
                exact hm1
      · have hOL : oldLiveE oldCap
            ⟨updFn st.keys i key, updFn st.vals i val, st.oldF,
              setIsemptyFalseF st.newF i⟩ = oldLiveE oldCap st :=
          noKick_oldLiveE oldCap st i hbr _ _ _
            (fun j hj => updFn_ne st.keys i key j hj)
            (fun j hj => updFn_ne st.vals i val j hj)
        have hNL : newLiveE (2 ^ K)
            ⟨updFn st.keys i key, updFn st.vals i val, st.oldF,
              setIsemptyFalseF st.newF i⟩ =
            (key, val) ::ₘ newLiveE (2 ^ K) st :=
          claim_newLiveE st i key val hilt hempn _ _ _
            (fun j hj => updFn_ne st.keys i key j hj) (updFn_same st.keys i key)
            (fun j hj => updFn_ne st.vals i val j hj) (updFn_same st.vals i val)
        rw [hOL, hNL, ← Multiset.singleton_add]
        abel
      · intro i2 h2
        exact h2

theorem oldLiveCount_le (oldCap : Nat) (st : RehashSt) :
    oldLiveCount oldCap st ≤ oldCap := by
  unfold oldLiveCount
  calc ((Finset.range oldCap).filter
      (fun i => isEitherF st.oldF i = false)).card
      ≤ (Finset.range oldCap).card := Finset.card_filter_le _ _
  _ = oldCap := Finset.card_range oldCap

theorem rehash_fold_spec {K : Nat} (oldCap : Nat) (hfn : Nat → Nat)
    (st0 : RehashSt) (hcore0 : RCore oldCap (2 ^ K) hfn st0)
    (hroom0 : newCount (2 ^ K) st0 + oldLiveCount oldCap st0 < 2 ^ K) :
    ∀ j, j ≤ oldCap →
      RCore oldCap (2 ^ K) hfn
        ((List.range j).foldl (rehashStep oldCap (2 ^ K) (2 ^ K - 1) hfn) st0) ∧
      oldLiveE oldCap
          ((List.range j).foldl (rehashStep oldCap (2 ^ K) (2 ^ K - 1) hfn) st0) +
        newLiveE (2 ^ K)
          ((List.range j).foldl (rehashStep oldCap (2 ^ K) (2 ^ K - 1) hfn) st0) =
        oldLiveE oldCap st0 + newLiveE (2 ^ K) st0 ∧
      (∀ i, i < j → isEitherF
        ((List.range j).foldl (rehashStep oldCap (2 ^ K) (2 ^ K - 1) hfn)
          st0).oldF i = true) ∧
      (∀ i, isEitherF
        ((List.range j).foldl (rehashStep oldCap (2 ^ K) (2 ^ K - 1) hfn)
          st0).oldF i = false → isEitherF st0.oldF i = false) := by
  intro j
  induction j with
  | zero =>
    intro _
    exact ⟨hcore0, rfl, fun i hi => absurd hi (by omega), fun i hi => hi⟩
  | succ j ihj =>
    intro hj
    obtain ⟨hc, hent, hpre, hmono⟩ := ihj (by omega)
    have hjlt : j < oldCap := by omega
    have hfold : (List.range (j + 1)).foldl
        (rehashStep oldCap (2 ^ K) (2 ^ K - 1) hfn) st0 =
        rehashStep oldCap (2 ^ K) (2 ^ K - 1) hfn
          ((List.range j).foldl (rehashStep oldCap (2 ^ K) (2 ^ K - 1) hfn) st0)
          j := by
      rw [List.range_succ, List.foldl_append, List.foldl_cons, List.foldl_nil]
    rw [hfold]
    set stj := (List.range j).foldl (rehashStep oldCap (2 ^ K) (2 ^ K - 1) hfn)
      st0 with hstj
    -- the running counts stay below the capacity
    have hcounts : newCount (2 ^ K) stj + oldLiveCount oldCap stj =
        newCount (2 ^ K) st0 + oldLiveCount oldCap st0 := by
      have hcard := congrArg Multiset.card hent
      rw [Multiset.card_add, Multiset.card_add, oldLiveCount_eq_card,
        newCount_eq_card, oldLiveCount_eq_card, newCount_eq_card] at hcard
      omega
    by_cases hlj : isEitherF stj.oldF j = false
    · have hstep : rehashStep oldCap (2 ^ K) (2 ^ K - 1) hfn stj j =
          kickLoop oldCap (2 ^ K) (2 ^ K - 1) hfn
            ⟨stj.keys, stj.vals, setIsdeletedTrueF stj.oldF j, stj.newF⟩
            (stj.keys j) (stj.vals j) (oldCap + 1) := by
        simp only [rehashStep, hlj, if_true]
      rw [hstep]
      have hcoreJ : RCore oldCap (2 ^ K) hfn
          ⟨stj.keys, stj.vals, setIsdeletedTrueF stj.oldF j, stj.newF⟩ := by
        constructor
        · intro i hi hlive
          have hine : i ≠ j := by
            intro hij
            subst hij
            simp [isEitherF, setIsdeletedTrueF_same] at hlive
          have hl2 : isEitherF stj.oldF i = false := by
            simpa [isEitherF, setIsdeletedTrueF_ne stj.oldF j i hine] using hlive
          exact hc.disj i hi hl2
        · exact hc.noDel
        · exact hc.placedNew
      have holdcnt : oldLiveCount oldCap stj = oldLiveCount oldCap
          ⟨stj.keys, stj.vals, setIsdeletedTrueF stj.oldF j, stj.newF⟩ + 1 :=
        kick_oldLiveCount oldCap stj j hjlt hlj _ _ _
      have hnewcnt : newCount (2 ^ K)
          ⟨stj.keys, stj.vals, setIsdeletedTrueF stj.oldF j, stj.newF⟩ =
          newCount (2 ^ K) stj := rfl
      obtain ⟨hcoreR, hentR, hmonoR⟩ := kickLoop_spec oldCap hfn (oldCap + 1)
        ⟨stj.keys, stj.vals, setIsdeletedTrueF stj.oldF j, stj.newF⟩
        (stj.keys j) (stj.vals j) hcoreJ
        (by have := oldLiveCount_le oldCap
              ⟨stj.keys, stj.vals, setIsdeletedTrueF stj.oldF j, stj.newF⟩
            omega)
        (by omega)
      refine ⟨hcoreR, ?_, ?_, ?_⟩
      · rw [hentR]
        have hOL : oldLiveE oldCap stj = (stj.keys j, stj.vals j) ::ₘ
            oldLiveE oldCap
              ⟨stj.keys, stj.vals, setIsdeletedTrueF stj.oldF j, stj.newF⟩ :=
          kick_oldLiveE oldCap stj j hjlt hlj _ _ _
            (fun _ _ => rfl) (fun _ _ => rfl)
        have hNL : newLiveE (2 ^ K)
            ⟨stj.keys, stj.vals, setIsdeletedTrueF stj.oldF j, stj.newF⟩ =
            newLiveE (2 ^ K) stj := rfl
        rw [hNL, ← hent]
        conv_rhs => rw [hOL]
        rw [← Multiset.singleton_add]
        abel
      · intro i hi
        by_cases hij : i = j
        · subst hij
          cases hx : isEitherF (kickLoop oldCap (2 ^ K) (2 ^ K - 1) hfn
              ⟨stj.keys, stj.vals, setIsdeletedTrueF stj.oldF i, stj.newF⟩
              (stj.keys i) (stj.vals i) (oldCap + 1)).oldF i
          · exfalso
            have := hmonoR i hx
            simp [isEitherF, setIsdeletedTrueF_same] at this
          · rfl
        · have hilt : i < j := by omega
          cases hx : isEitherF (kickLoop oldCap (2 ^ K) (2 ^ K - 1) hfn
              ⟨stj.keys, stj.vals, setIsdeletedTrueF stj.oldF j, stj.newF⟩
              (stj.keys j) (stj.vals j) (oldCap + 1)).oldF i
          · exfalso
            have h4 := hmonoR i hx
            have h5 : isEitherF stj.oldF i = false := by
              simpa [isEitherF, setIsdeletedTrueF_ne stj.oldF j i hij] using h4
            have := hpre i hilt
            rw [h5] at this
            cases this
          · rfl
      · intro i hi
        have h4 := hmonoR i hi
        by_cases hij : i = j
        · subst hij
          exfalso
          simp [isEitherF, setIsdeletedTrueF_same] at h4
        · have h5 : isEitherF stj.oldF i = false := by
            simpa [isEitherF, setIsdeletedTrueF_ne stj.oldF j i hij] using h4
          exact hmono i h5
    · have hlj2 : isEitherF stj.oldF j = true := by
        cases hx : isEitherF stj.oldF j
        · exact absurd hx hlj
        · rfl
      have hstep : rehashStep oldCap (2 ^ K) (2 ^ K - 1) hfn stj j = stj := by
        simp only [rehashStep, hlj2, Bool.true_eq_false, if_false]
      rw [hstep]
      refine ⟨hc, hent, ?_, hmono⟩
      intro i hi
      by_cases hij : i = j
      · subst hij
        cases hx : isEitherF stj.oldF i
        · exact absurd hx hlj
        · rfl
      · exact hpre i (by omega)

theorem liveEntries_card (s : Khash) :
    Multiset.card (liveEntries s) = countLive s := by
  unfold liveEntries countLive
  rw [Multiset.card_map]
  rfl

theorem clampCap_pow (n : Nat) : ∃ K, 4 ≤ K ∧ clampCap n = 2 ^ K := by
  obtain ⟨m, hm1, _, _⟩ := power2Ceil_spec n
  unfold clampCap MIN_CAPACITY
  by_cases h : power2Ceil n < 16
  · exact ⟨4, by omega, by rw [if_pos h]; norm_num⟩
  · refine ⟨m, ?_, by rw [if_neg h]; exact hm1⟩
    by_contra hcon
    have hm3 : m ≤ 3 := by omega
    have : 2 ^ m ≤ 2 ^ 3 := Nat.pow_le_pow_right (by omega) hm3
    rw [hm1] at h
    omega

theorem clampCap_ge_sixteen (n : Nat) : 16 ≤ clampCap n := by
  obtain ⟨K, hK, heq⟩ := clampCap_pow n
  rw [heq]
  calc (16 : Nat) = 2 ^ 4 := by norm_num
  _ ≤ 2 ^ K := Nat.pow_le_pow_right (by omega) hK

theorem rehashAll_spec {K : Nat} (s : Khash) (hK4 : 4 ≤ K)
    (hsz : countLive s < calculateUpperBound (2 ^ K)) :
    liveEntries (rehashAll s (2 ^ K)) = liveEntries s ∧
    (∀ i, ((rehashAll s (2 ^ K)).flags i).deleted = false) ∧
    Placed (rehashAll s (2 ^ K)) ∧
    countLive (rehashAll s (2 ^ K)) = countLive s ∧
    countNonEmpty (rehashAll s (2 ^ K)) = countLive s := by
  have hC16 : 16 ≤ 2 ^ K := by
    calc (16 : Nat) = 2 ^ 4 := by norm_num
    _ ≤ 2 ^ K := Nat.pow_le_pow_right (by omega) hK4
  have hublt : calculateUpperBound (2 ^ K) < 2 ^ K :=
    calculateUpperBound_lt (by omega)
  set st0 : RehashSt := ⟨s.keys, s.vals, s.flags, fun _ => Flag.fresh⟩
    with hst0
  set F := (List.range s.capacity).foldl
    (rehashStep s.capacity (2 ^ K) (2 ^ K - 1) s.hfn) st0 with hFdef
  have hcore0 : RCore s.capacity (2 ^ K) s.hfn st0 := by
    constructor
    · intro i _ _
      rfl
    · intro i
      rfl
    · intro p _ hpe
      exact absurd hpe (by simp [hst0, Flag.fresh])
  have hnew0 : newCount (2 ^ K) st0 = 0 := by
    unfold newCount
    rw [Finset.filter_false_of_mem, Finset.card_empty]
    intro x _
    simp [hst0, Flag.fresh]
  have hold0 : oldLiveCount s.capacity st0 = countLive s := rfl
  have hroom0 : newCount (2 ^ K) st0 + oldLiveCount s.capacity st0 < 2 ^ K := by
    rw [hnew0, hold0]
    omega
  obtain ⟨hcoreF, hentF, hpreF, _⟩ := rehash_fold_spec s.capacity s.hfn
    st0 hcore0 hroom0 s.capacity (Nat.le_refl _)
  have holdF : oldLiveE s.capacity F = 0 := by
    unfold oldLiveE
    rw [Finset.filter_false_of_mem]
    · simp
    · intro x hx
      have := hpreF x (Finset.mem_range.mp hx)
      rw [this]
      simp
  have hnewE0 : newLiveE (2 ^ K) st0 = 0 := by
    unfold newLiveE
    rw [Finset.filter_false_of_mem]
    · simp
    · intro x _
      simp [hst0, Flag.fresh]
  have holdE0 : oldLiveE s.capacity st0 = liveEntries s := rfl
  rw [holdF, hnewE0, holdE0] at hentF
  simp only [zero_add, add_zero] at hentF
  have hnoDel : ∀ i, ((rehashAll s (2 ^ K)).flags i).deleted = false := by
    intro i
    exact hcoreF.noDel i
  have hfiltereq : (Finset.range (2 ^ K)).filter
      (fun i => isEitherF F.newF i = false) =
      (Finset.range (2 ^ K)).filter
      (fun i => (F.newF i).empty = false) := by
    apply filter_iff_congr
    intro j _
    unfold isEitherF
    rw [hcoreF.noDel j]
    simp
  have hlive : liveEntries (rehashAll s (2 ^ K)) = liveEntries s := by
    rw [← hentF]
    show Multiset.map (fun i => (F.keys i, F.vals i))
      ((Finset.range (2 ^ K)).filter
        (fun i => isEitherF F.newF i = false)).val = newLiveE (2 ^ K) F
    rw [hfiltereq]
    rfl
  refine ⟨hlive, hnoDel, ?_, ?_, ?_⟩
  · -- Placed
    intro p hp hpl
    have hp2 : p < 2 ^ K := hp
    have hpe : (F.newF p).empty = false := by
      have h2 : isEitherF F.newF p = false := hpl
      unfold isEitherF at h2
      rw [Bool.or_eq_false_iff] at h2
      exact h2.1
    obtain ⟨n, hn, hpp, hpm⟩ := hcoreF.placedNew p hp2 hpe
    exact ⟨n, hn, hpp, hpm⟩
  · -- countLive
    show ((Finset.range (2 ^ K)).filter
      (fun i => isEitherF F.newF i = false)).card = countLive s
    rw [hfiltereq]
    have h1 : ((Finset.range (2 ^ K)).filter
        (fun i => (F.newF i).empty = false)).card = newCount (2 ^ K) F := rfl
    rw [h1, ← newCount_eq_card, hentF, liveEntries_card]
  · -- countNonEmpty
    show ((Finset.range (2 ^ K)).filter
      (fun i => (F.newF i).empty = false)).card = countLive s
    have h1 : ((Finset.range (2 ^ K)).filter
        (fun i => (F.newF i).empty = false)).card = newCount (2 ^ K) F := rfl
    rw [h1, ← newCount_eq_card, hentF, liveEntries_card]

theorem resize_noop (s : Khash) (n0 : Nat)
    (h : calculateUpperBound (clampCap n0) ≤ s.size) :
    resize s n0 = s := by
  unfold resize
  rw [if_pos h]

theorem resize_rehash (s : Khash) (n0 : Nat)
    (h : s.size < calculateUpperBound (clampCap n0)) :
    resize s n0 = rehashAll s (clampCap n0) := by
  unfold resize
  rw [if_neg (by omega)]

theorem resize_spec (s : Khash) (n0 : Nat)
    (hsizeEq : s.size = countLive s)
    (hlt : s.size < calculateUpperBound (clampCap n0)) :
    (resize s n0).capacity = clampCap n0 ∧
    (resize s n0).size = s.size ∧
    (resize s n0).occupied = s.size ∧
    (resize s n0).upperBound = calculateUpperBound (clampCap n0) ∧
    (resize s n0).hfn = s.hfn ∧
    liveEntries (resize s n0) = liveEntries s ∧
    (∀ i, ((resize s n0).flags i).deleted = false) ∧
    Placed (resize s n0) ∧
    countLive (resize s n0) = countLive s ∧
    countNonEmpty (resize s n0) = countLive s := by
  obtain ⟨K, hK4, hKeq⟩ := clampCap_pow n0
  have hre := resize_rehash s n0 hlt
  have hsz : countLive s < calculateUpperBound (2 ^ K) := by
    rw [← hKeq, ← hsizeEq]
    exact hlt
  have hspec := rehashAll_spec s hK4 hsz
  rw [hre, hKeq]
  exact ⟨rfl, rfl, rfl, rfl, rfl, hspec.1, hspec.2.1, hspec.2.2.1,
    hspec.2.2.2.1, hspec.2.2.2.2⟩

theorem putCore_fresh (s : Khash) (key : Nat)
    (h : (s.flags (putIndex s key)).empty = true) :
    putCore s key =
      ({ s with
          keys := updFn s.keys (putIndex s key) key,
          flags := setIsbothFalseF s.flags (putIndex s key),
          size := s.size + 1, occupied := s.occupied + 1 },
        putIndex s key, 1) := by
  simp [putCore, h]

theorem putCore_reuse (s : Khash) (key : Nat)
    (h1 : (s.flags (putIndex s key)).empty = false)
    (h2 : (s.flags (putIndex s key)).deleted = true) :
    putCore s key =
      ({ s with
          keys := updFn s.keys (putIndex s key) key,
          flags := setIsbothFalseF s.flags (putIndex s key),
          size := s.size + 1 },
        putIndex s key, 2) := by
  simp [putCore, h1, h2]

theorem putCore_present (s : Khash) (key : Nat)
    (h1 : (s.flags (putIndex s key)).empty = false)
    (h2 : (s.flags (putIndex s key)).deleted = false) :
    putCore s key = (s, putIndex s key, 0) := by
  simp [putCore, h1, h2]

theorem walkCond_true_nonempty {s : Khash} {key i : Nat}
    (h : walkCond s key i = true) : (s.flags i).empty = false := by
  unfold walkCond at h
  rw [Bool.and_eq_true] at h
  have := h.1
  cases hx : (s.flags i).empty
  · rfl
  · rw [hx] at this
    simp at this

theorem putIndex_reach {k : Nat} (s : Khash) (key : Nat)
    (hc : s.capacity = 2 ^ k)
    (hemp : ∃ e, e < s.capacity ∧ (s.flags e).empty = true) :
    ∃ nn, nn < s.capacity ∧
      probePos (startPos s key) s.capacity nn = putIndex s key ∧
      ∀ m, m < nn →
        walkCond s key (probePos (startPos s key) s.capacity m) = true := by
  obtain ⟨nstar, hns, hstop, hcont, heq⟩ := putIndex_spec s key hc hemp
  by_cases hfast : (s.flags (probePos (startPos s key) s.capacity 0)).empty = true
  · rw [if_pos hfast] at heq
    exact ⟨0, by omega, heq.symm, fun m hm => absurd hm (by omega)⟩
  · rw [if_neg hfast] at heq
    by_cases hsite : (s.flags (probePos (startPos s key) s.capacity nstar)).empty
        = true ∧ siteSpec s key nstar ≠ s.capacity
    · rw [if_pos hsite] at heq
      rcases siteSpec_cases s key nstar with ⟨h1, _⟩ | ⟨m, hm1, hm2, _, _⟩
      · exact absurd h1 hsite.2
      · refine ⟨m, by omega, ?_, fun j hj => hcont j (by omega)⟩
        rw [← hm2, heq]
    · rw [if_neg hsite] at heq
      exact ⟨nstar, hns, heq.symm, hcont⟩

theorem putIndex_lt {k : Nat} (s : Khash) (key : Nat)
    (hc : s.capacity = 2 ^ k)
    (hemp : ∃ e, e < s.capacity ∧ (s.flags e).empty = true) :
    putIndex s key < s.capacity := by
  obtain ⟨nn, hnn, hP, _⟩ := putIndex_reach s key hc hemp
  rw [← hP]
  exact probePos_lt _ _ (capacity_pos s hc)

theorem putIndex_live_key {k : Nat} (s : Khash) (key : Nat)
    (hc : s.capacity = 2 ^ k)
    (hemp : ∃ e, e < s.capacity ∧ (s.flags e).empty = true)
    (hlive : isEitherF s.flags (putIndex s key) = false) :
    s.keys (putIndex s key) = key := by
  have hlive2 := hlive
  unfold isEitherF at hlive2
  rw [Bool.or_eq_false_iff] at hlive2
  obtain ⟨nstar, hns, hstop, hcont, heq⟩ := putIndex_spec s key hc hemp
  by_cases hfast : (s.flags (probePos (startPos s key) s.capacity 0)).empty = true
  · rw [if_pos hfast] at heq
    rw [heq] at hlive2
    rw [hfast] at hlive2
    cases hlive2.1
  · rw [if_neg hfast] at heq
    by_cases hsite : (s.flags (probePos (startPos s key) s.capacity nstar)).empty
        = true ∧ siteSpec s key nstar ≠ s.capacity
    · rw [if_pos hsite] at heq
      rcases siteSpec_cases s key nstar with ⟨h1, _⟩ | ⟨m, hm1, hm2, hdel, _⟩
      · exact absurd h1 hsite.2
      · rw [heq, hm2] at hlive2
        rw [hdel] at hlive2
        cases hlive2.2
    · rw [if_neg hsite] at heq
      rw [heq] at hlive2 ⊢
      unfold walkCond at hstop
      rw [Bool.and_eq_false_iff] at hstop
      rcases hstop with hstop | hstop
      · rw [hlive2.1] at hstop
        simp at hstop
      · rw [Bool.or_eq_false_iff] at hstop
        have := hstop.2
        simp at this
        exact this

theorem putIndex_no_live_key {k : Nat} (s : Khash) (key : Nat)
    (hc : s.capacity = 2 ^ k)
    (hemp : ∃ e, e < s.capacity ∧ (s.flags e).empty = true)
    (hpl : Placed s)
    (hnl : isEitherF s.flags (putIndex s key) = true) :
    ∀ i, i < s.capacity → isEitherF s.flags i = false → s.keys i ≠ key := by
  intro p hp hplive hkeyeq
  obtain ⟨n, hn, hPn, hprior⟩ := hpl p hp hplive
  rw [hkeyeq] at hPn hprior
  obtain ⟨nstar, hns, hstop, hcont, heq⟩ := putIndex_spec s key hc hemp
  by_cases hfast : (s.flags (probePos (startPos s key) s.capacity 0)).empty = true
  · -- fast path: the initial slot is empty, contradicting that p is placed
    rcases Nat.eq_zero_or_pos n with hn0 | hn0
    · subst hn0
      rw [hPn] at hfast
      unfold isEitherF at hplive
      rw [Bool.or_eq_false_iff] at hplive
      rw [hplive.1] at hfast
      cases hfast
    · have := hprior 0 hn0
      rw [this] at hfast
      cases hfast
  · rw [if_neg hfast] at heq
    -- the stop slot of the probe walk
    by_cases hse : (s.flags (probePos (startPos s key) s.capacity nstar)).empty
        = true
    · -- the walk stopped on an empty slot
      rcases Nat.lt_trichotomy n nstar with hlt | heq2 | hgt
      · have hcn := hcont n hlt
        unfold walkCond at hcn
        rw [Bool.and_eq_true] at hcn
        rcases Bool.or_eq_true_iff.mp hcn.2 with hdel | hne
        · unfold isEitherF at hplive
          rw [Bool.or_eq_false_iff] at hplive
          rw [hPn, hplive.2] at hdel
          cases hdel
        · rw [hPn] at hne
          simp at hne
          exact hne hkeyeq
      · rw [← heq2, hPn] at hse
        unfold isEitherF at hplive
        rw [Bool.or_eq_false_iff] at hplive
        rw [hplive.1] at hse
        cases hse
      · have := hprior nstar hgt
        rw [this] at hse
        cases hse
    · -- the walk stopped on a live slot holding the key: putIndex is live
      have hse2 : (s.flags (probePos (startPos s key) s.capacity nstar)).empty
          = false := by
        cases hx : (s.flags (probePos (startPos s key) s.capacity nstar)).empty
        · rfl
        · exact absurd hx hse
      rw [if_neg (by intro hand; exact hse hand.1)] at heq
      unfold walkCond at hstop
      rw [Bool.and_eq_false_iff] at hstop
      rcases hstop with hstop | hstop
      · rw [hse2] at hstop
        simp at hstop
      · rw [Bool.or_eq_false_iff] at hstop
        rw [heq] at hnl
        unfold isEitherF at hnl
        rw [hse2, hstop.1] at hnl
        cases hnl

theorem countNonEmpty_lt_exists_empty (s : Khash)
    (h : countNonEmpty s < s.capacity) :
    ∃ e, e < s.capacity ∧ (s.flags e).empty = true := by
  by_contra hcon
  push_neg at hcon
  have hall : ∀ e ∈ Finset.range s.capacity, (s.flags e).empty = false := by
    intro e he
    have := hcon e (Finset.mem_range.mp he)
    cases hx : (s.flags e).empty
    · rfl
    · exact absurd hx this
  have heq : (Finset.range s.capacity).filter
      (fun i => (s.flags i).empty = false) = Finset.range s.capacity :=
    Finset.filter_true_of_mem hall
  unfold countNonEmpty at h
  rw [heq, Finset.card_range] at h
  omega

theorem countLive_le (s : Khash) : countLive s ≤ s.capacity := by
  unfold countLive
  calc ((Finset.range s.capacity).filter
      (fun i => isEitherF s.flags i = false)).card
      ≤ (Finset.range s.capacity).card := Finset.card_filter_le _ _
  _ = s.capacity := Finset.card_range _

theorem get_after_claim {k : Nat} (s : Khash) (key : Nat)
    (hc : s.capacity = 2 ^ k)
    (hemp : ∃ e, e < s.capacity ∧ (s.flags e).empty = true)
    (s2 : Khash)
    (hcap2 : s2.capacity = s.capacity) (hhfn2 : s2.hfn = s.hfn)
    (hkeys2 : s2.keys = updFn s.keys (putIndex s key) key)
    (hflags2 : s2.flags = setIsbothFalseF s.flags (putIndex s key)) :
    get s2 key = putIndex s key := by
  obtain ⟨nn, hnn, hPnn, hprior⟩ := putIndex_reach s key hc hemp
  have hsp : startPos s2 key = startPos s key := by
    unfold startPos
    rw [hcap2, hhfn2]
  have hc2 : s2.capacity = 2 ^ k := by rw [hcap2, hc]
  have hres := get_found (k := k) s2 key nn hc2 ?_ ?_ ?_ ?_
  · rw [hres, hsp, hcap2, hPnn]
  · rw [hsp, hcap2, hPnn, hflags2]
    unfold isEitherF
    rw [setIsbothFalseF_same]
    rfl
  · rw [hsp, hcap2, hPnn, hkeys2, updFn_same]
  · intro m hm
    rw [hsp, hcap2]
    have hPne : probePos (startPos s key) s.capacity m ≠ putIndex s key := by
      rw [← hPnn]
      intro hePP
      rw [hc] at hePP
      have hmnn : m = nn := probePos_inj (k := k)
        (by omega : m < 2 ^ k) (by rw [← hc]; exact hnn) hePP
      omega
    have hcw : walkCond s2 key (probePos (startPos s key) s.capacity m) =
        walkCond s key (probePos (startPos s key) s.capacity m) := by
      unfold walkCond
      rw [hflags2, hkeys2,
        setIsbothFalseF_ne s.flags (putIndex s key) _ hPne,
        updFn_ne s.keys (putIndex s key) key _ hPne]
    rw [hcw]
    exact hprior m hm
  · rw [hcap2]
    exact hnn

theorem countLive_claim (s : Khash) (idx : Nat) (hidx : idx < s.capacity)
    (hnl : isEitherF s.flags idx = true) (s2 : Khash)
    (hcap : s2.capacity = s.capacity)
    (hflags : s2.flags = setIsbothFalseF s.flags idx) :
    countLive s2 = countLive s + 1 := by
  obtain ⟨hfe, hnm⟩ := filter_flip_insert (C := s.capacity) (i := idx)
    (fun j => isEitherF s.flags j = false)
    (fun j => isEitherF s2.flags j = false) hidx
    (fun j hj => by
      rw [hflags]
      simp only [isEitherF, setIsbothFalseF_ne s.flags idx j hj])
    (by simp [hnl])
    (by rw [hflags]; simp [isEitherF, setIsbothFalseF_same])
  unfold countLive
  rw [hcap, hfe, Finset.card_insert_of_not_mem hnm]

theorem countNonEmpty_claim_fromEmpty (s : Khash) (idx : Nat)
    (hidx : idx < s.capacity) (hemp : (s.flags idx).empty = true) (s2 : Khash)
    (hcap : s2.capacity = s.capacity)
    (hflags : s2.flags = setIsbothFalseF s.flags idx) :
    countNonEmpty s2 = countNonEmpty s + 1 := by
  obtain ⟨hfe, hnm⟩ := filter_flip_insert (C := s.capacity) (i := idx)
    (fun j => (s.flags j).empty = false)
    (fun j => (s2.flags j).empty = false) hidx
    (fun j hj => by
      rw [hflags]
      simp only [setIsbothFalseF_ne s.flags idx j hj])
    (by simp [hemp])
    (by rw [hflags]; simp [setIsbothFalseF_same])
  unfold countNonEmpty
  rw [hcap, hfe, Finset.card_insert_of_not_mem hnm]

theorem countNonEmpty_claim_fromDeleted (s : Khash) (idx : Nat)
    (hemp : (s.flags idx).empty = false) (s2 : Khash)
    (hcap : s2.capacity = s.capacity)
    (hflags : s2.flags = setIsbothFalseF s.flags idx) :
    countNonEmpty s2 = countNonEmpty s := by
  unfold countNonEmpty
  rw [hcap]
  congr 1
  apply filter_iff_congr
  intro j _
  by_cases hj : j = idx
  · subst hj
    rw [hflags, setIsbothFalseF_same]
    simp [hemp]
  · rw [hflags, setIsbothFalseF_ne s.flags idx j hj]

theorem countLive_mark (s : Khash) (x : Nat) (hx : x < s.capacity)
    (hlive : isEitherF s.flags x = false) (s2 : Khash)
    (hcap : s2.capacity = s.capacity)
    (hflags : s2.flags = setIsdeletedTrueF s.flags x) :
    countLive s = countLive s2 + 1 := by
  obtain ⟨hfe, hm⟩ := filter_flip_erase (C := s.capacity) (i := x)
    (fun j => isEitherF s.flags j = false)
    (fun j => isEitherF s2.flags j = false) hx
    (fun j hj => by
      rw [hflags]
      simp only [isEitherF, setIsdeletedTrueF_ne s.flags x j hj])
    hlive
    (by rw [hflags]; simp [isEitherF, setIsdeletedTrueF_same])
  unfold countLive
  rw [hcap, hfe, Finset.card_erase_of_mem hm]
  have : 0 < ((Finset.range s.capacity).filter
      (fun j => isEitherF s.flags j = false)).card :=
    Finset.card_pos.mpr ⟨x, hm⟩
  omega

theorem countNonEmpty_mark (s : Khash) (x : Nat) (s2 : Khash)
    (hcap : s2.capacity = s.capacity)
    (hflags : s2.flags = setIsdeletedTrueF s.flags x) :
    countNonEmpty s2 = countNonEmpty s := by
  unfold countNonEmpty
  rw [hcap]
  congr 1
  apply filter_iff_congr
  intro j _
  by_cases hj : j = x
  · subst hj
    rw [hflags, setIsdeletedTrueF_same]
  · rw [hflags, setIsdeletedTrueF_ne s.flags x j hj]

theorem distinct_iff (s : Khash) :
    DistinctKeys s ↔ ((liveEntries s).map Prod.fst).Nodup := by
  unfold liveEntries
  rw [Multiset.map_map]
  have hnd : ((Finset.range s.capacity).filter
      (fun i => isEitherF s.flags i = false)).val.Nodup :=
    ((Finset.range s.capacity).filter
      (fun i => isEitherF s.flags i = false)).nodup
  rw [Multiset.nodup_map_iff_inj_on hnd]
  constructor
  · intro hd x hx y hy hxy
    rw [Finset.mem_def.symm, Finset.mem_filter, Finset.mem_range] at hx hy
    exact hd x y hx.1 hy.1 hx.2 hy.2 hxy
  · intro hinj i j hi hj hli hlj hk
    apply hinj
    · rw [Finset.mem_def.symm, Finset.mem_filter, Finset.mem_range]
      exact ⟨hi, hli⟩
    · rw [Finset.mem_def.symm, Finset.mem_filter, Finset.mem_range]
      exact ⟨hj, hlj⟩
    · exact hk

theorem Inv_resize (s : Khash) (n0 : Nat) (h : Inv s) : Inv (resize s n0) := by
  by_cases hno : calculateUpperBound (clampCap n0) ≤ s.size
  · rw [resize_noop s n0 hno]
    exact h
  · have hlt : s.size < calculateUpperBound (clampCap n0) := by omega
    obtain ⟨hcap, hsz, hocc, hub, _, hliveq, _, hplaced, hcl, hcne⟩ :=
      resize_spec s n0 h.sizeEq hlt
    obtain ⟨K, hK4, hKeq⟩ := clampCap_pow n0
    constructor
    · exact Or.inr ⟨K, hK4, by rw [hcap, hKeq]⟩
    · rw [hsz, hcl, h.sizeEq]
    · rw [hocc, hcne, h.sizeEq]
    · rw [hub, hcap]
    · rw [hocc, hub]
      omega
    · rw [distinct_iff, hliveq, ← distinct_iff]
      exact h.distinct
    · exact hplaced

theorem calculateUpperBound_zero : calculateUpperBound 0 = 0 := by
  decide

theorem calculateUpperBound_double {c : Nat} (hc : 1 ≤ c) :
    c + 1 ≤ calculateUpperBound (2 * c) := by
  unfold calculateUpperBound
  rw [Nat.le_div_iff_mul_le (by omega : 0 < 100)]
  omega

theorem Inv_claim_parts {k : Nat} (s : Khash) (key : Nat)
    (hc : s.capacity = 2 ^ k)
    (hemp : ∃ e, e < s.capacity ∧ (s.flags e).empty = true)
    (hdist : DistinctKeys s) (hplc : Placed s)
    (hnl : isEitherF s.flags (putIndex s key) = true)
    (s2 : Khash) (hcap2 : s2.capacity = s.capacity) (hhfn2 : s2.hfn = s.hfn)
    (hkeys2 : s2.keys = updFn s.keys (putIndex s key) key)
    (hflags2 : s2.flags = setIsbothFalseF s.flags (putIndex s key)) :
    DistinctKeys s2 ∧ Placed s2 := by
  have hnolive := putIndex_no_live_key s key hc hemp hplc hnl
  have hidx := putIndex_lt s key hc hemp
  have hlive2 : ∀ j, j ≠ putIndex s key →
      (isEitherF s2.flags j = false ↔ isEitherF s.flags j = false) := by
    intro j hj
    rw [hflags2]
    simp only [isEitherF, setIsbothFalseF_ne s.flags (putIndex s key) j hj]
  have hkey2 : ∀ j, j ≠ putIndex s key → s2.keys j = s.keys j := by
    intro j hj
    rw [hkeys2, updFn_ne s.keys (putIndex s key) key j hj]
  have hkeyidx : s2.keys (putIndex s key) = key := by
    rw [hkeys2, updFn_same]
  constructor
  · -- distinct
    intro i j hi hj hli hlj hk
    rw [hcap2] at hi hj
    by_cases hii : i = putIndex s key
    · by_cases hjj : j = putIndex s key
      · rw [hii, hjj]
      · exfalso
        rw [hii, hkeyidx] at hk
        have hlj2 : isEitherF s.flags j = false := (hlive2 j hjj).mp hlj
        exact hnolive j hj hlj2 (by rw [← hkey2 j hjj, ← hk])
    · by_cases hjj : j = putIndex s key
      · exfalso
        rw [hjj, hkeyidx] at hk
        have hli2 : isEitherF s.flags i = false := (hlive2 i hii).mp hli
        exact hnolive i hi hli2 (by rw [← hkey2 i hii, hk])
      · exact hdist i j hi hj ((hlive2 i hii).mp hli) ((hlive2 j hjj).mp hlj)
          (by rw [← hkey2 i hii, ← hkey2 j hjj, hk])
  · -- placed
    intro p hp hpl
    rw [hcap2] at hp
    have hsp2 : ∀ x, startPos s2 x = startPos s x := by
      intro x
      unfold startPos
      rw [hcap2, hhfn2]
    by_cases hpi : p = putIndex s key
    · subst hpi
      obtain ⟨nn, hnn, hPnn, hprior⟩ := putIndex_reach s key hc hemp
      refine ⟨nn, by rw [hcap2]; exact hnn, ?_, ?_⟩
      · rw [hsp2, hkeyidx, hcap2, hPnn]
      · intro m hm
        rw [hsp2, hkeyidx, hcap2]
        have hPne : probePos (startPos s key) s.capacity m ≠ putIndex s key := by
          rw [← hPnn]
          intro hePP
          rw [hc] at hePP
          have : m = nn := probePos_inj (k := k)
            (by omega : m < 2 ^ k) (by rw [← hc]; exact hnn) hePP
          omega
        rw [hflags2, setIsbothFalseF_ne s.flags (putIndex s key) _ hPne]
        exact walkCond_true_nonempty (hprior m hm)
    · have hpl2 : isEitherF s.flags p = false := (hlive2 p hpi).mp hpl
      obtain ⟨n, hn, hPn, hprior⟩ := hplc p hp hpl2
      refine ⟨n, by rw [hcap2]; exact hn, ?_, ?_⟩
      · rw [hsp2, hkey2 p hpi, hcap2]
        exact hPn
      · intro m hm
        rw [hsp2, hkey2 p hpi, hcap2]
        have := hprior m hm
        by_cases hq : probePos (startPos s (s.keys p)) s.capacity m =
            putIndex s key
        · rw [hflags2, hq, setIsbothFalseF_same]
        · rw [hflags2, setIsbothFalseF_ne s.flags (putIndex s key) _ hq]
          exact this

theorem Inv_putCore (s : Khash) (key : Nat) (h : Inv s)
    (hocc : s.occupied < s.upperBound) : Inv (putCore s key).1 := by
  have hcapnz : s.capacity ≠ 0 := by
    intro hc0
    have hub := h.ubEq
    rw [hc0, calculateUpperBound_zero] at hub
    omega
  obtain ⟨k, hk4, hck⟩ := h.capPow.resolve_left hcapnz
  have hc16 : 16 ≤ s.capacity := by
    rw [hck]
    calc (16 : Nat) = 2 ^ 4 := by norm_num
    _ ≤ 2 ^ k := Nat.pow_le_pow_right (by omega) hk4
  have hcne : countNonEmpty s < s.capacity := by
    have h1 := h.occEq
    have h2 := h.ubEq
    have h3 := calculateUpperBound_lt (show 3 ≤ s.capacity by omega)
    omega
  have hemp := countNonEmpty_lt_exists_empty s hcne
  have hidx := putIndex_lt s key hck hemp
  by_cases he : (s.flags (putIndex s key)).empty = true
  · -- fresh insert
    rw [putCore_fresh s key he]
    have hnl : isEitherF s.flags (putIndex s key) = true := by
      simp [isEitherF, he]
    obtain ⟨hd2, hp2⟩ := Inv_claim_parts s key hck hemp h.distinct h.placed hnl
      { s with
          keys := updFn s.keys (putIndex s key) key,
          flags := setIsbothFalseF s.flags (putIndex s key),
          size := s.size + 1, occupied := s.occupied + 1 } rfl rfl rfl rfl
    constructor
    · exact Or.inr ⟨k, hk4, hck⟩
    · show s.size + 1 = countLive { s with
          keys := updFn s.keys (putIndex s key) key,
          flags := setIsbothFalseF s.flags (putIndex s key),
          size := s.size + 1, occupied := s.occupied + 1 }
      rw [countLive_claim s (putIndex s key) hidx hnl
        { s with
          keys := updFn s.keys (putIndex s key) key,
          flags := setIsbothFalseF s.flags (putIndex s key),
          size := s.size + 1, occupied := s.occupied + 1 } rfl rfl, h.sizeEq]
    · show s.occupied + 1 = countNonEmpty { s with
          keys := updFn s.keys (putIndex s key) key,
          flags := setIsbothFalseF s.flags (putIndex s key),
          size := s.size + 1, occupied := s.occupied + 1 }
      rw [countNonEmpty_claim_fromEmpty s (putIndex s key) hidx he
        { s with
          keys := updFn s.keys (putIndex s key) key,
          flags := setIsbothFalseF s.flags (putIndex s key),
          size := s.size + 1, occupied := s.occupied + 1 } rfl rfl, h.occEq]
    · exact h.ubEq
    · show s.occupied + 1 ≤ s.upperBound
      omega
    · exact hd2
    · exact hp2
  · have he2 : (s.flags (putIndex s key)).empty = false := by
      cases hx : (s.flags (putIndex s key)).empty
      · rfl
      · exact absurd hx he
    by_cases hd : (s.flags (putIndex s key)).deleted = true
    · -- tombstone reuse
      rw [putCore_reuse s key he2 hd]
      have hnl : isEitherF s.flags (putIndex s key) = true := by
        simp [isEitherF, hd]
      obtain ⟨hd2, hp2⟩ := Inv_claim_parts s key hck hemp h.distinct h.placed
        hnl { s with
          keys := updFn s.keys (putIndex s key) key,
          flags := setIsbothFalseF s.flags (putIndex s key),
          size := s.size + 1 } rfl rfl rfl rfl
      constructor
      · exact Or.inr ⟨k, hk4, hck⟩
      · show s.size + 1 = countLive { s with
          keys := updFn s.keys (putIndex s key) key,
          flags := setIsbothFalseF s.flags (putIndex s key),
          size := s.size + 1 }
        rw [countLive_claim s (putIndex s key) hidx hnl
          { s with
          keys := updFn s.keys (putIndex s key) key,
          flags := setIsbothFalseF s.flags (putIndex s key),
          size := s.size + 1 } rfl rfl, h.sizeEq]
      · show s.occupied = countNonEmpty { s with
          keys := updFn s.keys (putIndex s key) key,
          flags := setIsbothFalseF s.flags (putIndex s key),
          size := s.size + 1 }
        rw [countNonEmpty_claim_fromDeleted s (putIndex s key) he2
          { s with
          keys := updFn s.keys (putIndex s key) key,
          flags := setIsbothFalseF s.flags (putIndex s key),
          size := s.size + 1 } rfl rfl, h.occEq]
      · exact h.ubEq
      · show s.occupied ≤ s.upperBound
        omega
      · exact hd2
      · exact hp2
    · -- already present
      have hd2 : (s.flags (putIndex s key)).deleted = false := by
        cases hx : (s.flags (putIndex s key)).deleted
        · rfl
        · exact absurd hx hd
      rw [putCore_present s key he2 hd2]
      exact h

theorem putResize_spec (s : Khash) (h : Inv s) :
    Inv (putResize s) ∧ (putResize s).occupied < (putResize s).upperBound ∧
    (∃ k, 4 ≤ k ∧ (putResize s).capacity = 2 ^ k) ∧
    (putResize s).hfn = s.hfn := by
  unfold putResize
  by_cases htr : s.occupied ≥ s.upperBound
  · rw [if_pos htr]
    by_cases hpurge : s.capacity > 2 * s.size
    · rw [if_pos hpurge]
      have hcapnz : s.capacity ≠ 0 := by omega
      obtain ⟨k, hk4, hck⟩ := h.capPow.resolve_left hcapnz
      have hc16 : 16 ≤ s.capacity := by
        rw [hck]
        calc (16 : Nat) = 2 ^ 4 := by norm_num
        _ ≤ 2 ^ k := Nat.pow_le_pow_right (by omega) hk4
      have hclamp : clampCap (s.capacity - 1) = s.capacity := by
        rw [hck]
        unfold clampCap
        rw [power2Ceil_pred k (by omega)]
        rw [if_neg (by rw [← hck]; unfold MIN_CAPACITY; omega)]
      have hlt : s.size < calculateUpperBound (clampCap (s.capacity - 1)) := by
        rw [hclamp]
        have hgh := calculateUpperBound_ge_half s.capacity
        omega
      obtain ⟨hcap, hsz, hocc2, hub, hh, _, _, _, _, _⟩ :=
        resize_spec s (s.capacity - 1) h.sizeEq hlt
      refine ⟨Inv_resize s (s.capacity - 1) h, ?_, ?_, hh⟩
      · rw [hocc2, hub]
        omega
      · rw [hcap, hclamp]
        exact ⟨k, hk4, hck⟩
    · rw [if_neg hpurge]
      rcases h.capPow with hc0 | ⟨k, hk4, hck⟩
      · have hclamp : clampCap (s.capacity + 1) = 16 := by
          rw [hc0]
          decide
        have hsize0 : s.size = 0 := by
          have h1 := h.sizeEq
          have h2 := countLive_le s
          omega
        have hlt : s.size < calculateUpperBound (clampCap (s.capacity + 1)) := by
          rw [hclamp, hsize0]
          decide
        obtain ⟨hcap, hsz, hocc2, hub, hh, _, _, _, _, _⟩ :=
          resize_spec s (s.capacity + 1) h.sizeEq hlt
        refine ⟨Inv_resize s (s.capacity + 1) h, ?_, ?_, hh⟩
        · rw [hocc2, hub]
          omega
        · rw [hcap, hclamp]
          exact ⟨4, by omega, by norm_num⟩
      · have hclamp : clampCap (s.capacity + 1) = 2 ^ (k + 1) := by
          rw [hck]
          unfold clampCap
          rw [power2Ceil_succ_pow]
          rw [if_neg (by
            have h1 : (16 : Nat) = 2 ^ 4 := by norm_num
            have h2 : 2 ^ 4 ≤ 2 ^ (k + 1) :=
              Nat.pow_le_pow_right (by omega) (by omega)
            unfold MIN_CAPACITY
            omega)]
        have hlt : s.size < calculateUpperBound (clampCap (s.capacity + 1)) := by
          rw [hclamp]
          have h1 : 2 ^ (k + 1) = 2 * 2 ^ k := by rw [pow_succ]; ring
          have h2 : 2 ^ k + 1 ≤ calculateUpperBound (2 * 2 ^ k) :=
            calculateUpperBound_double Nat.one_le_two_pow
          have h3 : s.size ≤ s.capacity := by
            have := h.sizeEq
            have := countLive_le s
            omega
          rw [h1]
          rw [hck] at h3
          omega
        obtain ⟨hcap, hsz, hocc2, hub, hh, _, _, _, _, _⟩ :=
          resize_spec s (s.capacity + 1) h.sizeEq hlt
        refine ⟨Inv_resize s (s.capacity + 1) h, ?_, ?_, hh⟩
        · rw [hocc2, hub]
          omega
        · rw [hcap, hclamp]
          exact ⟨k + 1, by omega, rfl⟩
  · rw [if_neg htr]
    refine ⟨h, by omega, ?_, rfl⟩
    rcases h.capPow with hc0 | hck
    · exfalso
      have hub := h.ubEq
      rw [hc0, calculateUpperBound_zero] at hub
      omega
    · exact hck

theorem Inv_put (s : Khash) (key : Nat) (h : Inv s) : Inv (put s key).1 := by
  obtain ⟨h1, h2, _, _⟩ := putResize_spec s h
  exact Inv_putCore (putResize s) key h1 h2

theorem setIsdeletedTrueF_empty (f : Nat → Flag) (x j : Nat) :
    (setIsdeletedTrueF f x j).empty = (f j).empty := by
  by_cases hj : j = x
  · subst hj
    rw [setIsdeletedTrueF_same]
  · rw [setIsdeletedTrueF_ne f x j hj]

theorem existsIdx_true_iff (s : Khash) (x : Nat) :
    existsIdx s x = true ↔ x < s.capacity ∧ isEitherF s.flags x = false := by
  unfold existsIdx endIdx
  rw [Bool.and_eq_true, decide_eq_true_iff, Bool.not_eq_eq_eq_not]
  simp

theorem Inv_ite_resize (s2 : Khash) (t : Nat) (C : Prop) [Decidable C]
    (h : Inv s2) : Inv (if C then resize s2 t else s2) := by
  by_cases hc : C
  · rw [if_pos hc]
    exact Inv_resize s2 t h
  · rw [if_neg hc]
    exact h

theorem Inv_markStep (s : Khash) (x : Nat) (h : Inv s) :
    Inv (if existsIdx s x then
      { s with flags := setIsdeletedTrueF s.flags x, size := s.size - 1 }
    else s) := by
  by_cases hex : existsIdx s x = true
  · rw [if_pos hex]
    obtain ⟨hx, hlx⟩ := (existsIdx_true_iff s x).mp hex
    have hcm := countLive_mark s x hx hlx
      { s with flags := setIsdeletedTrueF s.flags x, size := s.size - 1 }
      rfl rfl
    have hcn := countNonEmpty_mark s x
      { s with flags := setIsdeletedTrueF s.flags x, size := s.size - 1 }
      rfl rfl
    constructor
    · exact h.capPow
    · show s.size - 1 = countLive
        { s with flags := setIsdeletedTrueF s.flags x, size := s.size - 1 }
      have := h.sizeEq
      omega
    · show s.occupied = countNonEmpty
        { s with flags := setIsdeletedTrueF s.flags x, size := s.size - 1 }
      rw [hcn]
      exact h.occEq
    · exact h.ubEq
    · exact h.occLe
    · intro i j hi hj hli hlj hk
      have hine : i ≠ x := by
        intro hix
        subst hix
        simp [isEitherF, setIsdeletedTrueF_same] at hli
      have hjne : j ≠ x := by
        intro hjx
        subst hjx
        simp [isEitherF, setIsdeletedTrueF_same] at hlj
      have hli2 : isEitherF s.flags i = false := by
        simpa [isEitherF, setIsdeletedTrueF_ne s.flags x i hine] using hli
      have hlj2 : isEitherF s.flags j = false := by
        simpa [isEitherF, setIsdeletedTrueF_ne s.flags x j hjne] using hlj
      exact h.distinct i j hi hj hli2 hlj2 hk
    · intro p hp hpl
      have hpne : p ≠ x := by
        intro hpx
        subst hpx
        simp [isEitherF, setIsdeletedTrueF_same] at hpl
      have hpl2 : isEitherF s.flags p = false := by
        simpa [isEitherF, setIsdeletedTrueF_ne s.flags x p hpne] using hpl
      obtain ⟨n, hn, hPn, hprior⟩ := h.placed p hp hpl2
      refine ⟨n, hn, hPn, ?_⟩
      intro m hm
      show (setIsdeletedTrueF s.flags x _).empty = false
      rw [setIsdeletedTrueF_empty]
      exact hprior m hm
  · rw [if_neg hex]
    exact h

theorem Inv_remove (s : Khash) (x : Nat) (b : Bool) (h : Inv s) :
    Inv (remove s x b) :=
  Inv_ite_resize _ _ _ (Inv_markStep s x h)

theorem Inv_setValue (s : Khash) (x v : Nat) (h : Inv s) :
    Inv (setValue s x v).2 := by
  unfold setValue
  by_cases hex : existsIdx s x = true
  · rw [if_pos hex]
    exact ⟨h.capPow, h.sizeEq, h.occEq, h.ubEq, h.occLe, h.distinct, h.placed⟩
  · rw [if_neg hex]
    exact h

theorem Inv_clear (s : Khash) (h : Inv s) : Inv (clear s) := by
  have hcl : countLive (clear s) = 0 := by
    unfold countLive
    rw [Finset.filter_false_of_mem, Finset.card_empty]
    intro x _
    simp [clear, isEitherF, Flag.fresh]
  have hcn : countNonEmpty (clear s) = 0 := by
    unfold countNonEmpty
    rw [Finset.filter_false_of_mem, Finset.card_empty]
    intro x _
    simp [clear, Flag.fresh]
  constructor
  · exact h.capPow
  · exact hcl.symm
  · exact hcn.symm
  · exact h.ubEq
  · show 0 ≤ s.upperBound
    omega
  · intro i j _ _ hli _ _
    exfalso
    simp [clear, isEitherF, Flag.fresh] at hli
  · intro p _ hpl
    exfalso
    simp [clear, isEitherF, Flag.fresh] at hpl

theorem Inv_init (hfn : Nat → Nat) : Inv (init hfn) := by
  constructor
  · exact Or.inl rfl
  · rfl
  · rfl
  · exact calculateUpperBound_zero.symm
  · exact Nat.le_refl 0
  · intro i j hi _ _ _ _
    exact absurd hi (by simp [init])
  · intro p hp _
    exact absurd hp (by simp [init])

theorem Reachable_Inv {hfn : Nat → Nat} {s : Khash} (h : Reachable hfn s) :
    Inv s := by
  induction h with
  | start => exact Inv_init hfn
  | step_put s key _ ih => exact Inv_put s key ih
  | step_remove s x b _ ih => exact Inv_remove s x b ih
  | step_resize s n _ ih => exact Inv_resize s n ih
  | step_clear s _ ih => exact Inv_clear s ih
  | step_setValue s x v _ ih => exact Inv_setValue s x v ih

theorem countLive_le_countNonEmpty (s : Khash) :
    countLive s ≤ countNonEmpty s := by
  unfold countLive countNonEmpty
  apply Finset.card_le_card
  intro j hj
  rw [Finset.mem_filter] at hj ⊢
  refine ⟨hj.1, ?_⟩
  have := hj.2
  unfold isEitherF at this
  rw [Bool.or_eq_false_iff] at this
  exact this.1

theorem Inv_room (s : Khash) (h : Inv s) (hocc : s.occupied < s.upperBound) :
    (∃ k, 4 ≤ k ∧ s.capacity = 2 ^ k) ∧
    (∃ e, e < s.capacity ∧ (s.flags e).empty = true) := by
  have hcapnz : s.capacity ≠ 0 := by
    intro hc0
    have hub := h.ubEq
    rw [hc0, calculateUpperBound_zero] at hub
    omega
  obtain ⟨k, hk4, hck⟩ := h.capPow.resolve_left hcapnz
  have hc16 : 16 ≤ s.capacity := by
    rw [hck]
    calc (16 : Nat) = 2 ^ 4 := by norm_num
    _ ≤ 2 ^ k := Nat.pow_le_pow_right (by omega) hk4
  have hcne : countNonEmpty s < s.capacity := by
    have h1 := h.occEq
    have h2 := h.ubEq
    have h3 := calculateUpperBound_lt (show 3 ≤ s.capacity by omega)
    omega
  exact ⟨⟨k, hk4, hck⟩, countNonEmpty_lt_exists_empty s hcne⟩

theorem mem_liveEntries (s : Khash) (j : Nat) (hj : j < s.capacity)
    (hlj : isEitherF s.flags j = false) :
    (s.keys j, s.vals j) ∈ liveEntries s := by
  unfold liveEntries
  rw [Multiset.mem_map]
  exact ⟨j, Finset.mem_def.mp (Finset.mem_filter.mpr
    ⟨Finset.mem_range.mpr hj, hlj⟩), rfl⟩

theorem liveEntries_mem_inv (s : Khash) (p : Nat × Nat)
    (h : p ∈ liveEntries s) :
    ∃ j, j < s.capacity ∧ isEitherF s.flags j = false ∧
      s.keys j = p.1 ∧ s.vals j = p.2 := by
  unfold liveEntries at h
  rw [Multiset.mem_map] at h
  obtain ⟨j, hjm, hje⟩ := h
  have hj2 := Finset.mem_filter.mp (Finset.mem_def.mpr hjm)
  exact ⟨j, Finset.mem_range.mp hj2.1, hj2.2, by rw [← hje], by rw [← hje]⟩

theorem no_key_transfer (s2 s3 : Khash) (key : Nat)
    (heq : liveEntries s3 = liveEntries s2)
    (h2 : ∀ j, j < s2.capacity → isEitherF s2.flags j = false →
      s2.keys j ≠ key) :
    ∀ j, j < s3.capacity → isEitherF s3.flags j = false →
      s3.keys j ≠ key := by
  intro j hj hlj hkey
  have hmem := mem_liveEntries s3 j hj hlj
  rw [heq] at hmem
  obtain ⟨j2, hj2, hlj2, hk2, _⟩ := liveEntries_mem_inv s2 _ hmem
  rw [hkey] at hk2
  exact h2 j2 hj2 hlj2 hk2

theorem Inv_vals (s : Khash) (v : Nat → Nat) (h : Inv s) :
    Inv { s with vals := v } :=
  ⟨h.capPow, h.sizeEq, h.occEq, h.ubEq, h.occLe, h.distinct, h.placed⟩

theorem Inv_hmPut (s : Khash) (key val : Nat) (h : Inv s) :
    Inv (hmPut s key val).2 := by
  unfold hmPut
  have hp := Inv_put s key h
  rcases hps : put s key with ⟨s2, i, ret⟩
  have hp2 : Inv s2 := by rw [hps] at hp; exact hp
  show (if ret ≠ 0 then (true, { s2 with vals := updFn s2.vals i val })
    else (false, s2)).2.Inv
  by_cases hr : ret ≠ 0
  · rw [if_pos hr]
    exact Inv_vals _ _ hp2
  · rw [if_neg hr]
    exact hp2

theorem getLoop_congr_state (s t : Khash) (key mask last : Nat)
    (hW : ∀ i, walkCond t key i = walkCond s key i) :
    ∀ fuel i step, getLoop t key mask last i step fuel =
      getLoop s key mask last i step fuel := by
  intro fuel
  induction fuel with
  | zero => intro i step; rfl
  | succ fuel ih =>
    intro i step
    cases hcnd : walkCond s key i with
    | false => simp [getLoop, hW i, hcnd]
    | true =>
      simp only [getLoop, hW i, hcnd, if_true]
      by_cases hl : linearProbe i (step + 1) mask = last
      · rw [if_pos hl, if_pos hl]
      · rw [if_neg hl, if_neg hl, ih]

theorem get_vals (s : Khash) (v : Nat → Nat) (key : Nat) :
    get { s with vals := v } key = get s key := by
  by_cases hc0 : s.capacity = 0
  · simp [get, hc0]
  · rw [get_unfold s key hc0, get_unfold { s with vals := v } key hc0]
    rw [getLoop_congr_state s { s with vals := v } key (s.capacity - 1)
      ((s.capacity - 1) &&& s.hfn key) (fun i => rfl) (2 * s.capacity)
      ((s.capacity - 1) &&& s.hfn key) 0]
    rfl

theorem put_success_get (s : Khash) (key : Nat) (h : Inv s)
    (hr : (put s key).2.2 ≠ 0) :
    get (put s key).1 key = (put s key).2.1 ∧
    (put s key).2.1 < (put s key).1.capacity ∧
    (put s key).1.keys (put s key).2.1 = key := by
  obtain ⟨hInv1, hocc1, _, _⟩ := putResize_spec s h
  obtain ⟨⟨k, hk4, hck⟩, hemp⟩ := Inv_room _ hInv1 hocc1
  have hidxlt := putIndex_lt (putResize s) key hck hemp
  have hps : put s key = putCore (putResize s) key := rfl
  rw [hps] at hr ⊢
  by_cases he : ((putResize s).flags (putIndex (putResize s) key)).empty = true
  · rw [putCore_fresh _ key he] at hr ⊢
    refine ⟨?_, hidxlt, updFn_same _ _ _⟩
    exact get_after_claim (putResize s) key hck hemp _ rfl rfl rfl rfl
  · have he2 : ((putResize s).flags (putIndex (putResize s) key)).empty
        = false := by
      cases hx : ((putResize s).flags (putIndex (putResize s) key)).empty
      · rfl
      · exact absurd hx he
    by_cases hd : ((putResize s).flags (putIndex (putResize s) key)).deleted
        = true
    · rw [putCore_reuse _ key he2 hd] at hr ⊢
      refine ⟨?_, hidxlt, updFn_same _ _ _⟩
      exact get_after_claim (putResize s) key hck hemp _ rfl rfl rfl rfl
    · have hd2 : ((putResize s).flags (putIndex (putResize s) key)).deleted
          = false := by
        cases hx : ((putResize s).flags (putIndex (putResize s) key)).deleted
        · rfl
        · exact absurd hx hd
      rw [putCore_present _ key he2 hd2] at hr
      exact absurd rfl hr

theorem remove_unfold (s : Khash) (x : Nat) (b : Bool)
    (hex : existsIdx s x = true) :
    remove s x b =
      (if b = true ∧ (markSlot s x).size > 4096 ∧
          (markSlot s x).size < (markSlot s x).capacity >>> 2 then
        resize (markSlot s x) ((markSlot s x).size * 150 / 77)
      else markSlot s x) := by
  simp only [remove, hex, if_true]
  rfl

theorem remove_unfold_dead (s : Khash) (x : Nat) (b : Bool)
    (hex : existsIdx s x = false) :
    remove s x b =
      (if b = true ∧ s.size > 4096 ∧ s.size < s.capacity >>> 2 then
        resize s (s.size * 150 / 77)
      else s) := by
  simp only [remove, hex, Bool.false_eq_true, if_false]

theorem remove_get_end (s : Khash) (key : Nat) (h : Inv s) (x : Nat)
    (hxlt : x < s.capacity) (hxlive : isEitherF s.flags x = false)
    (hxkey : s.keys x = key) (b : Bool) :
    get (remove s x b) key = (remove s x b).endIdx := by
  have hex : existsIdx s x = true := (existsIdx_true_iff s x).mpr ⟨hxlt, hxlive⟩
  have hInv2 : Inv (markSlot s x) := by
    have hms := Inv_markStep s x h
    rw [if_pos hex] at hms
    exact hms
  have hnk2 : ∀ j, j < (markSlot s x).capacity →
      isEitherF (markSlot s x).flags j = false →
      (markSlot s x).keys j ≠ key := by
    intro j hj hlj hkj
    have hjne : j ≠ x := by
      intro hjx
      subst hjx
      simp [markSlot, isEitherF, setIsdeletedTrueF_same] at hlj
    have hlj2 : isEitherF s.flags j = false := by
      simpa [markSlot, isEitherF, setIsdeletedTrueF_ne s.flags x j hjne]
        using hlj
    have : j = x := h.distinct j x hj hxlt hlj2 hxlive (by
      have : (markSlot s x).keys j = s.keys j := rfl
      rw [this] at hkj
      rw [hkj, hxkey])
    exact hjne this
  rw [remove_unfold s x b hex]
  by_cases hC : b = true ∧ (markSlot s x).size > 4096 ∧
      (markSlot s x).size < (markSlot s x).capacity >>> 2
  · rw [if_pos hC]
    by_cases hno : calculateUpperBound
        (clampCap ((markSlot s x).size * 150 / 77)) ≤ (markSlot s x).size
    · rw [resize_noop _ _ hno]
      exact get_none _ key hnk2
    · have hlt2 : (markSlot s x).size <
          calculateUpperBound (clampCap ((markSlot s x).size * 150 / 77)) := by
        omega
      obtain ⟨_, _, _, _, _, hliveq, _, _, _, _⟩ :=
        resize_spec _ ((markSlot s x).size * 150 / 77) hInv2.sizeEq hlt2
      apply get_none
      exact no_key_transfer _ _ key hliveq hnk2
  · rw [if_neg hC]
    exact get_none _ key hnk2

theorem Inv_removeKey (s : Khash) (key : Nat) (h : Inv s) :
    Inv (removeKey s key).2 := by
  show Inv (if get s key ≠ s.endIdx then (true, remove s (get s key) true)
    else (false, s)).2
  by_cases hf : get s key ≠ s.endIdx
  · rw [if_pos hf]
    exact Inv_remove s _ true h
  · rw [if_neg hf]
    exact h

theorem Inv_hmPutAll (l : List (Nat × Nat)) : ∀ s : Khash, Inv s →
    Inv (hmPutAll s l) := by
  induction l with
  | nil => intro s h; exact h
  | cons kv t ih =>
    intro s h
    show Inv (hmPutAll (hmPut s kv.1 kv.2).2 t)
    exact ih _ (Inv_hmPut s kv.1 kv.2 h)

theorem Inv_removeKeys (l : List Nat) : ∀ s : Khash, Inv s →
    Inv (removeKeys s l) := by
  induction l with
  | nil => intro s h; exact h
  | cons k t ih =>
    intro s h
    show Inv (removeKeys (removeKey s k).2 t)
    exact ih _ (Inv_removeKey s k h)

/-- C1: round trip at the map level.  For every invariant-satisfying
table, key and value: if hmPut(key, val) succeeds then hmGet(key) on the
resulting table yields exactly val; and after removeKey(key), contains
key is false and get(key) equals end(). -/
theorem claim_C1 (s : Khash) (key val : Nat) (h : Inv s) :
    ((hmPut s key val).1 = true →
      hmGet (hmPut s key val).2 key = some val) ∧
    contains (removeKey s key).2 key = false ∧
    get (removeKey s key).2 key = (removeKey s key).2.endIdx := by
  constructor
  · intro hb
    rcases hps : put s key with ⟨s2, i, ret⟩
    have hmp : hmPut s key val =
        (if ret ≠ 0 then (true, { s2 with vals := updFn s2.vals i val })
          else (false, s2)) := by
      unfold hmPut
      rw [hps]
    by_cases hr : ret ≠ 0
    · have hg := put_success_get s key h (by rw [hps]; exact hr)
      rw [hps] at hg
      obtain ⟨hget, hlt, _⟩ := hg
      rw [hmp, if_pos hr]
      have hcond : get s2 key ≠
          ({ s2 with vals := updFn s2.vals i val } : Khash).endIdx := by
        rw [hget]
        exact Nat.ne_of_lt hlt
      show (if get { s2 with vals := updFn s2.vals i val } key ≠
          ({ s2 with vals := updFn s2.vals i val } : Khash).endIdx then
          some ((updFn s2.vals i val)
            (get { s2 with vals := updFn s2.vals i val } key))
        else none) = some val
      rw [get_vals s2 (updFn s2.vals i val) key, if_pos hcond, hget,
        updFn_same]
    · rw [hmp, if_neg hr] at hb
      simp at hb
  · by_cases hfound : get s key ≠ s.endIdx
    · have hrk : removeKey s key = (true, remove s (get s key) true) := by
        show (if get s key ≠ s.endIdx then (true, remove s (get s key) true)
          else (false, s)) = _
        rw [if_pos hfound]
      obtain ⟨hlt, hlive, hkey⟩ := get_live s key hfound
      have hge := remove_get_end s key h (get s key) hlt hlive hkey true
      rw [hrk]
      refine ⟨?_, hge⟩
      unfold contains
      rw [hge]
      simp
    · have hrk : removeKey s key = (false, s) := by
        show (if get s key ≠ s.endIdx then (true, remove s (get s key) true)
          else (false, s)) = _
        rw [if_neg hfound]
      rw [hrk]
      push_neg at hfound
      refine ⟨?_, hfound⟩
      unfold contains
      rw [hfound]
      simp

theorem claim_C1_witness :
    ((hmPut tableSwap 5 50).1 = true →
      hmGet (hmPut tableSwap 5 50).2 5 = some 50) ∧
    contains (removeKey tableSwap 5).2 5 = false ∧
    get (removeKey tableSwap 5).2 5 = (removeKey tableSwap 5).2.endIdx :=
  claim_C1 tableSwap 5 50
    (Inv_hmPutAll [(1, 10), (3, 20)] (init idHash) (Inv_init idHash))

theorem get_placed {k : Nat} (s : Khash) (hc : s.capacity = 2 ^ k)
    (hd : DistinctKeys s) (hp : Placed s) (j : Nat) (hj : j < s.capacity)
    (hlj : isEitherF s.flags j = false) :
    get s (s.keys j) = j := by
  obtain ⟨n, hn, hpp, hprior⟩ := hp j hj hlj
  have hres := get_found (k := k) s (s.keys j) n hc
    (by rw [hpp]; exact hlj) (by rw [hpp]) ?_ hn
  · rw [hres, hpp]
  · intro m hm
    have hmlt : m < s.capacity := by omega
    have hne : probePos (startPos s (s.keys j)) s.capacity m ≠ j := by
      intro he
      have he2 : probePos (startPos s (s.keys j)) s.capacity m =
          probePos (startPos s (s.keys j)) s.capacity n := by
        rw [hpp]
        exact he
      rw [hc] at he2
      have : m = n := probePos_inj (k := k)
        (by rw [← hc]; exact hmlt) (by rw [← hc]; exact hn) he2
      omega
    have hnemp := hprior m hm
    unfold walkCond
    rw [hnemp]
    simp only [Bool.not_false, Bool.true_and]
    by_cases hdp : (s.flags (probePos (startPos s (s.keys j))
        s.capacity m)).deleted = true
    · rw [hdp]
      rfl
    · have hdp2 : (s.flags (probePos (startPos s (s.keys j))
          s.capacity m)).deleted = false := by
        cases hx : (s.flags (probePos (startPos s (s.keys j))
            s.capacity m)).deleted
        · rfl
        · exact absurd hx hdp
      rw [hdp2]
      simp only [Bool.false_or]
      have hplt : probePos (startPos s (s.keys j)) s.capacity m <
          s.capacity := probePos_lt _ _ (capacity_pos s hc)
      have hlp : isEitherF s.flags (probePos (startPos s (s.keys j))
          s.capacity m) = false := by
        unfold isEitherF
        rw [hnemp, hdp2]
        rfl
      have hkne : s.keys (probePos (startPos s (s.keys j)) s.capacity m) ≠
          s.keys j := fun he => hne (hd _ j hplt hj hlp hlj he)
      simp [hkne]

/-- C2: a resize call that performs a rehash (the current size is below
the new table's upper bound; put and remove trigger resize through this
same function) preserves the multiset of live key/value entries, keeps
every previously-live key retrievable by get with its stored value,
holds no key twice, and afterwards capacity is the requested capacity
rounded up to a power of two and clamped below at MIN_CAPACITY (the
least power of two at least the request and at least 16), occupied
equals size (tombstones eliminated), size is unchanged and upperBound is
floor(capacity * 0.77 + 0.5). -/
theorem claim_C2 (s : Khash) (n0 : Nat) (h : Inv s)
    (hgo : s.size < calculateUpperBound (clampCap n0)) :
    liveEntries (resize s n0) = liveEntries s ∧
    (∀ j, j < s.capacity → isEitherF s.flags j = false →
      hmGet (resize s n0) (s.keys j) = some (s.vals j)) ∧
    ((liveEntries (resize s n0)).map Prod.fst).Nodup ∧
    (resize s n0).capacity = clampCap n0 ∧
    n0 ≤ (resize s n0).capacity ∧
    MIN_CAPACITY ≤ (resize s n0).capacity ∧
    (∃ K, (resize s n0).capacity = 2 ^ K) ∧
    (∀ m, n0 ≤ 2 ^ m → MIN_CAPACITY ≤ 2 ^ m →
      (resize s n0).capacity ≤ 2 ^ m) ∧
    (resize s n0).occupied = (resize s n0).size ∧
    (resize s n0).size = s.size ∧
    (resize s n0).upperBound = (77 * (resize s n0).capacity + 50) / 100 := by
  obtain ⟨hcap, hsz, hocc, hub, _, hliveq, _, hplaced, _, _⟩ :=
    resize_spec s n0 h.sizeEq hgo
  have hinv2 : Inv (resize s n0) := Inv_resize s n0 h
  obtain ⟨K, hK4, hKeq⟩ := clampCap_pow n0
  have hc2 : (resize s n0).capacity = 2 ^ K := by rw [hcap, hKeq]
  obtain ⟨m0, hm1, hm2, hm3⟩ := power2Ceil_spec n0
  have hclamp_ge : power2Ceil n0 ≤ clampCap n0 := by
    unfold clampCap
    by_cases hlt : power2Ceil n0 < MIN_CAPACITY
    · rw [if_pos hlt]
      omega
    · rw [if_neg hlt]
  refine ⟨hliveq, ?_, (distinct_iff _).mp hinv2.distinct, hcap, ?_, ?_,
    ⟨K, hc2⟩, ?_, ?_, hsz, ?_⟩
  · intro j hj hlj
    have hmem : (s.keys j, s.vals j) ∈ liveEntries (resize s n0) := by
      rw [hliveq]
      exact mem_liveEntries s j hj hlj
    obtain ⟨p, hp, hlp, hkp, hvp⟩ := liveEntries_mem_inv _ _ hmem
    have hgp := get_placed (k := K) (resize s n0) hc2 hinv2.distinct
      hplaced p hp hlp
    rw [hkp] at hgp
    have hne : get (resize s n0) (s.keys j) ≠ (resize s n0).endIdx := by
      rw [hgp]
      exact Nat.ne_of_lt hp
    show (if get (resize s n0) (s.keys j) ≠ (resize s n0).endIdx then
      some ((resize s n0).vals (get (resize s n0) (s.keys j))) else none)
      = some (s.vals j)
    rw [if_pos hne, hgp, hvp]
  · rw [hcap]
    calc n0 ≤ 2 ^ m0 := hm2
    _ = power2Ceil n0 := hm1.symm
    _ ≤ clampCap n0 := hclamp_ge
  · rw [hcap]
    unfold clampCap
    by_cases hlt : power2Ceil n0 < MIN_CAPACITY
    · rw [if_pos hlt]
    · rw [if_neg hlt]
      omega
  · intro m hle hge
    rw [hcap]
    unfold clampCap
    have hpc : power2Ceil n0 ≤ 2 ^ m := by
      rw [hm1]
      exact Nat.pow_le_pow_right (by omega) (hm3 m hle)
    by_cases hlt : power2Ceil n0 < MIN_CAPACITY
    · rw [if_pos hlt]
      exact hge
    · rw [if_neg hlt]
      exact hpc
  · rw [hocc, hsz]
  · rw [hub, hcap]
    rfl

theorem claim_C2_witness :
    liveEntries (resize tableSwap 20) = liveEntries tableSwap ∧
    (∀ j, j < tableSwap.capacity →
      isEitherF tableSwap.flags j = false →
      hmGet (resize tableSwap 20) (tableSwap.keys j) =
        some (tableSwap.vals j)) ∧
    ((liveEntries (resize tableSwap 20)).map Prod.fst).Nodup ∧
    (resize tableSwap 20).capacity = clampCap 20 ∧
    20 ≤ (resize tableSwap 20).capacity ∧
    MIN_CAPACITY ≤ (resize tableSwap 20).capacity ∧
    (∃ K, (resize tableSwap 20).capacity = 2 ^ K) ∧
    (∀ m, 20 ≤ 2 ^ m → MIN_CAPACITY ≤ 2 ^ m →
      (resize tableSwap 20).capacity ≤ 2 ^ m) ∧
    (resize tableSwap 20).occupied = (resize tableSwap 20).size ∧
    (resize tableSwap 20).size = tableSwap.size ∧
    (resize tableSwap 20).upperBound =
      (77 * (resize tableSwap 20).capacity + 50) / 100 :=
  claim_C2 tableSwap 20
    (Inv_hmPutAll [(1, 10), (3, 20)] (init idHash) (Inv_init idHash))
    (by decide)

set_option maxRecDepth 40000 in
/-- C5 counterexample: a reachable table with twelve occupied slots, ten
of them tombstones (size 2, occupied 12 = upperBound).  put of the
already-present key 0 returns ret = 0, yet occupied drops from 12 to 2:
the bookkeeping is not unchanged across the whole call (the entry resize
purges the tombstones before the probe), refuting the unqualified
"ret == 0 leaves size, occupied and all stored entries unchanged". -/
theorem claim_C5_counterexample :
    (put tableTombs 0).2.2 = 0 ∧ tableTombs.occupied = 12 ∧
    (put tableTombs 0).1.occupied = 2 := by
  decide

/-- C5 (amended): the insertion kinds of put(key, ret) hold relative to
the state reached after put's automatic entry resize (putResize); on
that state t with claimed slot i = putIndex t key: ret = 1 exactly when
slot i was a never-used Empty slot, and then size and occupied each
increase by 1 over t; ret = 2 exactly when slot i was Deleted, and then
size increases by 1 over t while occupied is unchanged from t; ret = 0
exactly when slot i is Live, and then the state equals t (unchanged from
t) and slot i already holds the key; moreover when ret is nonzero the
key was not present in t. -/
theorem claim_C5 (s : Khash) (key : Nat) (h : Inv s) :
    ((put s key).2.2 = 1 ↔
      ((putResize s).flags (putIndex (putResize s) key)).empty = true) ∧
    ((put s key).2.2 = 1 →
      (put s key).1.size = (putResize s).size + 1 ∧
      (put s key).1.occupied = (putResize s).occupied + 1) ∧
    ((put s key).2.2 = 2 ↔
      ((putResize s).flags (putIndex (putResize s) key)).empty = false ∧
      ((putResize s).flags (putIndex (putResize s) key)).deleted = true) ∧
    ((put s key).2.2 = 2 →
      (put s key).1.size = (putResize s).size + 1 ∧
      (put s key).1.occupied = (putResize s).occupied) ∧
    ((put s key).2.2 = 0 ↔
      ((putResize s).flags (putIndex (putResize s) key)).empty = false ∧
      ((putResize s).flags (putIndex (putResize s) key)).deleted = false) ∧
    ((put s key).2.2 = 0 → (put s key).1 = putResize s ∧
      (putResize s).keys (putIndex (putResize s) key) = key) ∧
    ((put s key).2.2 ≠ 0 → ∀ j, j < (putResize s).capacity →
      isEitherF (putResize s).flags j = false →
      (putResize s).keys j ≠ key) := by
  obtain ⟨hInv1, hocc1, _, _⟩ := putResize_spec s h
  obtain ⟨⟨k, hk4, hck⟩, hemp⟩ := Inv_room _ hInv1 hocc1
  have hput : put s key = putCore (putResize s) key := rfl
  by_cases he : ((putResize s).flags (putIndex (putResize s) key)).empty
      = true
  · have hpc := putCore_fresh (putResize s) key he
    rw [hput, hpc]
    refine ⟨by simp [he], fun _ => ⟨rfl, rfl⟩, by simp [he], ?_, by simp [he],
      ?_, ?_⟩
    · intro h2
      simp at h2
    · intro h0
      simp at h0
    · intro _
      exact putIndex_no_live_key (putResize s) key hck hemp hInv1.placed
        (by unfold isEitherF; rw [he]; rfl)
  · have he2 : ((putResize s).flags (putIndex (putResize s) key)).empty
        = false := by
      cases hx : ((putResize s).flags (putIndex (putResize s) key)).empty
      · rfl
      · exact absurd hx he
    by_cases hd : ((putResize s).flags (putIndex (putResize s) key)).deleted
        = true
    · have hpc := putCore_reuse (putResize s) key he2 hd
      rw [hput, hpc]
      refine ⟨by simp [he2], ?_, by simp [he2, hd], fun _ => ⟨rfl, rfl⟩,
        by simp [hd], ?_, ?_⟩
      · intro h1
        simp at h1
      · intro h0
        simp at h0
      · intro _
        exact putIndex_no_live_key (putResize s) key hck hemp hInv1.placed
          (by unfold isEitherF; rw [hd]; simp)
    · have hd2 : ((putResize s).flags
          (putIndex (putResize s) key)).deleted = false := by
        cases hx : ((putResize s).flags (putIndex (putResize s) key)).deleted
        · rfl
        · exact absurd hx hd
      have hpc := putCore_present (putResize s) key he2 hd2
      have hlive : isEitherF (putResize s).flags
          (putIndex (putResize s) key) = false := by
        unfold isEitherF
        rw [he2, hd2]
        rfl
      rw [hput, hpc]
      refine ⟨by simp [he2], ?_, by simp [hd2], ?_, by simp [he2, hd2],
        fun _ => ⟨rfl, putIndex_live_key (putResize s) key hck hemp hlive⟩,
        ?_⟩
      · intro h1
        simp at h1
      · intro h2
        simp at h2
      · intro h0
        exact absurd rfl h0

theorem claim_C5_witness :
    ((put tableOne 1).2.2 = 1 ↔
      ((putResize tableOne).flags
        (putIndex (putResize tableOne) 1)).empty = true) ∧
    ((put tableOne 1).2.2 = 1 →
      (put tableOne 1).1.size = (putResize tableOne).size + 1 ∧
      (put tableOne 1).1.occupied = (putResize tableOne).occupied + 1) ∧
    ((put tableOne 1).2.2 = 2 ↔
      ((putResize tableOne).flags
        (putIndex (putResize tableOne) 1)).empty = false ∧
      ((putResize tableOne).flags
        (putIndex (putResize tableOne) 1)).deleted = true) ∧
    ((put tableOne 1).2.2 = 2 →
      (put tableOne 1).1.size = (putResize tableOne).size + 1 ∧
      (put tableOne 1).1.occupied = (putResize tableOne).occupied) ∧
    ((put tableOne 1).2.2 = 0 ↔
      ((putResize tableOne).flags
        (putIndex (putResize tableOne) 1)).empty = false ∧
      ((putResize tableOne).flags
        (putIndex (putResize tableOne) 1)).deleted = false) ∧
    ((put tableOne 1).2.2 = 0 → (put tableOne 1).1 = putResize tableOne ∧
      (putResize tableOne).keys (putIndex (putResize tableOne) 1) = 1) ∧
    ((put tableOne 1).2.2 ≠ 0 → ∀ j, j < (putResize tableOne).capacity →
      isEitherF (putResize tableOne).flags j = false →
      (putResize tableOne).keys j ≠ 1) :=
  claim_C5 tableOne 1
    (Inv_hmPutAll [(1, 10)] (init idHash) (Inv_init idHash))

set_option maxRecDepth 80000 in
/-- C6: resize trigger policy.  On a table of power-of-two capacity (at
least 16): put's entry step resizes exactly when occupied is at least
upperBound, requesting the same capacity (capacity - 1 rounds back up to
capacity, purging tombstones) when capacity exceeds twice the size and
the next larger power of two (capacity + 1 rounds up to 2 * capacity)
otherwise; remove on a live slot shrinks exactly when its shrink flag is
set, the decremented size exceeds 4096 and is below a quarter of the
capacity, requesting floor(size / 0.77 * 1.5) (embedded as the exact
rational size * 150 / 77); and inserting the 13 distinct keys 0..12 into
an empty identity-hashed table grows the capacity from 16 (after 12
inserts) to 32, with all 13 keys retrievable with their values. -/
theorem claim_C6 (s : Khash) (k : Nat) (hk : 4 ≤ k)
    (hck : s.capacity = 2 ^ k) :
    (s.occupied < s.upperBound → putResize s = s) ∧
    (s.occupied ≥ s.upperBound → s.capacity > 2 * s.size →
      putResize s = resize s (s.capacity - 1) ∧
      clampCap (s.capacity - 1) = s.capacity) ∧
    (s.occupied ≥ s.upperBound → ¬s.capacity > 2 * s.size →
      putResize s = resize s (s.capacity + 1) ∧
      clampCap (s.capacity + 1) = 2 * s.capacity) ∧
    (∀ x b, existsIdx s x = true →
      ((b = true ∧ (markSlot s x).size > 4096 ∧
          (markSlot s x).size < (markSlot s x).capacity / 4) →
        remove s x b =
          resize (markSlot s x) ((markSlot s x).size * 150 / 77)) ∧
      (¬(b = true ∧ (markSlot s x).size > 4096 ∧
          (markSlot s x).size < (markSlot s x).capacity / 4) →
        remove s x b = markSlot s x)) ∧
    (hmPutAll (init idHash) (pairsUpTo 12)).capacity = 16 ∧
    (hmPutAll (init idHash) (pairsUpTo 13)).capacity = 32 ∧
    ((List.range 13).all (fun k2 =>
      hmGet (hmPutAll (init idHash) (pairsUpTo 13)) k2
        == some (k2 + 100))) = true := by
  have hdiv : ∀ m : Nat, m >>> 2 = m / 4 := by
    intro m
    rw [Nat.shiftRight_eq_div_pow]
  have hc16 : 16 ≤ s.capacity := by
    rw [hck]
    calc (16 : Nat) = 2 ^ 4 := by norm_num
    _ ≤ 2 ^ k := Nat.pow_le_pow_right (by omega) hk
  refine ⟨?_, ?_, ?_, ?_, by decide, by decide, by decide⟩
  · intro hlt
    unfold putResize
    rw [if_neg (by omega)]
  · intro hge hgt
    refine ⟨by unfold putResize; rw [if_pos hge, if_pos hgt], ?_⟩
    rw [hck]
    unfold clampCap MIN_CAPACITY
    rw [power2Ceil_pred k (by omega)]
    rw [if_neg (by omega)]
  · intro hge hngt
    refine ⟨by unfold putResize; rw [if_pos hge, if_neg hngt], ?_⟩
    rw [hck]
    unfold clampCap MIN_CAPACITY
    rw [power2Ceil_succ_pow k]
    rw [if_neg (by
      have : 2 ^ k ≤ 2 ^ (k + 1) := Nat.pow_le_pow_right (by omega) (by omega)
      omega)]
    rw [pow_succ]
    exact Nat.mul_comm _ 2
  · intro x b hex
    constructor
    · intro hcnd
      rw [remove_unfold s x b hex, if_pos (by rw [hdiv]; exact hcnd)]
    · intro hcnd
      rw [remove_unfold s x b hex, if_neg (by rw [hdiv]; exact hcnd)]

theorem claim_C6_witness :
    (tableOne.occupied < tableOne.upperBound → putResize tableOne = tableOne) ∧
    (tableOne.occupied ≥ tableOne.upperBound →
      tableOne.capacity > 2 * tableOne.size →
      putResize tableOne = resize tableOne (tableOne.capacity - 1) ∧
      clampCap (tableOne.capacity - 1) = tableOne.capacity) ∧
    (tableOne.occupied ≥ tableOne.upperBound →
      ¬tableOne.capacity > 2 * tableOne.size →
      putResize tableOne = resize tableOne (tableOne.capacity + 1) ∧
      clampCap (tableOne.capacity + 1) = 2 * tableOne.capacity) ∧
    (∀ x b, existsIdx tableOne x = true →
      ((b = true ∧ (markSlot tableOne x).size > 4096 ∧
          (markSlot tableOne x).size < (markSlot tableOne x).capacity / 4) →
        remove tableOne x b =
          resize (markSlot tableOne x)
            ((markSlot tableOne x).size * 150 / 77)) ∧
      (¬(b = true ∧ (markSlot tableOne x).size > 4096 ∧
          (markSlot tableOne x).size < (markSlot tableOne x).capacity / 4) →
        remove tableOne x b = markSlot tableOne x)) ∧
    (hmPutAll (init idHash) (pairsUpTo 12)).capacity = 16 ∧
    (hmPutAll (init idHash) (pairsUpTo 13)).capacity = 32 ∧
    ((List.range 13).all (fun k2 =>
      hmGet (hmPutAll (init idHash) (pairsUpTo 13)) k2
        == some (k2 + 100))) = true :=
  claim_C6 tableOne 4 (by decide) (by decide)

set_option maxRecDepth 40000 in
/-- C7 counterexample: keys 0 and 16 are inserted into an identity-hashed
table of capacity 16 and both removed, leaving tombstones at slots 0 and
1.  put(32) walks 0, 1, 3, ...: the first Deleted slot on the path is
slot 0 (step 0, the very start slot), yet put claims slot 1 — the code
keeps overwriting its site variable, recording the LAST deleted slot
seen, refuting "inserts at the first Deleted slot encountered". -/
theorem claim_C7_counterexample :
    startPos tableTwoTombs 32 = 0 ∧
    (tableTwoTombs.flags 0).deleted = true ∧
    (tableTwoTombs.flags 0).empty = false ∧
    (tableTwoTombs.flags 1).deleted = true ∧
    (tableTwoTombs.flags 1).empty = false ∧
    (put tableTwoTombs 32).2.1 = 1 ∧
    (put tableTwoTombs 32).2.2 = 2 := by
  decide

/-- C7 (amended): when the probe walk of put starts at a non-Empty slot
and stops at an Empty slot, and at least one Deleted slot was seen along
the walk, put claims the LAST Deleted slot seen before the stop (the
site variable is overwritten at every Deleted slot): the chosen index is
a probe position mL carrying a Deleted flag after which no later probe
position before the stop is Deleted. -/
theorem claim_C7 (s : Khash) (key : Nat) (k : Nat) (hc : s.capacity = 2 ^ k)
    (hemp : ∃ e, e < s.capacity ∧ (s.flags e).empty = true) :
    ∃ nstar, nstar < s.capacity ∧
      walkCond s key (probePos (startPos s key) s.capacity nstar) = false ∧
      (∀ m, m < nstar →
        walkCond s key (probePos (startPos s key) s.capacity m) = true) ∧
      ((s.flags (probePos (startPos s key) s.capacity 0)).empty = false →
       (s.flags (probePos (startPos s key) s.capacity nstar)).empty = true →
       ∀ m, m < nstar →
        (s.flags (probePos (startPos s key) s.capacity m)).deleted = true →
        ∃ mL, m ≤ mL ∧ mL < nstar ∧
          (s.flags (probePos (startPos s key) s.capacity mL)).deleted
            = true ∧
          (∀ j, mL < j → j < nstar →
            (s.flags (probePos (startPos s key) s.capacity j)).deleted
              = false) ∧
          putIndex s key = probePos (startPos s key) s.capacity mL) := by
  obtain ⟨nstar, hns, hstop, hcont, heq⟩ := putIndex_spec s key hc hemp
  refine ⟨nstar, hns, hstop, hcont, ?_⟩
  intro hfast hse m hm hdm
  rcases siteSpec_cases s key nstar with ⟨_, hnone⟩ | ⟨mL, hmL, hsite, hdel, hlast⟩
  · exact absurd hdm (by rw [hnone m hm]; simp)
  · have hmle : m ≤ mL := by
      by_contra hgt
      have := hlast m (by omega) hm
      rw [this] at hdm
      cases hdm
    refine ⟨mL, hmle, hmL, hdel, hlast, ?_⟩
    have hsitene : siteSpec s key nstar ≠ s.capacity := by
      rw [hsite]
      have : probePos (startPos s key) s.capacity mL < s.capacity :=
        probePos_lt _ _ (capacity_pos s hc)
      omega
    rw [heq, if_neg (by rw [hfast]; simp), if_pos ⟨hse, hsitene⟩, hsite]

theorem claim_C7_witness :
    ∃ nstar, nstar < tableTwoTombs.capacity ∧
      walkCond tableTwoTombs 32
        (probePos (startPos tableTwoTombs 32)
          tableTwoTombs.capacity nstar) = false ∧
      (∀ m, m < nstar →
        walkCond tableTwoTombs 32
          (probePos (startPos tableTwoTombs 32)
            tableTwoTombs.capacity m) = true) ∧
      ((tableTwoTombs.flags (probePos (startPos tableTwoTombs 32)
          tableTwoTombs.capacity 0)).empty = false →
       (tableTwoTombs.flags (probePos (startPos tableTwoTombs 32)
          tableTwoTombs.capacity nstar)).empty = true →
       ∀ m, m < nstar →
        (tableTwoTombs.flags (probePos (startPos tableTwoTombs 32)
          tableTwoTombs.capacity m)).deleted = true →
        ∃ mL, m ≤ mL ∧ mL < nstar ∧
          (tableTwoTombs.flags (probePos (startPos tableTwoTombs 32)
            tableTwoTombs.capacity mL)).deleted = true ∧
          (∀ j, mL < j → j < nstar →
            (tableTwoTombs.flags (probePos (startPos tableTwoTombs 32)
              tableTwoTombs.capacity j)).deleted = false) ∧
          putIndex tableTwoTombs 32 =
            probePos (startPos tableTwoTombs 32)
              tableTwoTombs.capacity mL) :=
  claim_C7 tableTwoTombs 32 4 (by decide) ⟨2, by decide⟩

set_option maxRecDepth 40000 in
/-- C8 counterexample: twelve keys at capacity 16 give size 12, exactly
equal to the upper bound floor(16 * 0.77 + 0.5) = 12 of the requested
capacity 16.  The size does not exceed the bound, yet resize(16) is a
no-op (the code compares with >=, not >), refuting "no-op exactly when
the current size exceeds the bound". -/
theorem claim_C8_counterexample :
    tableTwelve.size = 12 ∧ calculateUpperBound (clampCap 16) = 12 ∧
    ¬tableTwelve.size > calculateUpperBound (clampCap 16) ∧
    resize tableTwelve 16 = tableTwelve :=
  ⟨by decide, by decide, by decide, resize_noop tableTwelve 16 (by decide)⟩

/-- C8 (amended): let c be the requested capacity rounded up to a power
of two and clamped below at 16 (clampCap).  resize is a no-op whenever
the current size is at least floor(c * 0.77 + 0.5) — greater OR equal,
not only strictly greater — returning the state unchanged; and whenever
the size is strictly below that bound it performs the rehash: capacity
becomes c, size is preserved, occupied becomes size, upperBound becomes
floor(c * 0.77 + 0.5), the live entries are preserved exactly and no
tombstone remains. -/
theorem claim_C8 (s : Khash) (n0 : Nat) (h : Inv s) :
    (calculateUpperBound (clampCap n0) ≤ s.size → resize s n0 = s) ∧
    (s.size < calculateUpperBound (clampCap n0) →
      (resize s n0).capacity = clampCap n0 ∧
      (resize s n0).size = s.size ∧
      (resize s n0).occupied = s.size ∧
      (resize s n0).upperBound = calculateUpperBound (clampCap n0) ∧
      liveEntries (resize s n0) = liveEntries s ∧
      (∀ i, ((resize s n0).flags i).deleted = false)) := by
  refine ⟨resize_noop s n0, ?_⟩
  intro hlt
  obtain ⟨hcap, hsz, hocc, hub, _, hliveq, hnodel, _, _, _⟩ :=
    resize_spec s n0 h.sizeEq hlt
  exact ⟨hcap, hsz, hocc, hub, hliveq, hnodel⟩

theorem claim_C8_witness :
    (calculateUpperBound (clampCap 16) ≤ tableTwelve.size →
      resize tableTwelve 16 = tableTwelve) ∧
    (tableTwelve.size < calculateUpperBound (clampCap 16) →
      (resize tableTwelve 16).capacity = clampCap 16 ∧
      (resize tableTwelve 16).size = tableTwelve.size ∧
      (resize tableTwelve 16).occupied = tableTwelve.size ∧
      (resize tableTwelve 16).upperBound =
        calculateUpperBound (clampCap 16) ∧
      liveEntries (resize tableTwelve 16) = liveEntries tableTwelve ∧
      (∀ i, ((resize tableTwelve 16).flags i).deleted = false)) :=
  claim_C8 tableTwelve 16
    (Inv_hmPutAll (pairsUpTo 12) (init idHash) (Inv_init idHash))

theorem hmGet_vals (s : Khash) (v : Nat → Nat) (key : Nat) :
    hmGet { s with vals := v } key =
      (if get s key ≠ s.endIdx then some (v (get s key)) else none) := by
  show (if get { s with vals := v } key ≠
      ({ s with vals := v } : Khash).endIdx then
      some (v (get { s with vals := v } key)) else none) = _
  rw [get_vals]
  rfl

theorem hmGet_found (s : Khash) (key : Nat) (hf : get s key ≠ s.endIdx) :
    hmGet s key = some (s.vals (get s key)) := by
  show (if get s key ≠ s.endIdx then some (s.vals (get s key)) else none) = _
  rw [if_pos hf]

theorem hmGet_end (s : Khash) (key : Nat) (hf : get s key = s.endIdx) :
    hmGet s key = none := by
  show (if get s key ≠ s.endIdx then some (s.vals (get s key)) else none) = _
  rw [if_neg (not_not_intro hf)]

theorem existsIdx_end (s : Khash) : existsIdx s s.endIdx = false := by
  unfold existsIdx
  simp

theorem existsIdx_get (s : Khash) (key : Nat) :
    existsIdx s (get s key) = contains s key := by
  by_cases hf : get s key ≠ s.endIdx
  · obtain ⟨hlt, hlive, _⟩ := get_live s key hf
    rw [(existsIdx_true_iff s _).mpr ⟨hlt, hlive⟩]
    unfold contains
    exact (decide_eq_true hf).symm
  · push_neg at hf
    rw [hf, existsIdx_end]
    unfold contains
    simp [hf]

theorem no_live_of_get_end (t : Khash) (key : Nat) (h : Inv t)
    (hg : get t key = t.endIdx) :
    ∀ j, j < t.capacity → isEitherF t.flags j = false →
      t.keys j ≠ key := by
  intro j hj hlj hkj
  rcases h.capPow with hc0 | ⟨k, _, hck⟩
  · omega
  · have hgp := get_placed (k := k) t hck h.distinct h.placed j hj hlj
    rw [hkj, hg] at hgp
    have : t.endIdx = t.capacity := rfl
    omega

theorem resize_no_live_key (t : Khash) (n0 : Nat)
    (ht : t.size = countLive t) (other : Nat)
    (hno : ∀ j, j < t.capacity → isEitherF t.flags j = false →
      t.keys j ≠ other) :
    ∀ j, j < (resize t n0).capacity →
      isEitherF (resize t n0).flags j = false →
      (resize t n0).keys j ≠ other := by
  by_cases hnoop : calculateUpperBound (clampCap n0) ≤ t.size
  · rw [resize_noop _ _ hnoop]
    exact hno
  · obtain ⟨_, _, _, _, _, hliveq, _, _, _, _⟩ :=
      resize_spec t n0 ht (by omega)
    exact no_key_transfer _ _ other hliveq hno

theorem putResize_no_live_key (t : Khash) (other : Nat) (h : Inv t)
    (hno : ∀ j, j < t.capacity → isEitherF t.flags j = false →
      t.keys j ≠ other) :
    ∀ j, j < (putResize t).capacity →
      isEitherF (putResize t).flags j = false →
      (putResize t).keys j ≠ other := by
  by_cases hocc : t.occupied ≥ t.upperBound
  · by_cases hgt : t.capacity > 2 * t.size
    · have he : putResize t = resize t (t.capacity - 1) := by
        unfold putResize
        rw [if_pos hocc, if_pos hgt]
      rw [he]
      exact resize_no_live_key t _ h.sizeEq other hno
    · have he : putResize t = resize t (t.capacity + 1) := by
        unfold putResize
        rw [if_pos hocc, if_neg hgt]
      rw [he]
      exact resize_no_live_key t _ h.sizeEq other hno
  · have he : putResize t = t := by
      unfold putResize
      rw [if_neg hocc]
    rw [he]
    exact hno

theorem put_no_live_key (t : Khash) (key other : Nat) (h : Inv t)
    (hno : ∀ j, j < t.capacity → isEitherF t.flags j = false →
      t.keys j ≠ other)
    (hko : key ≠ other) :
    ∀ j, j < (put t key).1.capacity →
      isEitherF (put t key).1.flags j = false →
      (put t key).1.keys j ≠ other := by
  have hno1 := putResize_no_live_key t other h hno
  have hput : put t key = putCore (putResize t) key := rfl
  by_cases he : ((putResize t).flags (putIndex (putResize t) key)).empty
      = true
  · rw [hput, putCore_fresh _ key he]
    intro j hj hlj
    by_cases hji : j = putIndex (putResize t) key
    · show updFn (putResize t).keys (putIndex (putResize t) key) key j
        ≠ other
      rw [hji, updFn_same]
      exact hko
    · show updFn (putResize t).keys (putIndex (putResize t) key) key j
        ≠ other
      rw [updFn_ne _ _ _ _ hji]
      apply hno1 j hj
      have hfe : isEitherF (setIsbothFalseF (putResize t).flags
          (putIndex (putResize t) key)) j =
          isEitherF (putResize t).flags j := by
        unfold isEitherF
        rw [setIsbothFalseF_ne _ _ _ hji]
      rw [← hfe]
      exact hlj
  · have he2 : ((putResize t).flags (putIndex (putResize t) key)).empty
        = false := by
      cases hx : ((putResize t).flags (putIndex (putResize t) key)).empty
      · rfl
      · exact absurd hx he
    by_cases hd : ((putResize t).flags (putIndex (putResize t) key)).deleted
        = true
    · rw [hput, putCore_reuse _ key he2 hd]
      intro j hj hlj
      by_cases hji : j = putIndex (putResize t) key
      · show updFn (putResize t).keys (putIndex (putResize t) key) key j
          ≠ other
        rw [hji, updFn_same]
        exact hko
      · show updFn (putResize t).keys (putIndex (putResize t) key) key j
          ≠ other
        rw [updFn_ne _ _ _ _ hji]
        apply hno1 j hj
        have hfe : isEitherF (setIsbothFalseF (putResize t).flags
            (putIndex (putResize t) key)) j =
            isEitherF (putResize t).flags j := by
          unfold isEitherF
          rw [setIsbothFalseF_ne _ _ _ hji]
        rw [← hfe]
        exact hlj
    · have hd2 : ((putResize t).flags
          (putIndex (putResize t) key)).deleted = false := by
        cases hx : ((putResize t).flags
            (putIndex (putResize t) key)).deleted
        · rfl
        · exact absurd hx hd
      rw [hput, putCore_present _ key he2 hd2]
      exact hno1

theorem remove_no_live_key (s : Khash) (x : Nat) (b : Bool) (h : Inv s)
    (other : Nat)
    (hno : ∀ j, j < s.capacity → isEitherF s.flags j = false →
      s.keys j ≠ other) :
    ∀ j, j < (remove s x b).capacity →
      isEitherF (remove s x b).flags j = false →
      (remove s x b).keys j ≠ other := by
  by_cases hex : existsIdx s x = true
  · have hInv2 : Inv (markSlot s x) := by
      have hms := Inv_markStep s x h
      rw [if_pos hex] at hms
      exact hms
    have hno2 : ∀ j, j < (markSlot s x).capacity →
        isEitherF (markSlot s x).flags j = false →
        (markSlot s x).keys j ≠ other := by
      intro j hj hlj
      by_cases hjx : j = x
      · exfalso
        rw [hjx] at hlj
        simp [markSlot, isEitherF, setIsdeletedTrueF_same] at hlj
      · apply hno j hj
        simpa [markSlot, isEitherF, setIsdeletedTrueF_ne s.flags x j hjx]
          using hlj
    rw [remove_unfold s x b hex]
    by_cases hC : b = true ∧ (markSlot s x).size > 4096 ∧
        (markSlot s x).size < (markSlot s x).capacity >>> 2
    · rw [if_pos hC]
      exact resize_no_live_key _ _ hInv2.sizeEq other hno2
    · rw [if_neg hC]
      exact hno2
  · have hex2 : existsIdx s x = false := by
      cases hx : existsIdx s x
      · rfl
      · exact absurd hx hex
    rw [remove_unfold_dead s x b hex2]
    by_cases hC : b = true ∧ s.size > 4096 ∧ s.size < s.capacity >>> 2
    · rw [if_pos hC]
      exact resize_no_live_key _ _ h.sizeEq other hno
    · rw [if_neg hC]
      exact hno

theorem put_ret_ne_zero (t : Khash) (key : Nat) (h : Inv t)
    (hno : ∀ j, j < t.capacity → isEitherF t.flags j = false →
      t.keys j ≠ key) :
    (put t key).2.2 ≠ 0 := by
  intro h0
  obtain ⟨hInv1, hocc1, _, _⟩ := putResize_spec t h
  obtain ⟨⟨k, hk4, hck⟩, hemp⟩ := Inv_room _ hInv1 hocc1
  have hno1 := putResize_no_live_key t key h hno
  have hput : put t key = putCore (putResize t) key := rfl
  by_cases he : ((putResize t).flags (putIndex (putResize t) key)).empty
      = true
  · rw [hput, putCore_fresh _ key he] at h0
    exact Nat.one_ne_zero h0
  · have he2 : ((putResize t).flags (putIndex (putResize t) key)).empty
        = false := by
      cases hx : ((putResize t).flags (putIndex (putResize t) key)).empty
      · rfl
      · exact absurd hx he
    by_cases hd : ((putResize t).flags (putIndex (putResize t) key)).deleted
        = true
    · rw [hput, putCore_reuse _ key he2 hd] at h0
      exact Nat.succ_ne_zero 1 h0
    · have hd2 : ((putResize t).flags
          (putIndex (putResize t) key)).deleted = false := by
        cases hx : ((putResize t).flags
            (putIndex (putResize t) key)).deleted
        · rfl
        · exact absurd hx hd
      have hlive : isEitherF (putResize t).flags
          (putIndex (putResize t) key) = false := by
        unfold isEitherF
        rw [he2, hd2]
        rfl
      exact hno1 _ (putIndex_lt (putResize t) key hck hemp) hlive
        (putIndex_live_key (putResize t) key hck hemp hlive)

/-- C9: hmSwap(first, second, iterators, swap) semantics on an
invariant-satisfying map.  If first = second the call returns whether
the key exists and leaves the state unchanged; if neither key exists it
returns false with both iterators end() and the state unchanged; if both
keys exist (first distinct from second) and swap is allowed the two
stored values are exchanged and it returns true; if both exist and swap
is not allowed it returns false with the state unchanged; if exactly one
key exists its value migrates to the absent key (the source key is no
longer contained, the destination holds the value), the call returns
true, the vacated side's iterator is end() and the other iterator names
the destination slot. -/
theorem claim_C9 (s : Khash) (first second : Nat) (swap : Bool)
    (h : Inv s) :
    (first = second →
      (hmSwap s first second swap).1 = contains s first ∧ (hmSwap s first second swap).2.2 = s) ∧
    (first ≠ second → get s first = s.endIdx → get s second = s.endIdx →
      (hmSwap s first second swap).1 = false ∧ (hmSwap s first second swap).2.1.1 = s.endIdx ∧
      (hmSwap s first second swap).2.1.2 = s.endIdx ∧ (hmSwap s first second swap).2.2 = s) ∧
    (first ≠ second → get s first ≠ s.endIdx → get s second ≠ s.endIdx →
      swap = true →
      (hmSwap s first second swap).1 = true ∧
      hmGet (hmSwap s first second swap).2.2 first = hmGet s second ∧
      hmGet (hmSwap s first second swap).2.2 second = hmGet s first) ∧
    (first ≠ second → get s first ≠ s.endIdx → get s second ≠ s.endIdx →
      swap = false →
      (hmSwap s first second swap).1 = false ∧ (hmSwap s first second swap).2.2 = s) ∧
    (first ≠ second → get s first ≠ s.endIdx → get s second = s.endIdx →
      (hmSwap s first second swap).1 = true ∧
      (hmSwap s first second swap).2.1.1 = (hmSwap s first second swap).2.2.endIdx ∧
      hmGet (hmSwap s first second swap).2.2 second = hmGet s first ∧
      contains (hmSwap s first second swap).2.2 first = false ∧
      get (hmSwap s first second swap).2.2 second = (hmSwap s first second swap).2.1.2) ∧
    (first ≠ second → get s first = s.endIdx → get s second ≠ s.endIdx →
      (hmSwap s first second swap).1 = true ∧
      (hmSwap s first second swap).2.1.2 = (hmSwap s first second swap).2.2.endIdx ∧
      hmGet (hmSwap s first second swap).2.2 first = hmGet s second ∧
      contains (hmSwap s first second swap).2.2 second = false ∧
      get (hmSwap s first second swap).2.2 first = (hmSwap s first second swap).2.1.1) := by
  refine ⟨?_, ?_, ?_, ?_, ?_, ?_⟩
  · intro heq
    have hswe : hmSwap s first second swap =
        (existsIdx s (get s first), (get s first, get s first), s) := by
      simp only [hmSwap]
      rw [if_neg (not_not_intro heq), if_pos rfl]
    rw [hswe]
    exact ⟨existsIdx_get s first, rfl⟩
  · intro hne hf1 hf2
    have hpos : get s first = get s second := by rw [hf1, hf2]
    have hswe : hmSwap s first second swap =
        (existsIdx s (get s first), (get s first, get s second), s) := by
      simp only [hmSwap]
      rw [if_pos hne, if_pos hpos]
    rw [hswe]
    refine ⟨?_, hf1, hf2, rfl⟩
    show existsIdx s (get s first) = false
    rw [hf1]
    exact existsIdx_end s
  · intro hne hf1 hf2 hswt
    obtain ⟨hlt1, hlive1, hkey1⟩ := get_live s first hf1
    obtain ⟨hlt2, hlive2, hkey2⟩ := get_live s second hf2
    have hex1 : existsIdx s (get s first) = true :=
      (existsIdx_true_iff s _).mpr ⟨hlt1, hlive1⟩
    have hex2 : existsIdx s (get s second) = true :=
      (existsIdx_true_iff s _).mpr ⟨hlt2, hlive2⟩
    have hfisi : ¬get s first = get s second := by
      intro hx
      apply hne
      rw [← hkey1, ← hkey2, hx]
    have hswe : hmSwap s first second swap =
        (true, (get s first, get s second),
          { s with vals := updFn (updFn s.vals (get s first) (s.vals (get s second))) (get s second) (s.vals (get s first)) }) := by
      simp only [hmSwap]
      rw [if_pos hne, if_neg hfisi, if_pos ⟨hex1, hex2, hswt⟩]
    rw [hswe]
    refine ⟨rfl, ?_, ?_⟩
    · show hmGet { s with vals := updFn (updFn s.vals (get s first) (s.vals (get s second))) (get s second) (s.vals (get s first)) } first = hmGet s second
      rw [hmGet_vals, hmGet_found s second hf2, if_pos hf1,
        updFn_ne _ _ _ _ hfisi, updFn_same]
    · show hmGet { s with vals := updFn (updFn s.vals (get s first) (s.vals (get s second))) (get s second) (s.vals (get s first)) } second = hmGet s first
      rw [hmGet_vals, hmGet_found s first hf1, if_pos hf2, updFn_same]
  · intro hne hf1 hf2 hswf
    obtain ⟨hlt1, hlive1, hkey1⟩ := get_live s first hf1
    obtain ⟨hlt2, hlive2, hkey2⟩ := get_live s second hf2
    have hex1 : existsIdx s (get s first) = true :=
      (existsIdx_true_iff s _).mpr ⟨hlt1, hlive1⟩
    have hex2 : existsIdx s (get s second) = true :=
      (existsIdx_true_iff s _).mpr ⟨hlt2, hlive2⟩
    have hfisi : ¬get s first = get s second := by
      intro hx
      apply hne
      rw [← hkey1, ← hkey2, hx]
    have hswe : hmSwap s first second swap =
        (false, (get s first, get s second), s) := by
      simp only [hmSwap]
      rw [if_pos hne, if_neg hfisi,
        if_neg (by rintro ⟨_, _, hx⟩; rw [hswf] at hx; cases hx),
        if_neg (by rintro ⟨_, hx⟩; rw [hex2] at hx; cases hx),
        if_neg (by rintro ⟨hx, _⟩; rw [hex1] at hx; cases hx)]
    rw [hswe]
    exact ⟨rfl, rfl⟩
  · intro hne hf1 hf2
    obtain ⟨hlt1, hlive1, hkey1⟩ := get_live s first hf1
    have hex1 : existsIdx s (get s first) = true :=
      (existsIdx_true_iff s _).mpr ⟨hlt1, hlive1⟩
    have hexs2 : existsIdx s (get s second) = false := by
      rw [hf2]
      exact existsIdx_end s
    have hfisi : ¬get s first = get s second := by
      intro hx
      rw [hf2] at hx
      exact hf1 hx
    have hInv2 : Inv (remove s (get s first) true) :=
      Inv_remove s (get s first) true h
    have hgend2 : get (remove s (get s first) true) first =
        (remove s (get s first) true).endIdx :=
      remove_get_end s first h (get s first) hlt1 hlive1 hkey1 true
    have hnof2 := no_live_of_get_end _ first hInv2 hgend2
    have hnosecS := no_live_of_get_end s second h hf2
    have hnosec2 := remove_no_live_key s (get s first) true h second hnosecS
    have hr : (put (remove s (get s first) true) second).2.2 ≠ 0 :=
      put_ret_ne_zero _ second hInv2 hnosec2
    have hg := put_success_get _ second hInv2 hr
    have hnof3 := put_no_live_key _ second first hInv2 hnof2
      (fun hx => hne hx.symm)
    rcases hps : put (remove s (get s first) true) second with ⟨s3, si2, r⟩
    rw [hps] at hg hnof3
    have hget3 : get s3 second = si2 := hg.1
    have hlt3 : si2 < s3.capacity := hg.2.1
    have hnof3b : ∀ j, j < s3.capacity → isEitherF s3.flags j = false →
        s3.keys j ≠ first := hnof3
    have hswe : hmSwap s first second swap =
        (true, (s3.endIdx, si2),
          { s3 with vals := updFn s3.vals si2 (s.vals (get s first)) }) := by
      simp only [hmSwap]
      rw [if_pos hne, if_neg hfisi,
        if_neg (by rintro ⟨_, hx, _⟩; rw [hexs2] at hx; cases hx),
        if_pos ⟨hex1, hexs2⟩, hps]
    rw [hswe]
    refine ⟨rfl, rfl, ?_, ?_, ?_⟩
    · show hmGet { s3 with
          vals := updFn s3.vals si2 (s.vals (get s first)) } second =
        hmGet s first
      rw [hmGet_vals, hmGet_found s first hf1, hget3,
        if_pos (show si2 ≠ s3.endIdx from Nat.ne_of_lt hlt3), updFn_same]
    · show contains { s3 with
          vals := updFn s3.vals si2 (s.vals (get s first)) } first = false
      have hge : get s3 first = s3.endIdx := get_none s3 first hnof3b
      unfold contains
      rw [get_vals, hge]
      simp [endIdx]
    · show get { s3 with
          vals := updFn s3.vals si2 (s.vals (get s first)) } second = si2
      rw [get_vals, hget3]
  · intro hne hf1 hf2
    obtain ⟨hlt2, hlive2, hkey2⟩ := get_live s second hf2
    have hex2 : existsIdx s (get s second) = true :=
      (existsIdx_true_iff s _).mpr ⟨hlt2, hlive2⟩
    have hexs1 : existsIdx s (get s first) = false := by
      rw [hf1]
      exact existsIdx_end s
    have hfisi : ¬get s first = get s second := by
      intro hx
      rw [hf1] at hx
      exact Nat.ne_of_lt hlt2 hx.symm
    have hInv2 : Inv (remove s (get s second) true) :=
      Inv_remove s (get s second) true h
    have hgend2 : get (remove s (get s second) true) second =
        (remove s (get s second) true).endIdx :=
      remove_get_end s second h (get s second) hlt2 hlive2 hkey2 true
    have hnos2 := no_live_of_get_end _ second hInv2 hgend2
    have hnofS := no_live_of_get_end s first h hf1
    have hnof2 := remove_no_live_key s (get s second) true h first hnofS
    have hr : (put (remove s (get s second) true) first).2.2 ≠ 0 :=
      put_ret_ne_zero _ first hInv2 hnof2
    have hg := put_success_get _ first hInv2 hr
    have hnos3 := put_no_live_key _ first second hInv2 hnos2 hne
    rcases hps : put (remove s (get s second) true) first with ⟨s3, fi2, r⟩
    rw [hps] at hg hnos3
    have hget3 : get s3 first = fi2 := hg.1
    have hlt3 : fi2 < s3.capacity := hg.2.1
    have hnos3b : ∀ j, j < s3.capacity → isEitherF s3.flags j = false →
        s3.keys j ≠ second := hnos3
    have hswe : hmSwap s first second swap =
        (true, (fi2, s3.endIdx),
          { s3 with vals := updFn s3.vals fi2 (s.vals (get s second)) }) := by
      simp only [hmSwap]
      rw [if_pos hne, if_neg hfisi,
        if_neg (by rintro ⟨hx, _, _⟩; rw [hexs1] at hx; cases hx),
        if_neg (by rintro ⟨hx, _⟩; rw [hexs1] at hx; cases hx),
        if_pos ⟨hexs1, hex2⟩, hps]
    rw [hswe]
    refine ⟨rfl, rfl, ?_, ?_, ?_⟩
    · show hmGet { s3 with
          vals := updFn s3.vals fi2 (s.vals (get s second)) } first =
        hmGet s second
      rw [hmGet_vals, hmGet_found s second hf2, hget3,
        if_pos (show fi2 ≠ s3.endIdx from Nat.ne_of_lt hlt3), updFn_same]
    · show contains { s3 with
          vals := updFn s3.vals fi2 (s.vals (get s second)) } second = false
      have hge : get s3 second = s3.endIdx := get_none s3 second hnos3b
      unfold contains
      rw [get_vals, hge]
      simp [endIdx]
    · show get { s3 with
          vals := updFn s3.vals fi2 (s.vals (get s second)) } first = fi2
      rw [get_vals, hget3]

theorem claim_C9_witness :
    (1 = 2 →
      (hmSwap tableSwap 1 2 true).1 = contains tableSwap 1 ∧ (hmSwap tableSwap 1 2 true).2.2 = tableSwap) ∧
    (1 ≠ 2 → get tableSwap 1 = tableSwap.endIdx →
      get tableSwap 2 = tableSwap.endIdx →
      (hmSwap tableSwap 1 2 true).1 = false ∧ (hmSwap tableSwap 1 2 true).2.1.1 = tableSwap.endIdx ∧
      (hmSwap tableSwap 1 2 true).2.1.2 = tableSwap.endIdx ∧ (hmSwap tableSwap 1 2 true).2.2 = tableSwap) ∧
    (1 ≠ 2 → get tableSwap 1 ≠ tableSwap.endIdx →
      get tableSwap 2 ≠ tableSwap.endIdx → true = true →
      (hmSwap tableSwap 1 2 true).1 = true ∧
      hmGet (hmSwap tableSwap 1 2 true).2.2 1 = hmGet tableSwap 2 ∧
      hmGet (hmSwap tableSwap 1 2 true).2.2 2 = hmGet tableSwap 1) ∧
    (1 ≠ 2 → get tableSwap 1 ≠ tableSwap.endIdx →
      get tableSwap 2 ≠ tableSwap.endIdx → true = false →
      (hmSwap tableSwap 1 2 true).1 = false ∧ (hmSwap tableSwap 1 2 true).2.2 = tableSwap) ∧
    (1 ≠ 2 → get tableSwap 1 ≠ tableSwap.endIdx →
      get tableSwap 2 = tableSwap.endIdx →
      (hmSwap tableSwap 1 2 true).1 = true ∧
      (hmSwap tableSwap 1 2 true).2.1.1 = (hmSwap tableSwap 1 2 true).2.2.endIdx ∧
      hmGet (hmSwap tableSwap 1 2 true).2.2 2 = hmGet tableSwap 1 ∧
      contains (hmSwap tableSwap 1 2 true).2.2 1 = false ∧
      get (hmSwap tableSwap 1 2 true).2.2 2 = (hmSwap tableSwap 1 2 true).2.1.2) ∧
    (1 ≠ 2 → get tableSwap 1 = tableSwap.endIdx →
      get tableSwap 2 ≠ tableSwap.endIdx →
      (hmSwap tableSwap 1 2 true).1 = true ∧
      (hmSwap tableSwap 1 2 true).2.1.2 = (hmSwap tableSwap 1 2 true).2.2.endIdx ∧
      hmGet (hmSwap tableSwap 1 2 true).2.2 1 = hmGet tableSwap 2 ∧
      contains (hmSwap tableSwap 1 2 true).2.2 2 = false ∧
      get (hmSwap tableSwap 1 2 true).2.2 1 = (hmSwap tableSwap 1 2 true).2.1.1) :=
  claim_C9 tableSwap 1 2 true
    (Inv_hmPutAll [(1, 10), (3, 20)] (init idHash) (Inv_init idHash))

/-- C3: for every reachable table state, immediately after any mutating
operation (put, remove, resize, clear and the wrappers built on them,
which compose these primitives with value writes), occupied is at most
upperBound and size is at most occupied. -/
theorem claim_C3 (hfn : Nat → Nat) (s : Khash) (h : Reachable hfn s) :
    s.occupied ≤ s.upperBound ∧ s.size ≤ s.occupied := by
  have hi := Reachable_Inv h
  refine ⟨hi.occLe, ?_⟩
  rw [hi.sizeEq, hi.occEq]
  exact countLive_le_countNonEmpty s

/-- Witness for C3 at a concrete reachable state. -/
theorem claim_C3_witness :
    (put (init idHash) 5).1.occupied ≤ (put (init idHash) 5).1.upperBound ∧
    (put (init idHash) 5).1.size ≤ (put (init idHash) 5).1.occupied :=
  claim_C3 idHash (put (init idHash) 5).1
    (Reachable.step_put (init idHash) 5 Reachable.start)

/-- C10: for every index x that is out of range (x at least capacity,
including every x on a freshly constructed capacity-0 table) or whose
slot is not live, exists(x) is false, getKey / getValue / setValue fail
without modifying the table, and getValueReference returns nullptr. -/
theorem claim_C10 (s : Khash) (x v : Nat)
    (h : s.capacity ≤ x ∨ isEitherF s.flags x = true) :
    existsIdx s x = false ∧ getKeyAt s x = none ∧ getValueAt s x = none ∧
    setValue s x v = (false, s) ∧ getValueReference s x = none := by
  have hex : existsIdx s x = false := by
    unfold existsIdx endIdx
    rcases h with h | h
    · simp [Nat.not_lt.mpr h]
    · simp [h]
  refine ⟨hex, ?_, ?_, ?_, ?_⟩ <;>
    simp [getKeyAt, getValueAt, setValue, getValueReference, hex]

/-- Witness for C10 on the freshly constructed capacity-0 table. -/
theorem claim_C10_witness :
    existsIdx (init idHash) 3 = false ∧ getKeyAt (init idHash) 3 = none ∧
    getValueAt (init idHash) 3 = none ∧
    setValue (init idHash) 3 7 = (false, init idHash) ∧
    getValueReference (init idHash) 3 = none :=
  claim_C10 (init idHash) 3 7 (Or.inl (by decide))

/-- C4: over a power-of-two capacity the first c probe candidates
h0 + n(n+1)/2 mod c are pairwise distinct, and consequently the probe
loops of get and put terminate (exit without the defensive full-circle
bail-out) on every table that still has an empty slot. -/
theorem claim_C4 (k h0 : Nat) (hh0 : h0 < 2 ^ k) :
    (∀ a b, a < 2 ^ k → b < 2 ^ k → a ≠ b →
      probePos h0 (2 ^ k) a ≠ probePos h0 (2 ^ k) b) ∧
    (∀ (s : Khash) (key : Nat), s.capacity = 2 ^ k →
      (∃ e, e < s.capacity ∧ (s.flags e).empty = true) →
      (getLoop s key (s.capacity - 1) ((s.capacity - 1) &&& s.hfn key)
        ((s.capacity - 1) &&& s.hfn key) 0 (2 * s.capacity)).isSome = true ∧
      (putLoop s key (s.capacity - 1) ((s.capacity - 1) &&& s.hfn key)
        ((s.capacity - 1) &&& s.hfn key) 0 s.endIdx
        (2 * s.capacity)).2.2 = false) := by
  constructor
  · intro a b ha hb hne hPP
    exact hne (probePos_inj ha hb hPP)
  · intro s key hc hemp
    obtain ⟨nstar, hns, hstop, hcont, _⟩ := putIndex_spec s key hc hemp
    have hcpos := capacity_pos s hc
    constructor
    · rw [mask_start s key hc,
        getLoop_find s key nstar hc hstop hcont hns (2 * s.capacity) 0
          (Nat.zero_le _) (by omega)]
      rfl
    · rw [mask_start s key hc]
      have hl := putLoop_spec s key nstar hc hstop hcont hns (2 * s.capacity) 0
        (Nat.zero_le _) (by omega)
      rw [show siteSpec s key 0 = s.endIdx from rfl] at hl
      rw [hl]

/-- Witness for C4 at capacity 16, start slot 3, on a concrete one-entry
table. -/
theorem claim_C4_witness :
    probePos 3 (2 ^ 4) 1 ≠ probePos 3 (2 ^ 4) 2 ∧
    (getLoop tableOne 7 (tableOne.capacity - 1)
      ((tableOne.capacity - 1) &&& tableOne.hfn 7)
      ((tableOne.capacity - 1) &&& tableOne.hfn 7) 0
      (2 * tableOne.capacity)).isSome = true :=
  ⟨(claim_C4 4 3 (by decide)).1 1 2 (by decide) (by decide) (by decide),
    ((claim_C4 4 3 (by decide)).2 tableOne 7 (by decide)
      ⟨2, by decide, by decide⟩).1⟩

end Khash

end wanhive
